import Mathlib

/-!
# DenoiseFilters: Gauss, Adaptive Mean, Median and Pseudo-Median filters

A shallow embedding of the four programs `Gauss/main.cpp`, `Mean/main.cpp`,
`Median/main.cpp` and `PseudoMedian/main.cpp`, and theorems about them.

Conventions of the embedding.

* `int` values are mathematical integers (`Int`, or `Nat` where the source
  keeps them non-negative); `quint8`, `quint32` and `quint64` values are
  natural numbers, reduced explicitly modulo `2^8`, `2^32`, `2^64` wherever
  the source arithmetic is carried out in that type.
* `qreal` is `double`. Its values are elements of an ordered field `F` (`ℚ`
  for evaluation) and rounding errors are not followed, but underflow is: a
  product or quotient of doubles whose exact value is at most `2^-1075` in
  magnitude is zero, see `underflow`. A `qreal` that is not a number (the
  result of a division by zero) is `none` in `Option F`.
* `QVector<T>` is `List T`; `v[i]` is `v.getD i 0` and `v[i] = a` is
  `v.set i a`.
* A `for (i = 0; i < n; i++)` loop is `forLoop n body`.
-/

namespace DenoiseFilters

/-! ## Loops -/

/-- The state after `for (i = 0; i < n; i++) s = body i s`. -/
def forLoop {σ : Type} (n : Nat) (body : Nat → σ → σ) (s : σ) : σ :=
  match n with
  | 0 => s
  | k + 1 => body k (forLoop k body s)

/-! ## Qt colour helpers (`QRgb` is a 32-bit `0xAARRGGBB` value) -/

/-- Qt: `qRed(rgb) = (rgb >> 16) & 0xff`. -/
def qRed (rgb : Nat) : Nat := rgb / 65536 % 256

/-- Qt: `qGreen(rgb) = (rgb >> 8) & 0xff`. -/
def qGreen (rgb : Nat) : Nat := rgb / 256 % 256

/-- Qt: `qBlue(rgb) = rgb & 0xff`. -/
def qBlue (rgb : Nat) : Nat := rgb % 256

/-- Qt: `qAlpha(rgb) = rgb >> 24` on a 32-bit value. -/
def qAlpha (rgb : Nat) : Nat := rgb / 16777216 % 256

/-- Qt: `qRgba(r, g, b, a) =
((a & 0xff) << 24) | ((r & 0xff) << 16) | ((g & 0xff) << 8) | (b & 0xff)`. -/
def qRgba (r g b a : Int) : Nat :=
  (a % 256).toNat * 16777216 + (r % 256).toNat * 65536 + (g % 256).toNat * 256
    + (b % 256).toNat

/-- Qt: `qRgb(r, g, b) =
(0xff << 24) | ((r & 0xff) << 16) | ((g & 0xff) << 8) | (b & 0xff)`. -/
def qRgb (r g b : Int) : Nat :=
  255 * 16777216 + (r % 256).toNat * 65536 + (g % 256).toNat * 256 + (b % 256).toNat

/-- A `QImage` in `Format_RGB32`: `bits[x + y * width]` is the pixel in column
`x` of row `y` (four bytes per pixel, so scan lines are not padded). -/
structure QImage where
  width : Nat
  height : Nat
  bits : Nat → Nat

/-- The scan line `(const QRgb *) image.constScanLine(y)`, indexed by column. -/
def QImage.constScanLine (image : QImage) (y : Nat) (x : Nat) : Nat :=
  image.bits (x + y * image.width)

/-- The three colour channels. -/
inductive Channel where
  | red
  | green
  | blue
  deriving DecidableEq, Repr

/-- The channel of a `QRgb` value: `qRed`, `qGreen` or `qBlue`. -/
def Channel.ofRgb (c : Channel) (rgb : Nat) : Nat :=
  match c with
  | .red => qRed rgb
  | .green => qGreen rgb
  | .blue => qBlue rgb

/-- The class template `Pixel<T>`: three channel values of type `T`. -/
structure Pixel (α : Type) where
  r : α
  g : α
  b : α
  deriving DecidableEq, Repr

/-- The member of a pixel that holds channel `c`. -/
def Pixel.get {α : Type} (p : Pixel α) (c : Channel) : α :=
  match c with
  | .red => p.r
  | .green => p.g
  | .blue => p.b

/-! ## Window geometry (shared by Mean, Median and PseudoMedian)

```
int xp = qMax(x - radius, 0);
int kw = qMin(x + radius, inImage.width() - 1) - xp + 1;
```
-/

/-! The loop bodies below use the window bounds as indices and loop counts and
so convert them to natural numbers; the conversion is exact for `radius ≥ 0`,
where the bounds are non-negative. -/

/-- The first column (row) of the window: `qMax(x - radius, 0)`. -/
def windowStart (x radius : Int) : Int := max (x - radius) 0

/-- The width (height) of the window:
`qMin(x + radius, width - 1) - xp + 1`. -/
def windowLen (x radius width : Int) : Int :=
  min (x + radius) (width - 1) - windowStart x radius + 1

/-! ## Mean/main.cpp: integral images -/

/-- The modulus of `quint32` arithmetic. -/
def U32 : Nat := 4294967296

/-- The modulus of `quint64` arithmetic. -/
def U64 : Nat := 18446744073709551616

/-- The default constructor `Pixel()`: `r(0), g(0), b(0)`. -/
def Pixel.zero : Pixel Nat := ⟨0, 0, 0⟩

instance : OfNat (Pixel Nat) 0 := ⟨Pixel.zero⟩

/-- The assignment `Pixel &operator =(QRgb pixel)`. -/
def Pixel.ofRgb (pixel : Nat) : Pixel Nat := ⟨qRed pixel, qGreen pixel, qBlue pixel⟩

/-- The operator `Pixel operator +(const Pixel &other)` (also `+=` on pixels)
on an unsigned type of modulus `M`. -/
def Pixel.add (M : Nat) (p other : Pixel Nat) : Pixel Nat :=
  ⟨(p.r + other.r) % M, (p.g + other.g) % M, (p.b + other.b) % M⟩

/-- The operator `Pixel &operator +=(QRgb pixel)` on an unsigned type of
modulus `M`. -/
def Pixel.addRgb (M : Nat) (p : Pixel Nat) (pixel : Nat) : Pixel Nat :=
  ⟨(p.r + qRed pixel) % M, (p.g + qGreen pixel) % M, (p.b + qBlue pixel) % M⟩

/-- The operator `Pixel operator -(const Pixel<R> &other)` on an unsigned type
of modulus `M` (the difference wraps around). -/
def Pixel.sub (M : Nat) (p other : Pixel Nat) : Pixel Nat :=
  ⟨(((p.r : Int) - (other.r : Int)) % (M : Int)).toNat,
   (((p.g : Int) - (other.g : Int)) % (M : Int)).toNat,
   (((p.b : Int) - (other.b : Int)) % (M : Int)).toNat⟩

/-- The function `PixelU64 pow2(QRgb pixel)`: the squares of the three 8-bit
channels. -/
def pow2Rgb (pixel : Nat) : Pixel Nat :=
  ⟨qRed pixel * qRed pixel, qGreen pixel * qGreen pixel, qBlue pixel * qBlue pixel⟩

/-- The function `integralSum`: with `p0 = integral + x + y * lineWidth`,
`p1 = p0 + kw`, `p2 = p0 + kh * lineWidth`, `p3 = p2 + kw`, the value
`*p0 + *p3 - *p1 - *p2` in the unsigned type of modulus `M`. -/
def integralSum (M : Nat) (integral : List (Pixel Nat)) (lineWidth x y kw kh : Nat) :
    Pixel Nat :=
  let p0 := x + y * lineWidth
  let p1 := p0 + kw
  let p2 := p0 + kh * lineWidth
  let p3 := p2 + kw
  Pixel.sub M
    (Pixel.sub M (Pixel.add M (integral.getD p0 0) (integral.getD p3 0)) (integral.getD p1 0))
    (integral.getD p2 0)

/-- `QVector::resize(n)`: keeps the first `n` elements and appends
default-constructed ones up to size `n`. -/
def resizeVec {α : Type} (v : List α) (n : Nat) (dflt : α) : List α :=
  v.take n ++ List.replicate (n - v.length) dflt

/-- The variables of `integralImage` that its loops update: the three output
vectors and the running sums of the current line. -/
structure IntegralState where
  planes : List (Pixel Nat)
  integral : List (Pixel Nat)
  integral2 : List (Pixel Nat)
  sum : Pixel Nat
  sum2 : Pixel Nat

/-- The body of the inner loop of `integralImage`, at column `x` of line `y`
(both counted from 1). -/
def integralImageStep (image : QImage) (y x : Nat) (s : IntegralState) : IntegralState :=
  let oWidth := image.width + 1
  let pixel := image.constScanLine (y - 1) (x - 1)
  -- Accumulate pixels in current line.
  let sum := Pixel.addRgb U32 s.sum pixel
  let sum2 := Pixel.add U64 s.sum2 (pow2Rgb pixel)
  -- Offset to the current line.
  let offset := x + y * oWidth
  -- Offset to the previous line.
  let offsetPrevious := offset - oWidth
  { planes := s.planes.set ((y - 1) * image.width + (x - 1)) (Pixel.ofRgb pixel)
    -- Accumulate current line and previous line.
    integral := s.integral.set offset (Pixel.add U32 sum (s.integral.getD offsetPrevious 0))
    integral2 := s.integral2.set offset (Pixel.add U64 sum2 (s.integral2.getD offsetPrevious 0))
    sum := sum
    sum2 := sum2 }

/-- The body of the outer loop of `integralImage` for line `y` (counted from
1): reset the line sums, then run the inner loop for `x = 1 .. width`. -/
def integralImageLine (image : QImage) (y : Nat) (s : IntegralState) : IntegralState :=
  forLoop image.width (fun i t => integralImageStep image y (i + 1) t)
    { s with sum := 0, sum2 := 0 }

/-- The function `integralImage(image, planes, integral, integral2)`: the
vectors are resized (new elements are zero) and filled line by line. -/
def integralImage (image : QImage) (planes integral integral2 : List (Pixel Nat)) :
    IntegralState :=
  let oWidth := image.width + 1
  let oHeight := image.height + 1
  forLoop image.height (fun j t => integralImageLine image (j + 1) t)
    { planes := resizeVec planes (image.width * image.height) 0
      integral := resizeVec integral (oWidth * oHeight) 0
      integral2 := resizeVec integral2 (oWidth * oHeight) 0
      sum := 0
      sum2 := 0 }

/-! ### Brute-force sums (the specification side) -/

/-- The sum of `f i` for `i = 0 .. n - 1`. -/
def sumUpTo (n : Nat) (f : Nat → Nat) : Nat :=
  match n with
  | 0 => 0
  | k + 1 => sumUpTo k f + f k

/-- The brute-force sum of `val` over the pixels of the rectangle
`[x, x + kw) × [y, y + kh)` of the image, pixel by pixel. -/
def bruteSum (image : QImage) (val : Nat → Nat) (x y kw kh : Nat) : Nat :=
  sumUpTo kh (fun j => sumUpTo kw (fun i => val (image.constScanLine (y + j) (x + i))))

/-- The value of channel `c` of a pixel. -/
def chanVal (c : Channel) (pixel : Nat) : Nat := c.ofRgb pixel

/-- The squared value of channel `c` of a pixel. -/
def chanSq (c : Channel) (pixel : Nat) : Nat := c.ofRgb pixel * c.ofRgb pixel

/-- The all-zero test image of size `W × H` (black, alpha 255). -/
def zeroImage (W H : Nat) : QImage := ⟨W, H, fun _ => 4278190080⟩

/-- The all-255 test image of size `W × H` (white, alpha 255). -/
def maxImage (W H : Nat) : QImage := ⟨W, H, fun _ => 4294967295⟩

/-- The invariant of one summed-area table during `integralImage`, for a
table `tbl` of an unsigned type of modulus `M` accumulating `val c` of every
pixel, when `x` columns of line `y` (lines counted from 1) are done: entries
already written hold the prefix sum modulo `M`, the others are still zero. -/
def TableInv (image : QImage) (M : Nat) (val : Channel → Nat → Nat) (y x : Nat)
    (tbl : List (Pixel Nat)) : Prop :=
  tbl.length = (image.width + 1) * (image.height + 1) ∧
  (∀ c x1 y1, x1 ≤ image.width → y1 ≤ image.height →
    (tbl.getD (x1 + y1 * (image.width + 1)) 0).get c =
      (if y1 < y ∨ (y1 = y ∧ x1 ≤ x) then bruteSum image (val c) 0 0 x1 y1 else 0) % M)

/-- The invariant of the running line sum `sum` of `integralImage` after `x`
columns of line `y` (counted from 1). -/
def LineSum (image : QImage) (M : Nat) (val : Channel → Nat → Nat) (y x : Nat)
    (sum : Pixel Nat) : Prop :=
  ∀ c, sum.get c = sumUpTo x (fun i => val c (image.constScanLine (y - 1) i)) % M

/-- The invariant of `integralImage` after `x` columns of line `y`. -/
def StateInv (image : QImage) (y x : Nat) (s : IntegralState) : Prop :=
  TableInv image U32 chanVal y x s.integral ∧ LineSum image U32 chanVal y x s.sum ∧
  TableInv image U64 chanSq y x s.integral2 ∧ LineSum image U64 chanSq y x s.sum2

/-! ## Median/main.cpp and PseudoMedian/main.cpp: the class `Buffer` -/

/-- The class `Buffer`: the three colour planes of an image (or of a window),
its line width and its number of pixels. -/
structure Buffer where
  r : List Nat
  g : List Nat
  b : List Nat
  width : Nat
  size : Nat

/-- The plane of a buffer that holds channel `c`. -/
def Buffer.plane (buf : Buffer) (c : Channel) : List Nat :=
  match c with
  | .red => buf.r
  | .green => buf.g
  | .blue => buf.b

/-- The default constructor `Buffer()`: empty planes, `width(0), size(0)`. -/
def Buffer.empty : Buffer := ⟨[], [], [], 0, 0⟩

/-- The constructor `Buffer(const QImage &image)`: the planes are resized to
`width * height` and filled from `image.constBits()`. -/
def Buffer.ofImage (image : QImage) : Buffer :=
  let width := image.width
  let size := width * image.height
  forLoop size
    (fun i buf =>
      let pixel := image.bits i
      { buf with
        r := buf.r.set i (qRed pixel)
        g := buf.g.set i (qGreen pixel)
        b := buf.b.set i (qBlue pixel) })
    { r := resizeVec [] size 0
      g := resizeVec [] size 0
      b := resizeVec [] size 0
      width := width
      size := size }

/-- The method `constPixel(x, y)`: three pointers, one into each plane, all at
the offset `x + y * width`; the embedding keeps the offset. -/
def Buffer.constPixel (buf : Buffer) (x y : Nat) : Nat := x + y * buf.width

/-- The library call `memcpy(dst + dstOff, src + srcOff, n)` on vectors of
bytes. -/
def memcpy (dst : List Nat) (dstOff : Nat) (src : List Nat) (srcOff n : Nat) : List Nat :=
  forLoop n (fun k d => d.set (dstOff + k) (src.getD (srcOff + k) 0)) dst

/-- Qt: `qSort(container)` sorts the items in ascending order. Any sorting
algorithm returns the same list of numbers; the embedding uses insertion
sort. -/
def qSort (v : List Nat) : List Nat := v.insertionSort (· ≤ ·)

/-- The method `sort()`: each plane is sorted on its own. -/
def Buffer.sort (buf : Buffer) : Buffer :=
  { buf with r := qSort buf.r, g := qSort buf.g, b := qSort buf.b }

/-- The method `resize(width, height)`. -/
def Buffer.resize (buf : Buffer) (width height : Nat) : Buffer :=
  let size := width * height
  { r := resizeVec buf.r size 0
    g := resizeVec buf.g size 0
    b := resizeVec buf.b size 0
    width := width
    size := size }

/-- The method `copy(line, pixel)`: `width` bytes of each plane are copied to
line `line` of the buffer; `pixel` points at offset `off` of the planes of
`src`. -/
def Buffer.copy (buf : Buffer) (line : Nat) (src : Buffer) (off : Nat) : Buffer :=
  { buf with
    r := memcpy buf.r (line * buf.width) src.r off buf.width
    g := memcpy buf.g (line * buf.width) src.g off buf.width
    b := memcpy buf.b (line * buf.width) src.b off buf.width }

/-- The operator `operator [](i)`: the three plane values at index `i`. -/
def Buffer.at (buf : Buffer) (i : Nat) : Pixel Nat :=
  ⟨buf.r.getD i 0, buf.g.getD i 0, buf.b.getD i 0⟩

/-! ## Median/main.cpp: the loop body of `main` -/

/-- The body of the loops of `main` in `Median/main.cpp` for the output pixel
`(x, y)`: the value stored in `oLine[x]` and the scratch `buffer` afterwards.
`buffer` is the scratch buffer as the previous iteration left it. -/
def medianPixel (inImage : QImage) (image : Buffer) (radius : Int) (buffer : Buffer)
    (x y : Nat) : Nat × Buffer :=
  let yp := (windowStart y radius).toNat
  let kh := (windowLen y radius inImage.height).toNat
  let xp := (windowStart x radius).toNat
  let kw := (windowLen x radius inImage.width).toNat
  -- Adjust the buffer to the number of pixels we want to sort.
  let buffer := buffer.resize kw kh
  -- Copy all pixels in scan window to the buffer.
  let buffer := forLoop kh (fun j buf => buf.copy j image (image.constPixel xp (yp + j))) buffer
  -- Sort the buffer.
  let buffer := buffer.sort
  -- Select the pixel in the middle of the buffer.
  let pixel := buffer.at (buffer.size / 2)
  (qRgb pixel.r pixel.g pixel.b, buffer)

/-- The Median filter at pixel `(x, y)`, from the input image: `main` builds
`Buffer image(inImage)` and runs the loop body. -/
def medianOutput (inImage : QImage) (radius : Int) (buffer : Buffer) (x y : Nat) : Nat :=
  (medianPixel inImage (Buffer.ofImage inImage) radius buffer x y).1

/-! ## PseudoMedian/main.cpp: the loop body of `main` -/

/-- The six running extrema of the pseudo-median scan. -/
structure MinMax where
  minR : Nat
  minG : Nat
  minB : Nat
  maxR : Nat
  maxG : Nat
  maxB : Nat

/-- The running minimum of channel `c`. -/
def MinMax.lo (m : MinMax) (c : Channel) : Nat :=
  match c with
  | .red => m.minR
  | .green => m.minG
  | .blue => m.minB

/-- The running maximum of channel `c`. -/
def MinMax.hi (m : MinMax) (c : Channel) : Nat :=
  match c with
  | .red => m.maxR
  | .green => m.maxG
  | .blue => m.maxB

/-- The six comparisons of the innermost loop body, for the sample at offset
`pixel + i` of the planes. -/
def pseudoMedianStep (image : Buffer) (pixel i : Nat) (m : MinMax) : MinMax :=
  let m := if image.r.getD (pixel + i) 0 < m.minR then
    { m with minR := image.r.getD (pixel + i) 0 } else m
  let m := if image.r.getD (pixel + i) 0 > m.maxR then
    { m with maxR := image.r.getD (pixel + i) 0 } else m
  let m := if image.g.getD (pixel + i) 0 < m.minG then
    { m with minG := image.g.getD (pixel + i) 0 } else m
  let m := if image.g.getD (pixel + i) 0 > m.maxG then
    { m with maxG := image.g.getD (pixel + i) 0 } else m
  let m := if image.b.getD (pixel + i) 0 < m.minB then
    { m with minB := image.b.getD (pixel + i) 0 } else m
  let m := if image.b.getD (pixel + i) 0 > m.maxB then
    { m with maxB := image.b.getD (pixel + i) 0 } else m
  m

/-- The scan of the window: the running extrema after the two nested loops. -/
def pseudoMedianScan (image : Buffer) (xp yp kw kh : Nat) : MinMax :=
  forLoop kh
    (fun j m =>
      let pixel := image.constPixel xp (yp + j)
      forLoop kw (fun i m => pseudoMedianStep image pixel i m) m)
    { minR := 255, minG := 255, minB := 255, maxR := 0, maxG := 0, maxB := 0 }

/-- The body of the loops of `main` in `PseudoMedian/main.cpp` for the output
pixel `(x, y)`: the value stored in `oLine[x]`. -/
def pseudoMedianPixel (inImage : QImage) (image : Buffer) (radius : Int) (x y : Nat) : Nat :=
  let yp := (windowStart y radius).toNat
  let kh := (windowLen y radius inImage.height).toNat
  let xp := (windowStart x radius).toNat
  let kw := (windowLen x radius inImage.width).toNat
  -- Compare the pixels.
  let m := pseudoMedianScan image xp yp kw kh
  let r := (m.minR + m.maxR) / 2 % 256
  let g := (m.minG + m.maxG) / 2 % 256
  let b := (m.minB + m.maxB) / 2 % 256
  qRgb r g b

/-- The Pseudo-Median filter at pixel `(x, y)`, from the input image. -/
def pseudoMedianOutput (inImage : QImage) (radius : Int) (x y : Nat) : Nat :=
  pseudoMedianPixel inImage (Buffer.ofImage inImage) radius x y

/-! ## Arithmetic on `qreal`

`qreal` values are elements of an ordered field `F`. IEEE arithmetic answers a
division by zero with an infinity or with a NaN; in these programs every value
so obtained ends in a NaN or in an undefined conversion to `int`, so the
embedding has one value `none` for "not a finite number", and `none`
propagates through the operations. -/

section QReal

variable {F : Type} [LinearOrderedField F] [FloorRing F]

/-- The double that IEEE arithmetic (round to nearest) returns for a product
or quotient of exact value `v` near zero: a result of magnitude at most
`2^-1075`, half of the least positive double `2^-1074`, is rounded to zero
(underflow). A greater value is rounded to a non-zero double, for which the
embedding keeps `v`.

The embedding applies `underflow` to the products and quotients of the source
whose result can be zero by underflow and is used as a factor, as a divisor or
as a weight afterwards: `-2 * sigma * sigma` and `kernel[i] /= sum` in
`Gauss/main.cpp`, `mult(sigma, dev)` and `dev * dev` in `Mean/main.cpp`. The
others are kept exact. A weight times an 8-bit sample is a double times an
integer, zero only if a factor is; so is `mult(-2., dev * dev)`. A sum of 8-bit
values divided by the integer `ks` is zero or at least `1 / ks`, and so is
`d = mean - pixel` in magnitude unless `mean` is clamped, where `d` is an
integer; hence `d * d` does not underflow. The quotients
`(x * x + y * y) / sigma2` and `d * d / h` are arguments of `exp` only, and
the final `sum / sumW`, a mean of 8-bit samples, is only converted to `int`.
The library function `exp`, whose result underflows to zero below about
`-745.13`, is a parameter of the embedding. -/
def underflow (v : F) : F := if |v| * 2 ^ 1075 ≤ 1 then 0 else v

/-- The division `a / b` of two finite `qreal`s. -/
def fdiv (a b : F) : Option F := if b = 0 then none else some (a / b)

/-- The division of two `qreal`s. -/
def qdiv (a b : Option F) : Option F :=
  match a, b with
  | some p, some q => fdiv p q
  | _, _ => none

/-- The sum of two `qreal`s. -/
def qadd (a b : Option F) : Option F :=
  match a, b with
  | some p, some q => some (p + q)
  | _, _ => none

/-- The product of two `qreal`s. -/
def qmul (a b : Option F) : Option F :=
  match a, b with
  | some p, some q => some (p * q)
  | _, _ => none

/-- The conversion of a finite `qreal` to `int`: truncation toward zero. -/
def truncToInt (v : F) : Int := if 0 ≤ v then ⌊v⌋ else ⌈v⌉

/-- The conversion of a `qreal` to `int`; C++ leaves the conversion of a value
that is not finite undefined, `undef` is what the platform returns then. -/
def realToInt (undef : Int) (v : Option F) : Int :=
  match v with
  | some q => truncToInt q
  | none => undef

/-- Qt: `qBound(min, val, max) = qMax(min, qMin(max, val))` with
`qMin(a, b) = (a < b) ? a : b` and `qMax(a, b) = (a < b) ? b : a`. Every
comparison with a NaN is false, so a NaN is bounded to `min`, which is the
value given for `none`; in `Mean/main.cpp` the bounded values are quotients by
`ks = kw * kh`, a product of two non-zero integers, so `none` does not occur
there. -/
def qBound (min : F) (val : Option F) (max : F) : F :=
  match val with
  | some v => Max.max min (Min.min max v)
  | none => min

/-- Apply `f` to the three channels of a pixel. -/
def Pixel.map {α β : Type} (f : α → β) (p : Pixel α) : Pixel β := ⟨f p.r, f p.g, f p.b⟩

/-- Combine two pixels channel by channel. -/
def Pixel.zip {α β γ : Type} (f : α → β → γ) (p : Pixel α) (q : Pixel β) : Pixel γ :=
  ⟨f p.r q.r, f p.g q.g, f p.b q.b⟩

/-! ## Gauss/main.cpp -/

/-- The function `gaussKernel(radius, sigma, &kl)`: the kernel and the value
stored in `*kl`. `exp` is the exponential function of the library. The kernel
is `none` when it holds values that are not finite: when `sigma2` is zero, for
`sigma = 0` or by underflow of the product, the centre weight is `exp(0 / 0)`,
a NaN, and so are `sum` and every normalised weight; the same holds for
`sum = 0`. -/
def gaussKernel (exp : F → F) (radius : Int) (sigma : F) : Option (List F) × Int :=
  let kw := 2 * radius + 1
  let kernel : List F := List.replicate (kw * kw).toNat 0
  let sum : F := 0
  let filled := forLoop kw.toNat
    (fun j st => forLoop kw.toNat
      (fun i (st : List F × F) =>
        let x : Int := i - radius
        let y : Int := j - radius
        let sigma2 := underflow (-2 * sigma * sigma)
        let weight := exp (((x * x + y * y : Int) : F) / sigma2)
        (st.1.set (i + j * kw.toNat) weight, st.2 + weight))
      st)
    (kernel, sum)
  -- Normalize weights.
  let normalised := forLoop filled.1.length
    (fun i (k : List F) => k.set i (underflow (k.getD i 0 / filled.2))) filled.1
  (if underflow (-2 * sigma * sigma) = 0 ∨ filled.2 = 0 then none else some normalised, kw)

/-- The variables updated by the kernel loops of `main`. -/
structure GaussAcc (F : Type) where
  sum : Pixel F
  sumW : F
  pos : Nat

/-- The body of the inner kernel loop, with its `i++, pos++`: a tap outside
the image is skipped by `continue`, which still runs `pos++`. -/
def gaussTap (inImage : QImage) (kernel : List F) (radius : Int) (x y j i : Nat)
    (acc : GaussAcc F) : GaussAcc F :=
  if (x : Int) + i < radius ∨ (x : Int) + i ≥ radius + inImage.width then
    { acc with pos := acc.pos + 1 }
  else
    let pixel := Pixel.ofRgb
      (inImage.constScanLine ((y : Int) + j - radius).toNat ((x : Int) + i - radius).toNat)
    let weight := kernel.getD acc.pos 0
    { sum := Pixel.zip (· + ·) acc.sum (pixel.map (fun (v : Nat) => weight * (v : F)))
      sumW := acc.sumW + weight
      pos := acc.pos + 1 }

/-- The kernel loops of `main` for the output pixel `(x, y)`,
`for (int j = 0, pos = 0; j < kw; j++)`: a line outside the image is skipped
by `continue` before the inner loop, so `pos` does not advance for it. -/
def gaussAccumulate (inImage : QImage) (kernel : List F) (kw radius : Int) (x y : Nat) :
    GaussAcc F :=
  forLoop kw.toNat
    (fun j acc =>
      if (y : Int) + j < radius ∨ (y : Int) + j ≥ radius + inImage.height then acc
      else forLoop kw.toNat (fun i a => gaussTap inImage kernel radius x y j i a) acc)
    { sum := ⟨0, 0, 0⟩, sumW := 0, pos := 0 }

/-- The colour of the output pixel before the conversion to integers:
`sum /= sumW`. -/
def gaussColour (inImage : QImage) (kernel : List F) (kw radius : Int) (x y : Nat) :
    Pixel (Option F) :=
  let acc := gaussAccumulate inImage kernel kw radius x y
  acc.sum.map (fun v => fdiv v acc.sumW)

/-- The value stored in `oLine[x]`:
`qRgba(sum.r, sum.g, sum.b, qAlpha(iLine[x]))`. -/
def gaussPixel (undef : Int) (inImage : QImage) (kernel : List F) (kw radius : Int)
    (x y : Nat) : Nat :=
  let sum := gaussColour inImage kernel kw radius x y
  qRgba (realToInt undef sum.r) (realToInt undef sum.g) (realToInt undef sum.b)
    (qAlpha (inImage.constScanLine y x))

/-- The Gaussian filter at pixel `(x, y)`: `main` builds the kernel and runs
the loop body. With a kernel of NaNs the colour is not finite. -/
def gaussOutput (exp : F → F) (undef : Int) (inImage : QImage) (radius : Int) (sigma : F)
    (x y : Nat) : Nat :=
  match gaussKernel exp radius sigma with
  | (some kernel, kw) => gaussPixel undef inImage kernel kw radius x y
  | (none, _) => qRgba undef undef undef (qAlpha (inImage.constScanLine y x))

/-! ### The Gaussian filter as the specification words it -/

/-- The kernel taps `(i, j)`, `0 ≤ i, j < kw`, whose source pixel
`(x + i - radius, y + j - radius)` lies inside the image. -/
def gaussTaps (inImage : QImage) (radius : Int) (x y : Nat) : List (Nat × Nat) :=
  (List.range (2 * radius + 1).toNat).flatMap (fun (j : Nat) =>
    ((List.range (2 * radius + 1).toNat).filter (fun (i : Nat) =>
      decide (radius ≤ (x : Int) + i ∧ (x : Int) + i < radius + inImage.width ∧
        radius ≤ (y : Int) + j ∧ (y : Int) + j < radius + inImage.height))).map
      (fun i => (i, j)))

/-- The colour the specification gives the output pixel: the sum of
`K[i + j * kw] * in(x + i - radius, y + j - radius)` divided by the sum of
`K[i + j * kw]`, both over the taps inside the image. -/
def gaussSpecColour (inImage : QImage) (K : List F) (radius : Int) (x y : Nat)
    (c : Channel) : Option F :=
  let kw := (2 * radius + 1).toNat
  let taps := gaussTaps inImage radius x y
  fdiv
    ((taps.map (fun t => K.getD (t.1 + t.2 * kw) 0 *
      ((c.ofRgb (inImage.constScanLine ((y : Int) + t.2 - radius).toNat
        ((x : Int) + t.1 - radius).toNat) : Nat) : F))).sum)
    ((taps.map (fun t => K.getD (t.1 + t.2 * kw) 0)).sum)

/-! ## Mean/main.cpp: the loop body of `main` -/

/-- The operator `operator *(quint32 c, const Pixel<T> &pixel)` on a
`PixelU64`: `c * pixel.r` is a `quint64`, stored in a `quint32`. -/
def mulU32 (c : Nat) (pixel : Pixel Nat) : Pixel Nat :=
  pixel.map (fun v => c * v % U64 % U32)

/-- The function `pow2(const Pixel<T> &pixel)` on a `PixelU32`. -/
def pow2 (pixel : Pixel Nat) : Pixel Nat := pixel.map (fun v => v * v % U32)

/-- The function `sqrt(const Pixel<T> &pixel)` on a `PixelU32`: `std::sqrt`
returns a `double`, which the constructor of `Pixel<quint32>` converts to
`quint32`, so each channel is the integer part of the square root. -/
def sqrtU32 (pixel : Pixel Nat) : Pixel Nat := pixel.map Nat.sqrt

/-- The `PixelU32` value `ks * sum2 - pow2(sum)` of `main`, where `ks` is
converted to `quint32` for the product. -/
def meanRadicand (ks : Int) (sum sum2 : Pixel Nat) : Pixel Nat :=
  Pixel.sub U32 (mulU32 (ks % (U32 : Int)).toNat sum2) (pow2 sum)

/-- The value `sqrt(ks * sum2 - pow2(sum)) / ks`: the local deviation before
the gain `sigma` and the clamp to `[0, 127]`. -/
def meanDeviation (ks : Int) (sum sum2 : Pixel Nat) : Pixel (Option F) :=
  (sqrtU32 (meanRadicand ks sum sum2)).map (fun (v : Nat) => fdiv (v : F) (ks : F))

/-- The local deviation `sqrt(ks * sum2 - pow2(sum)) / ks` that `main`
computes for the window of the pixel `(x, y)`, from the integral images. -/
def localDeviation (inImage : QImage) (s : IntegralState) (radius : Int) (x y : Nat) :
    Pixel (Option F) :=
  let oWidth := inImage.width + 1
  let yp := (windowStart y radius).toNat
  let kh := (windowLen y radius inImage.height).toNat
  let xp := (windowStart x radius).toNat
  let kw := (windowLen x radius inImage.width).toNat
  let sum := integralSum U32 s.integral oWidth xp yp kw kh
  let sum2 := integralSum U64 s.integral2 oWidth xp yp kw kh
  let ks : Int := windowLen x radius inImage.width * windowLen y radius inImage.height
  meanDeviation ks sum sum2

/-- The sums of the weighted average. -/
structure MeanAcc (F : Type) where
  sumP : Pixel (Option F)
  sumW : Pixel (Option F)

/-- The body of the innermost loop of `main`: the weight of the sample at
`line[xp + i]`, `line = planes + (yp + j) * width`, and the two sums. -/
def meanTap (exp : F → F) (planes : List (Pixel Nat)) (width : Nat) (mean dev : Pixel F)
    (xp yp j i : Nat) (acc : MeanAcc F) : MeanAcc F :=
  -- Calculate weighted avverage.
  let pixel := planes.getD ((yp + j) * width + (xp + i)) 0
  let d : Pixel F := Pixel.zip (fun (m : F) (v : Nat) => m - (v : F)) mean pixel
  let h : Pixel F := (Pixel.zip (fun a b => underflow (a * b)) dev dev).map (fun v => -2 * v)
  let weight : Pixel (Option F) :=
    (Pixel.zip fdiv (Pixel.zip (· * ·) d d) h).map (Option.map exp)
  { sumP := Pixel.zip qadd acc.sumP (Pixel.zip (fun (w : Option F) (v : Nat) => qmul w (some (v : F))) weight pixel)
    sumW := Pixel.zip qadd acc.sumW weight }

/-- The colour of the output pixel `(x, y)` of the Adaptive Mean filter before
the conversion to integers: `sumP /= sumW`. -/
def meanColour (exp : F → F) (inImage : QImage) (s : IntegralState) (radius mu : Int)
    (sigma : F) (x y : Nat) : Pixel (Option F) :=
  let oWidth := inImage.width + 1
  let yp := (windowStart y radius).toNat
  let kh := (windowLen y radius inImage.height).toNat
  let xp := (windowStart x radius).toNat
  let kw := (windowLen x radius inImage.width).toNat
  -- Calculate summation and cuadratic summation of the pixels.
  let sum := integralSum U32 s.integral oWidth xp yp kw kh
  let ks : Int := windowLen x radius inImage.width * windowLen y radius inImage.height
  -- Calculate mean and standard deviation.
  let mean : Pixel (Option F) := sum.map (fun (v : Nat) => fdiv (v : F) (ks : F))
  let dev : Pixel (Option F) := localDeviation inImage s radius x y
  let mean : Pixel F := mean.map (fun v => qBound 0 (qadd v (some (mu : F))) 255)
  let dev : Pixel F := dev.map (fun v => qBound 0 ((qmul (some sigma) v).map underflow) 127)
  let acc := forLoop kh
    (fun j a => forLoop kw
      (fun i b => meanTap exp s.planes inImage.width mean dev xp yp j i b) a)
    { sumP := ⟨some 0, some 0, some 0⟩, sumW := ⟨some 0, some 0, some 0⟩ }
  -- Normalize result.
  Pixel.zip qdiv acc.sumP acc.sumW

/-- The value stored in `oLine[x]`:
`qRgba(sumP.r, sumP.g, sumP.b, qAlpha(iLine[x]))`. -/
def meanPixel (exp : F → F) (undef : Int) (inImage : QImage) (s : IntegralState)
    (radius mu : Int) (sigma : F) (x y : Nat) : Nat :=
  let sumP := meanColour exp inImage s radius mu sigma x y
  qRgba (realToInt undef sumP.r) (realToInt undef sumP.g) (realToInt undef sumP.b)
    (qAlpha (inImage.constScanLine y x))

/-- The Adaptive Mean filter at pixel `(x, y)`: `main` builds the integral
images from empty vectors and runs the loop body. -/
def meanOutput (exp : F → F) (undef : Int) (inImage : QImage) (radius mu : Int) (sigma : F)
    (x y : Nat) : Nat :=
  meanPixel exp undef inImage (integralImage inImage [] [] []) radius mu sigma x y

end QReal

/-- A rational function with value `1` at `0` and positive everywhere, used in
place of `exp` when the filters are evaluated over `ℚ`. -/
def expQ (q : ℚ) : ℚ := 1 / (1 - q + q * q / 2)

/-- A function over `ℚ` that underflows as the double `exp` does: the library
returns `0` for every argument below about `-745.13`; here the value is `0`
below `-746` and that of `expQ` elsewhere. -/
def expFlush (q : ℚ) : ℚ := if q < -746 then 0 else expQ q

/-- A `1 × 2` test image: a black pixel above a red one. -/
def columnImage : QImage :=
  ⟨1, 2, fun i => [4278190080, 4278190080 + 65536 * 255].getD i 0⟩

/-- A `3 × 1` test image with red channel `0, 0, 1`. -/
def rowImage : QImage :=
  ⟨3, 1, fun i => [4278190080, 4278190080, 4278190080 + 65536].getD i 0⟩

/-- A `2 × 2` test image in which every pixel has the colour `(5, 6, 7)`. -/
def uniformImage : QImage := ⟨2, 2, fun _ => 4278190080 + 65536 * 5 + 256 * 6 + 7⟩

/-! ### Window samples (the specification side) -/

/-- The samples of channel `c` in the window `[xp, xp + kw) × [yp, yp + kh)`,
line by line: sample `k` is the pixel in column `xp + k % kw` of line
`yp + k / kw`. -/
def windowSamples (image : QImage) (c : Channel) (xp yp kw kh : Nat) : List Nat :=
  (List.range (kw * kh)).map
    (fun k => c.ofRgb (image.constScanLine (yp + k / kw) (xp + k % kw)))

/-- The samples of channel `c` in the clamped window of radius `radius` around
the pixel `(x, y)`. -/
def clampedSamples (image : QImage) (c : Channel) (radius : Int) (x y : Nat) : List Nat :=
  windowSamples image c (windowStart x radius).toNat (windowStart y radius).toNat
    (windowLen x radius image.width).toNat (windowLen y radius image.height).toNat

/-- A `3 × 3` test image whose red channel holds `0,0,0,0,100,0,0,0,200`. -/
def windowImage : QImage :=
  ⟨3, 3, fun i => 4278190080 + 65536 * [0, 0, 0, 0, 100, 0, 0, 0, 200].getD i 0⟩

/-- A small test image of size `3 × 2` with distinct channel values. -/
def testImage : QImage :=
  ⟨3, 2, fun i => [4278190080 + 65536 * 10 + 256 * 20 + 30, 4278190080 + 65536 * 1,
    4278190080 + 255, 4278190080 + 65536 * 200 + 256 * 100 + 7, 4278190080 + 256 * 255,
    4294967295].getD i 0⟩

/-! ## The loops of `main` over the output pixels

Each `main` allocates `QImage outImage(inImage.size(), inImage.format())`,
whose pixel data is not initialised, and runs
`for (y = 0; y < height; y++) for (x = 0; x < width; x++) oLine[x] = ...`
with `oLine = (QRgb *) outImage.scanLine(y)`. -/

section Filters

variable {F : Type} [LinearOrderedField F] [FloorRing F]

/-- The constructor `QImage(inImage.size(), inImage.format())`: an image of the
size of `inImage` whose pixel data `garbage` is whatever the memory held. -/
def newImage (inImage : QImage) (garbage : Nat → Nat) : QImage :=
  ⟨inImage.width, inImage.height, garbage⟩

/-- The assignment `oLine[x] = v` with `oLine = (QRgb *) image.scanLine(y)`. -/
def QImage.setPixelAt (image : QImage) (y x v : Nat) : QImage :=
  { image with bits := fun k => if k = x + y * image.width then v else image.bits k }

/-- The pixel loops of `main` in `Gauss/main.cpp`; the kernel, built once
before the loops, is the same for every pixel. -/
def gaussFilter (exp : F → F) (undef : Int) (inImage : QImage) (radius : Int) (sigma : F)
    (garbage : Nat → Nat) : QImage :=
  forLoop inImage.height
    (fun y out => forLoop inImage.width
      (fun x o => o.setPixelAt y x (gaussOutput exp undef inImage radius sigma x y)) out)
    (newImage inImage garbage)

/-- The pixel loops of `main` in `Mean/main.cpp`, after
`integralImage(inImage, planes, integral, integral2)` on three empty vectors. -/
def meanFilter (exp : F → F) (undef : Int) (inImage : QImage) (radius mu : Int) (sigma : F)
    (garbage : Nat → Nat) : QImage :=
  let s := integralImage inImage [] [] []
  forLoop inImage.height
    (fun y out => forLoop inImage.width
      (fun x o => o.setPixelAt y x (meanPixel exp undef inImage s radius mu sigma x y)) out)
    (newImage inImage garbage)

/-- The pixel loops of `main` in `Median/main.cpp`, after `Buffer image(inImage)`
and `Buffer buffer`; the scratch buffer is carried from pixel to pixel. -/
def medianFilter (inImage : QImage) (radius : Int) (garbage : Nat → Nat) : QImage :=
  let image := Buffer.ofImage inImage
  (forLoop inImage.height
    (fun y st => forLoop inImage.width
      (fun x (t : QImage × Buffer) =>
        let r := medianPixel inImage image radius t.2 x y
        (t.1.setPixelAt y x r.1, r.2)) st)
    (newImage inImage garbage, Buffer.empty)).1

/-- The pixel loops of `main` in `PseudoMedian/main.cpp`, after
`Buffer image(inImage)`. -/
def pseudoMedianFilter (inImage : QImage) (radius : Int) (garbage : Nat → Nat) : QImage :=
  let image := Buffer.ofImage inImage
  forLoop inImage.height
    (fun y out => forLoop inImage.width
      (fun x o => o.setPixelAt y x (pseudoMedianPixel inImage image radius x y)) out)
    (newImage inImage garbage)

/-! ### Parts of the Adaptive Mean loop body, by name -/

/-- The `PixelU32` value `ks * sum2 - pow2(sum)` that `main` computes for the
window of the pixel `(x, y)`, from the integral images. -/
def localRadicand (inImage : QImage) (s : IntegralState) (radius : Int) (x y : Nat) :
    Pixel Nat :=
  let oWidth := inImage.width + 1
  let yp := (windowStart y radius).toNat
  let kh := (windowLen y radius inImage.height).toNat
  let xp := (windowStart x radius).toNat
  let kw := (windowLen x radius inImage.width).toNat
  let sum := integralSum U32 s.integral oWidth xp yp kw kh
  let sum2 := integralSum U64 s.integral2 oWidth xp yp kw kh
  let ks : Int := windowLen x radius inImage.width * windowLen y radius inImage.height
  meanRadicand ks sum sum2

/-- The value `mean = bound(0., mean + mu, 255.)` of `main` at the pixel
`(x, y)`: the adjusted, clamped mean of the window. -/
def adjustedMean (inImage : QImage) (s : IntegralState) (radius mu : Int) (x y : Nat) :
    Pixel F :=
  let oWidth := inImage.width + 1
  let yp := (windowStart y radius).toNat
  let kh := (windowLen y radius inImage.height).toNat
  let xp := (windowStart x radius).toNat
  let kw := (windowLen x radius inImage.width).toNat
  let sum := integralSum U32 s.integral oWidth xp yp kw kh
  let ks : Int := windowLen x radius inImage.width * windowLen y radius inImage.height
  let mean : Pixel (Option F) := sum.map (fun (v : Nat) => fdiv (v : F) (ks : F))
  mean.map (fun v => qBound 0 (qadd v (some (mu : F))) 255)

/-- The value `dev = bound(0., mult(sigma, dev), 127.)` of `main` at the pixel
`(x, y)`: the adjusted, clamped deviation of the window. -/
def adjustedDeviation (inImage : QImage) (s : IntegralState) (radius : Int) (sigma : F)
    (x y : Nat) : Pixel F :=
  (localDeviation inImage s radius x y).map
    (fun v => qBound 0 ((qmul (some sigma) v).map underflow) 127)

/-! ### The weighted mean and the kernel weights as the specification words them -/

/-- The weight `exp(-(mean - s)^2 / (2 * dev^2))` of a sample `s`. -/
def sampleWeight (exp : F → F) (mean dev : F) (s : Nat) : F :=
  exp (-((mean - (s : F)) ^ 2) / (2 * dev ^ 2))

/-- The weighted mean `(sum of w_s * s) / (sum of w_s)` over a list of
samples. -/
def weightedMean (exp : F → F) (mean dev : F) (samples : List Nat) : F :=
  (samples.map (fun s => sampleWeight exp mean dev s * (s : F))).sum
    / (samples.map (fun s => sampleWeight exp mean dev s)).sum

/-- The Gaussian weight `exp(-(dx^2 + dy^2) / (2 * sigma^2))` of the offset
`(dx, dy)` from the centre. -/
def gaussWeight (exp : F → F) (sigma : F) (dx dy : Int) : F :=
  exp (-(((dx ^ 2 + dy ^ 2 : Int) : F)) / (2 * sigma ^ 2))

end Filters

/-- A `2 × 1` test image whose pixels have the alpha bytes 0 and 128. -/
def alphaImage : QImage :=
  ⟨2, 1, fun i => [65536 * 10 + 256 * 20 + 30, 2147483648 + 65536 * 40 + 256 * 50 + 60].getD i 0⟩

/-- A `3 × 1` test image with the colours `(0, 1, 2)`, `(1, 2, 0)`, `(2, 0, 1)`. -/
def mixImage : QImage :=
  ⟨3, 1, fun i => [4278190080 + 256 * 1 + 2, 4278190080 + 65536 * 1 + 256 * 2,
    4278190080 + 65536 * 2 + 1].getD i 0⟩

/-- A `1 × 1` test image with the colour `(10, 20, 30)`. -/
def pixelImage : QImage := ⟨1, 1, fun _ => 4278190080 + 65536 * 10 + 256 * 20 + 30⟩

/-- The weight that the loops of `gaussKernel` store at index `k = i + j * n`
of the kernel, before normalisation: `exp((x * x + y * y) / sigma2)` with
`x = i - radius`, `y = j - radius` and the double `sigma2 = -2 * sigma * sigma`. -/
def kernelWeight {F : Type} [LinearOrderedField F] [FloorRing F] (exp : F → F) (radius : Int)
    (sigma : F) (n k : Nat) : F :=
  let x : Int := ((k % n : Nat) : Int) - radius
  let y : Int := ((k / n : Nat) : Int) - radius
  exp (((x * x + y * y : Int) : F) / underflow (-2 * sigma * sigma))

/-! ### The offsets that the window-based loops dereference -/

/-- The four offsets into the table that `integralSum` dereferences, in the
order of `*p0 + *p3 - *p1 - *p2`: `p0 = x + y * lineWidth`, `p1 = p0 + kw`,
`p2 = p0 + kh * lineWidth`, `p3 = p2 + kw`. -/
def integralSumOffsets (lineWidth x y kw kh : Nat) : List Nat :=
  let p0 := x + y * lineWidth
  let p1 := p0 + kw
  let p2 := p0 + kh * lineWidth
  let p3 := p2 + kw
  [p0, p3, p1, p2]

/-- The pixel `(i, j)` lies in the clamped window of radius `radius` around
the pixel `(x, y)`: `xp ≤ i < xp + kw` and `yp ≤ j < yp + kh`. -/
def inWindow (image : QImage) (radius : Int) (x y i j : Nat) : Prop :=
  (windowStart x radius).toNat ≤ i ∧
  i < (windowStart x radius).toNat + (windowLen x radius image.width).toNat ∧
  (windowStart y radius).toNat ≤ j ∧
  j < (windowStart y radius).toNat + (windowLen y radius image.height).toNat

instance (image : QImage) (radius : Int) (x y i j : Nat) :
    Decidable (inWindow image radius x y i j) :=
  inferInstanceAs (Decidable (_ ∧ _ ∧ _ ∧ _))

/-! ## Theorems -/

/-- C2: for `W, H ≥ 1`, `radius ≥ 0` and a pixel `(x, y)` of the image, the
clamped window is non-empty, contains `(x, y)` and lies inside the image; for
`x = 0`, `radius = 3`, `W = 10` it starts at `0` and is `4` wide. -/
theorem window_inside_image (W H radius x y : Int) (hW : 1 ≤ W) (hH : 1 ≤ H)
    (hr : 0 ≤ radius) (hx0 : 0 ≤ x) (hx : x < W) (hy0 : 0 ≤ y) (hy : y < H) :
    (1 ≤ windowLen x radius W ∧ 1 ≤ windowLen y radius H) ∧
    (windowStart x radius ≤ x ∧ x < windowStart x radius + windowLen x radius W ∧
      windowStart y radius ≤ y ∧ y < windowStart y radius + windowLen y radius H) ∧
    (0 ≤ windowStart x radius ∧ windowStart x radius + windowLen x radius W ≤ W ∧
      0 ≤ windowStart y radius ∧ windowStart y radius + windowLen y radius H ≤ H) ∧
    (windowStart 0 3 = 0 ∧ windowLen 0 3 10 = 4) := by
  unfold windowLen windowStart
  refine ⟨⟨?_, ?_⟩, ⟨?_, ?_, ?_, ?_⟩, ⟨?_, ?_, ?_, ?_⟩, ?_, ?_⟩ <;> omega

/-- Witness for C2: the corner pixel `(0, 0)` of a `10 × 10` image, radius 3. -/
theorem window_inside_image_witness :
    (1 ≤ windowLen 0 3 10 ∧ 1 ≤ windowLen 0 3 10) ∧
    (windowStart 0 3 ≤ 0 ∧ 0 < windowStart 0 3 + windowLen 0 3 10 ∧
      windowStart 0 3 ≤ 0 ∧ 0 < windowStart 0 3 + windowLen 0 3 10) ∧
    (0 ≤ windowStart 0 3 ∧ windowStart 0 3 + windowLen 0 3 10 ≤ 10 ∧
      0 ≤ windowStart 0 3 ∧ windowStart 0 3 + windowLen 0 3 10 ≤ 10) ∧
    (windowStart 0 3 = 0 ∧ windowLen 0 3 10 = 4) :=
  window_inside_image 10 10 3 0 0 (by decide) (by decide) (by decide) (by decide)
    (by decide) (by decide) (by decide)

/-! ### Auxiliary lemmas: lists, sums and indices -/

theorem getD_set_eq {α : Type} (l : List α) (i j : Nat) (a d : α) :
    (l.set i a).getD j d = if i = j ∧ i < l.length then a else l.getD j d := by
  simp only [List.getD_eq_getElem?_getD, List.getElem?_set]
  by_cases h : i = j
  · subst h
    by_cases h2 : i < l.length
    · simp [h2]
    · simp [h2, List.getElem?_eq_none (Nat.le_of_not_lt h2)]
  · simp [h]

theorem getD_resizeVec_nil (n i : Nat) :
    (resizeVec ([] : List (Pixel Nat)) n 0).getD i 0 = 0 := by
  simp only [resizeVec, List.take_nil, List.nil_append, List.length_nil, Nat.sub_zero,
    List.getD_eq_getElem?_getD]
  by_cases h : i < n
  · simp [List.getElem?_replicate, h]
  · simp [List.getElem?_replicate, h]

theorem length_resizeVec {α : Type} (v : List α) (n : Nat) (d : α) :
    (resizeVec v n d).length = n := by
  simp only [resizeVec, List.length_append, List.length_take, List.length_replicate]
  omega

theorem sumUpTo_add (a b : Nat) (f : Nat → Nat) :
    sumUpTo (a + b) f = sumUpTo a f + sumUpTo b (fun i => f (a + i)) := by
  induction b with
  | zero => simp [sumUpTo]
  | succ k ih =>
    rw [← Nat.add_assoc]
    simp only [sumUpTo, ih]
    omega

theorem sumUpTo_add_fun (n : Nat) (f g : Nat → Nat) :
    sumUpTo n (fun i => f i + g i) = sumUpTo n f + sumUpTo n g := by
  induction n with
  | zero => simp [sumUpTo]
  | succ k ih => simp only [sumUpTo, ih]; omega

theorem sumUpTo_congr (n : Nat) (f g : Nat → Nat) (h : ∀ i, i < n → f i = g i) :
    sumUpTo n f = sumUpTo n g := by
  induction n with
  | zero => simp [sumUpTo]
  | succ k ih =>
    simp only [sumUpTo]
    rw [ih (fun i hi => h i (Nat.lt_succ_of_lt hi)), h k (Nat.lt_succ_self k)]

theorem sumUpTo_zero_fun (n : Nat) : sumUpTo n (fun _ => 0) = 0 := by
  induction n with
  | zero => simp [sumUpTo]
  | succ k ih => simp [sumUpTo, ih]

theorem sumUpTo_le (n : Nat) (f : Nat → Nat) (B : Nat) (h : ∀ i, i < n → f i ≤ B) :
    sumUpTo n f ≤ n * B := by
  induction n with
  | zero => simp [sumUpTo]
  | succ k ih =>
    simp only [sumUpTo]
    have h1 := ih (fun i hi => h i (Nat.lt_succ_of_lt hi))
    have h2 := h k (Nat.lt_succ_self k)
    rw [Nat.succ_mul]
    omega

theorem index_inj (W x1 y1 x2 y2 : Nat) (h1 : x1 ≤ W) (h2 : x2 ≤ W)
    (h : x1 + y1 * (W + 1) = x2 + y2 * (W + 1)) : x1 = x2 ∧ y1 = y2 := by
  have hm := congrArg (fun n => n % (W + 1)) h
  have hd := congrArg (fun n => n / (W + 1)) h
  simp only [Nat.add_mul_mod_self_right, Nat.add_mul_div_right _ _ (Nat.succ_pos W)] at hm hd
  rw [Nat.mod_eq_of_lt (Nat.lt_succ_of_le h1), Nat.mod_eq_of_lt (Nat.lt_succ_of_le h2)] at hm
  rw [Nat.div_eq_of_lt (Nat.lt_succ_of_le h1), Nat.div_eq_of_lt (Nat.lt_succ_of_le h2)] at hd
  omega

theorem index_lt (W H x1 y1 : Nat) (h1 : x1 ≤ W) (h2 : y1 ≤ H) :
    x1 + y1 * (W + 1) < (W + 1) * (H + 1) := by
  have h3 : y1 * (W + 1) ≤ H * (W + 1) := Nat.mul_le_mul_right _ h2
  have h4 : (W + 1) * (H + 1) = H * (W + 1) + (W + 1) := by ring
  omega

theorem bruteSum_zero_width (image : QImage) (val : Nat → Nat) (x y kh : Nat) :
    bruteSum image val x y 0 kh = 0 := by
  simp [bruteSum, sumUpTo, sumUpTo_zero_fun]

theorem bruteSum_zero_height (image : QImage) (val : Nat → Nat) (x y kw : Nat) :
    bruteSum image val x y kw 0 = 0 := by
  simp [bruteSum, sumUpTo]

theorem bruteSum_succ_height (image : QImage) (val : Nat → Nat) (x y kw kh : Nat) :
    bruteSum image val x y kw (kh + 1) =
      bruteSum image val x y kw kh
        + sumUpTo kw (fun i => val (image.constScanLine (y + kh) (x + i))) := by
  simp [bruteSum, sumUpTo]

/-! ### The summed-area tables -/

theorem Pixel.get_add (M : Nat) (p q : Pixel Nat) (c : Channel) :
    (Pixel.add M p q).get c = (p.get c + q.get c) % M := by
  cases c <;> rfl

theorem Pixel.get_addRgb (M : Nat) (p : Pixel Nat) (pixel : Nat) (c : Channel) :
    (Pixel.addRgb M p pixel).get c = (p.get c + chanVal c pixel) % M := by
  cases c <;> rfl

theorem Pixel.get_pow2Rgb (pixel : Nat) (c : Channel) :
    (pow2Rgb pixel).get c = chanSq c pixel := by
  cases c <;> rfl

theorem Pixel.get_sub (M : Nat) (p q : Pixel Nat) (c : Channel) :
    (Pixel.sub M p q).get c = (((p.get c : Int) - (q.get c : Int)) % (M : Int)).toNat := by
  cases c <;> rfl

theorem Pixel.get_zero (c : Channel) : (0 : Pixel Nat).get c = 0 := by
  cases c <;> rfl

theorem lineSum_step (image : QImage) (M : Nat) (val : Channel → Nat → Nat) (y x : Nat)
    (sum sum1 : Pixel Nat)
    (hv : ∀ c, sum1.get c = (sum.get c + val c (image.constScanLine (y - 1) x)) % M)
    (h : LineSum image M val y x sum) : LineSum image M val y (x + 1) sum1 := by
  intro c
  rw [hv c, h c]
  simp only [sumUpTo]
  rw [Nat.add_mod (sumUpTo x _ % M), Nat.mod_mod, ← Nat.add_mod]

/-- One iteration of the inner loop keeps the table invariant. -/
theorem tableInv_step (image : QImage) (M : Nat) (val : Channel → Nat → Nat) (y x : Nat)
    (tbl : List (Pixel Nat)) (sum1 : Pixel Nat)
    (hnew : LineSum image M val y (x + 1) sum1)
    (hy1 : 1 ≤ y) (hy : y ≤ image.height) (hx : x < image.width)
    (h : TableInv image M val y x tbl) :
    TableInv image M val y (x + 1)
      (tbl.set (x + 1 + y * (image.width + 1))
        (Pixel.add M sum1
          (tbl.getD (x + 1 + y * (image.width + 1) - (image.width + 1)) 0))) := by
  obtain ⟨hlen, htbl⟩ := h
  have hprev : x + 1 + y * (image.width + 1) - (image.width + 1)
      = x + 1 + (y - 1) * (image.width + 1) := by
    obtain ⟨k, rfl⟩ : ∃ k, y = k + 1 := ⟨y - 1, by omega⟩
    simp only [Nat.add_sub_cancel, Nat.succ_mul]
    omega
  refine ⟨by rw [List.length_set]; exact hlen, ?_⟩
  intro c x1 y1 hx1 hy1'
  rw [getD_set_eq]
  by_cases hidx : x + 1 + y * (image.width + 1) = x1 + y1 * (image.width + 1)
  · obtain ⟨rfl, rfl⟩ := index_inj image.width (x + 1) y x1 y1 (by omega) hx1 hidx
    have hlt : x + 1 + y * (image.width + 1) < tbl.length := by
      rw [hlen]; exact index_lt _ _ _ _ hx1 hy1'
    rw [if_pos ⟨rfl, hlt⟩, if_pos (Or.inr ⟨rfl, Nat.le_refl _⟩), Pixel.get_add, hnew c,
      hprev, htbl c (x + 1) (y - 1) hx1 (by omega), if_pos (Or.inl (by omega))]
    obtain ⟨k, rfl⟩ : ∃ k, y = k + 1 := ⟨y - 1, by omega⟩
    simp only [Nat.add_sub_cancel, bruteSum_succ_height, Nat.zero_add]
    rw [Nat.add_comm (bruteSum _ _ _ _ _ _), ← Nat.add_mod]
  · rw [if_neg (fun hh => hidx hh.1), htbl c x1 y1 hx1 hy1']
    have hiff : (y1 < y ∨ (y1 = y ∧ x1 ≤ x)) ↔ (y1 < y ∨ (y1 = y ∧ x1 ≤ x + 1)) := by
      constructor
      · rintro (h1 | ⟨h1, h2⟩)
        · exact Or.inl h1
        · exact Or.inr ⟨h1, Nat.le_succ_of_le h2⟩
      · rintro (h1 | ⟨h1, h2⟩)
        · exact Or.inl h1
        · rcases Nat.lt_or_ge x1 (x + 1) with h3 | h3
          · exact Or.inr ⟨h1, Nat.lt_succ_iff.mp h3⟩
          · exfalso
            apply hidx
            have : x1 = x + 1 := by omega
            rw [this, h1]
    simp only [hiff]

/-- Finishing line `y` and starting line `y + 1` keeps the table invariant. -/
theorem tableInv_next_line (image : QImage) (M : Nat) (val : Channel → Nat → Nat) (y : Nat)
    (tbl : List (Pixel Nat)) (h : TableInv image M val y image.width tbl) :
    TableInv image M val (y + 1) 0 tbl := by
  obtain ⟨hlen, htbl⟩ := h
  refine ⟨hlen, ?_⟩
  intro c x1 y1 hx1 hy1
  rw [htbl c x1 y1 hx1 hy1]
  by_cases h1 : y1 ≤ y
  · rw [if_pos (by omega), if_pos (by omega)]
  · rw [if_neg (by omega)]
    by_cases h2 : y1 = y + 1 ∧ x1 ≤ 0
    · have h3 : x1 = 0 := by omega
      rw [if_pos (Or.inr h2), h3, bruteSum_zero_width]
    · rw [if_neg (by omega)]

theorem stateInv_step (image : QImage) (y x : Nat) (s : IntegralState)
    (hy1 : 1 ≤ y) (hy : y ≤ image.height) (hx : x < image.width)
    (h : StateInv image y x s) :
    StateInv image y (x + 1) (integralImageStep image y (x + 1) s) := by
  obtain ⟨h1, h2, h3, h4⟩ := h
  have hs1 : LineSum image U32 chanVal y (x + 1)
      (Pixel.addRgb U32 s.sum (image.constScanLine (y - 1) x)) :=
    lineSum_step image U32 chanVal y x s.sum _ (fun c => Pixel.get_addRgb _ _ _ c) h2
  have hs2 : LineSum image U64 chanSq y (x + 1)
      (Pixel.add U64 s.sum2 (pow2Rgb (image.constScanLine (y - 1) x))) :=
    lineSum_step image U64 chanSq y x s.sum2 _
      (fun c => by rw [Pixel.get_add, Pixel.get_pow2Rgb]) h4
  refine ⟨?_, ?_, ?_, ?_⟩
  · exact tableInv_step image U32 chanVal y x s.integral _ hs1 hy1 hy hx h1
  · exact hs1
  · exact tableInv_step image U64 chanSq y x s.integral2 _ hs2 hy1 hy hx h3
  · exact hs2

theorem stateInv_line (image : QImage) (y : Nat) (s : IntegralState)
    (hy : y < image.height)
    (h1 : TableInv image U32 chanVal y image.width s.integral)
    (h3 : TableInv image U64 chanSq y image.width s.integral2) :
    StateInv image (y + 1) image.width (integralImageLine image (y + 1) s) := by
  have key : ∀ n, n ≤ image.width → StateInv image (y + 1) n
      (forLoop n (fun i t => integralImageStep image (y + 1) (i + 1) t)
        { s with sum := 0, sum2 := 0 }) := by
    intro n
    induction n with
    | zero =>
      intro _
      refine ⟨tableInv_next_line _ _ _ _ _ h1, ?_, tableInv_next_line _ _ _ _ _ h3, ?_⟩
      · intro c; simp [sumUpTo, forLoop, Pixel.get_zero]
      · intro c; simp [sumUpTo, forLoop, Pixel.get_zero]
    | succ k ih =>
      intro hk
      exact stateInv_step image (y + 1) k _ (by omega) (by omega) (by omega) (ih (by omega))
  exact key image.width (Nat.le_refl _)

theorem tableInv_init (image : QImage) (M : Nat) (val : Channel → Nat → Nat) :
    TableInv image M val 0 image.width
      (resizeVec [] ((image.width + 1) * (image.height + 1)) 0) := by
  refine ⟨length_resizeVec _ _ _, ?_⟩
  intro c x1 y1 _ _
  rw [getD_resizeVec_nil, Pixel.get_zero]
  by_cases h : y1 < 0 ∨ (y1 = 0 ∧ x1 ≤ image.width)
  · rw [if_pos h]
    have : y1 = 0 := by omega
    rw [this, bruteSum_zero_height, Nat.zero_mod]
  · rw [if_neg h, Nat.zero_mod]

/-- After `n` lines, `integralImage` has filled the lines `0 .. n` of both
tables. -/
theorem integralImage_lines (image : QImage) (n : Nat) (hn : n ≤ image.height) :
    let s := forLoop n (fun j t => integralImageLine image (j + 1) t)
      { planes := resizeVec [] (image.width * image.height) 0
        integral := resizeVec [] ((image.width + 1) * (image.height + 1)) 0
        integral2 := resizeVec [] ((image.width + 1) * (image.height + 1)) 0
        sum := 0
        sum2 := 0 }
    TableInv image U32 chanVal n image.width s.integral ∧
    TableInv image U64 chanSq n image.width s.integral2 := by
  induction n with
  | zero => exact ⟨tableInv_init image U32 chanVal, tableInv_init image U64 chanSq⟩
  | succ k ih =>
    obtain ⟨h1, h3⟩ := ih (by omega)
    obtain ⟨g1, _, g3, _⟩ := stateInv_line image k _ (by omega) h1 h3
    exact ⟨g1, g3⟩

/-- The tables of `integralImage` hold the prefix sums modulo `2^32` and
`2^64`. -/
theorem integralImage_tables (image : QImage) :
    TableInv image U32 chanVal image.height image.width
      (integralImage image [] [] []).integral ∧
    TableInv image U64 chanSq image.height image.width
      (integralImage image [] [] []).integral2 :=
  integralImage_lines image image.height (Nat.le_refl _)

theorem Pixel.ext_get (p q : Pixel Nat) (h : ∀ c, p.get c = q.get c) : p = q := by
  cases p
  cases q
  have h1 := h .red
  have h2 := h .green
  have h3 := h .blue
  simp only [Pixel.get] at h1 h2 h3
  subst h1 h2 h3
  rfl

theorem sumUpTo_eq_sum (n : Nat) (f : Nat → Nat) :
    sumUpTo n f = ∑ i in Finset.range n, f i := by
  induction n with
  | zero => simp [sumUpTo]
  | succ k ih => rw [Finset.sum_range_succ, ← ih]; rfl

theorem bruteSum_eq_sum (image : QImage) (val : Nat → Nat) (x y kw kh : Nat) :
    bruteSum image val x y kw kh =
      ∑ j in Finset.range kh, ∑ i in Finset.range kw,
        val (image.constScanLine (y + j) (x + i)) := by
  simp only [bruteSum, sumUpTo_eq_sum]

theorem ofRgb_le (c : Channel) (pixel : Nat) : c.ofRgb pixel ≤ 255 := by
  cases c <;> simp only [Channel.ofRgb, qRed, qGreen, qBlue] <;> omega

theorem bruteSum_le (image : QImage) (val : Nat → Nat) (B : Nat) (hB : ∀ p, val p ≤ B)
    (x y kw kh : Nat) : bruteSum image val x y kw kh ≤ kh * (kw * B) :=
  sumUpTo_le _ _ _ (fun _ _ => sumUpTo_le _ _ _ (fun _ _ => hB _))

theorem chanSq_le (c : Channel) (pixel : Nat) : chanSq c pixel ≤ 65025 := by
  have h := ofRgb_le c pixel
  have := Nat.mul_le_mul h h
  simpa [chanSq] using this

theorem mul_mul_le (x y W H : Nat) (hx : x ≤ W) (hy : y ≤ H) : y * (x * 255) ≤ 255 * W * H := by
  have h1 : x * y ≤ W * H := Nat.mul_le_mul hx hy
  have h2 : y * (x * 255) = 255 * (x * y) := by ring
  have h3 : 255 * W * H = 255 * (W * H) := by ring
  rw [h2, h3]
  exact Nat.mul_le_mul_left _ h1

/-- Prefix sums of channel values fit in 32 bits when `255 * W * H < 2^32`. -/
theorem prefix_lt_U32 (image : QImage) (c : Channel) (x y kw kh : Nat)
    (hsz : 255 * image.width * image.height < 2 ^ 32)
    (hx : kw ≤ image.width) (hy : kh ≤ image.height) :
    bruteSum image (chanVal c) x y kw kh < U32 := by
  have h1 := bruteSum_le image (chanVal c) 255 (ofRgb_le c) x y kw kh
  have h2 := mul_mul_le kw kh _ _ hx hy
  simp only [U32]
  norm_num at hsz
  omega

/-- Prefix sums of squared channel values fit in 64 bits when
`255 * W * H < 2^32`. -/
theorem prefix_lt_U64 (image : QImage) (c : Channel) (x y kw kh : Nat)
    (hsz : 255 * image.width * image.height < 2 ^ 32)
    (hx : kw ≤ image.width) (hy : kh ≤ image.height) :
    bruteSum image (chanSq c) x y kw kh < U64 := by
  have h1 := bruteSum_le image (chanSq c) 65025 (chanSq_le c) x y kw kh
  have h2 := mul_mul_le kw kh _ _ hx hy
  have h3 : kh * (kw * 65025) = 255 * (kh * (kw * 255)) := by ring
  simp only [U64]
  norm_num at hsz
  omega

/-- Without overflow, an entry of `integral` is the exact prefix sum. -/
theorem integral_entry (image : QImage) (hsz : 255 * image.width * image.height < 2 ^ 32)
    (c : Channel) (x y : Nat) (hx : x ≤ image.width) (hy : y ≤ image.height) :
    ((integralImage image [] [] []).integral.getD (x + y * (image.width + 1)) 0).get c
      = bruteSum image (chanVal c) 0 0 x y := by
  rw [(integralImage_tables image).1.2 c x y hx hy, if_pos (by omega)]
  exact Nat.mod_eq_of_lt (prefix_lt_U32 image c 0 0 x y hsz hx hy)

/-- Without overflow, an entry of `integral2` is the exact prefix sum of
squares. -/
theorem integral2_entry (image : QImage) (hsz : 255 * image.width * image.height < 2 ^ 32)
    (c : Channel) (x y : Nat) (hx : x ≤ image.width) (hy : y ≤ image.height) :
    ((integralImage image [] [] []).integral2.getD (x + y * (image.width + 1)) 0).get c
      = bruteSum image (chanSq c) 0 0 x y := by
  rw [(integralImage_tables image).2.2 c x y hx hy, if_pos (by omega)]
  exact Nat.mod_eq_of_lt (prefix_lt_U64 image c 0 0 x y hsz hx hy)

/-- C3: for an image with `W, H ≥ 1` and `255 * W * H < 2^32`, the tables built
by `integralImage` have `(W + 1) * (H + 1)` entries; the entry at
`x + y * (W + 1)` of `integral` is, per channel, the sum of the channel values
of the pixels with column `< x` and row `< y`, the entry of `integral2` the sum
of their squares; every entry of row 0 and of column 0 is zero. (The bounds
`W, H ≥ 1` of the claim are not needed.) -/
theorem integralImage_prefix_sums (image : QImage)
    (hsz : 255 * image.width * image.height < 2 ^ 32) :
    (integralImage image [] [] []).integral.length = (image.width + 1) * (image.height + 1) ∧
    (integralImage image [] [] []).integral2.length = (image.width + 1) * (image.height + 1) ∧
    (∀ c x y, x ≤ image.width → y ≤ image.height →
      ((integralImage image [] [] []).integral.getD (x + y * (image.width + 1)) 0).get c
        = ∑ j in Finset.range y, ∑ i in Finset.range x, c.ofRgb (image.constScanLine j i) ∧
      ((integralImage image [] [] []).integral2.getD (x + y * (image.width + 1)) 0).get c
        = ∑ j in Finset.range y, ∑ i in Finset.range x,
            c.ofRgb (image.constScanLine j i) * c.ofRgb (image.constScanLine j i)) ∧
    (∀ x, x ≤ image.width →
      (integralImage image [] [] []).integral.getD (x + 0 * (image.width + 1)) 0 = 0 ∧
      (integralImage image [] [] []).integral2.getD (x + 0 * (image.width + 1)) 0 = 0) ∧
    (∀ y, y ≤ image.height →
      (integralImage image [] [] []).integral.getD (0 + y * (image.width + 1)) 0 = 0 ∧
      (integralImage image [] [] []).integral2.getD (0 + y * (image.width + 1)) 0 = 0) := by
  refine ⟨(integralImage_tables image).1.1, (integralImage_tables image).2.1, ?_, ?_, ?_⟩
  · intro c x y hx hy
    rw [integral_entry image hsz c x y hx hy, integral2_entry image hsz c x y hx hy,
      bruteSum_eq_sum, bruteSum_eq_sum]
    simp [chanVal, chanSq]
  · intro x hx
    constructor
    · apply Pixel.ext_get
      intro c
      rw [integral_entry image hsz c x 0 hx (Nat.zero_le _), bruteSum_zero_height,
        Pixel.get_zero]
    · apply Pixel.ext_get
      intro c
      rw [integral2_entry image hsz c x 0 hx (Nat.zero_le _), bruteSum_zero_height,
        Pixel.get_zero]
  · intro y hy
    constructor
    · apply Pixel.ext_get
      intro c
      rw [integral_entry image hsz c 0 y (Nat.zero_le _) hy, bruteSum_zero_width,
        Pixel.get_zero]
    · apply Pixel.ext_get
      intro c
      rw [integral2_entry image hsz c 0 y (Nat.zero_le _) hy, bruteSum_zero_width,
        Pixel.get_zero]

/-- Witness for C3: the `3 × 2` test image. -/
theorem integralImage_prefix_sums_witness :
    255 * testImage.width * testImage.height < 2 ^ 32 ∧
    ((integralImage testImage [] [] []).integral.length
        = (testImage.width + 1) * (testImage.height + 1) ∧
    (integralImage testImage [] [] []).integral2.length
        = (testImage.width + 1) * (testImage.height + 1) ∧
    (∀ c x y, x ≤ testImage.width → y ≤ testImage.height →
      ((integralImage testImage [] [] []).integral.getD
          (x + y * (testImage.width + 1)) 0).get c
        = ∑ j in Finset.range y, ∑ i in Finset.range x,
            c.ofRgb (testImage.constScanLine j i) ∧
      ((integralImage testImage [] [] []).integral2.getD
          (x + y * (testImage.width + 1)) 0).get c
        = ∑ j in Finset.range y, ∑ i in Finset.range x,
            c.ofRgb (testImage.constScanLine j i) * c.ofRgb (testImage.constScanLine j i)) ∧
    (∀ x, x ≤ testImage.width →
      (integralImage testImage [] [] []).integral.getD (x + 0 * (testImage.width + 1)) 0 = 0 ∧
      (integralImage testImage [] [] []).integral2.getD (x + 0 * (testImage.width + 1)) 0 = 0) ∧
    (∀ y, y ≤ testImage.height →
      (integralImage testImage [] [] []).integral.getD (0 + y * (testImage.width + 1)) 0 = 0 ∧
      (integralImage testImage [] [] []).integral2.getD (0 + y * (testImage.width + 1)) 0 = 0)) :=
  ⟨by decide, integralImage_prefix_sums testImage (by decide)⟩

/-! ### Rectangle sums from the tables -/

theorem wrap_rect32 (A B C D R : Nat) (h : A + B = C + D + R) (hR : R < 4294967296) :
    ((((((((A % 4294967296 + B % 4294967296) % 4294967296 : Nat) : Int)
      - ((C % 4294967296 : Nat) : Int)) % ((4294967296 : Nat) : Int)).toNat : Int)
      - ((D % 4294967296 : Nat) : Int)) % ((4294967296 : Nat) : Int)).toNat = R := by
  omega

theorem wrap_rect64 (A B C D R : Nat) (h : A + B = C + D + R)
    (hR : R < 18446744073709551616) :
    ((((((((A % 18446744073709551616 + B % 18446744073709551616) % 18446744073709551616 : Nat)
      : Int) - ((C % 18446744073709551616 : Nat) : Int))
      % ((18446744073709551616 : Nat) : Int)).toNat : Int)
      - ((D % 18446744073709551616 : Nat) : Int))
      % ((18446744073709551616 : Nat) : Int)).toNat = R := by
  omega

/-- Inclusion and exclusion of prefix sums: the prefix sums at the four
corners of a rectangle and the sum over the rectangle. -/
theorem bruteSum_rect (image : QImage) (val : Nat → Nat) (x y kw kh : Nat) :
    bruteSum image val 0 0 x y + bruteSum image val 0 0 (x + kw) (y + kh)
      = bruteSum image val 0 0 (x + kw) y + bruteSum image val 0 0 x (y + kh)
        + bruteSum image val x y kw kh := by
  simp only [bruteSum, sumUpTo_add, sumUpTo_add_fun, Nat.zero_add]
  omega

/-- The four entries read by `integralSum` give the sum over the rectangle,
also when table entries have wrapped around, as long as the sum itself fits. -/
theorem integralSum_of_tableInv (image : QImage) (M : Nat) (hM : M = U32 ∨ M = U64)
    (val : Channel → Nat → Nat) (tbl : List (Pixel Nat))
    (h : TableInv image M val image.height image.width tbl)
    (c : Channel) (x y kw kh : Nat) (hx : x + kw ≤ image.width) (hy : y + kh ≤ image.height)
    (hfit : bruteSum image (val c) x y kw kh < M) :
    (integralSum M tbl (image.width + 1) x y kw kh).get c
      = bruteSum image (val c) x y kw kh := by
  have e0 := h.2 c x y (by omega) (by omega)
  have e1 := h.2 c (x + kw) y hx (by omega)
  have e2 := h.2 c x (y + kh) (by omega) hy
  have e3 := h.2 c (x + kw) (y + kh) hx hy
  rw [if_pos (by omega)] at e0 e1 e2 e3
  have i1 : x + y * (image.width + 1) + kw = x + kw + y * (image.width + 1) := by ring
  have i2 : x + y * (image.width + 1) + kh * (image.width + 1)
      = x + (y + kh) * (image.width + 1) := by ring
  have i3 : x + (y + kh) * (image.width + 1) + kw
      = x + kw + (y + kh) * (image.width + 1) := by ring
  simp only [integralSum, Pixel.get_sub, Pixel.get_add, i1, i2, i3, e0, e1, e2, e3]
  have hrect := bruteSum_rect image (val c) x y kw kh
  rcases hM with rfl | rfl
  · exact wrap_rect32 _ _ _ _ _ hrect hfit
  · exact wrap_rect64 _ _ _ _ _ hrect hfit

/-- Without overflow of the tables, `integralSum` returns the brute-force sums
of the channel values and of their squares over a rectangle inside the image. -/
theorem integralSum_exact (image : QImage)
    (hsz : 255 * image.width * image.height < 2 ^ 32)
    (x y kw kh : Nat) (hx : x + kw ≤ image.width) (hy : y + kh ≤ image.height)
    (c : Channel) :
    (integralSum U32 (integralImage image [] [] []).integral (image.width + 1) x y kw kh).get c
      = bruteSum image (chanVal c) x y kw kh ∧
    (integralSum U64 (integralImage image [] [] []).integral2 (image.width + 1) x y kw kh).get c
      = bruteSum image (chanSq c) x y kw kh :=
  ⟨integralSum_of_tableInv image U32 (Or.inl rfl) chanVal _ (integralImage_tables image).1
      c x y kw kh hx hy (prefix_lt_U32 image c x y kw kh hsz (by omega) (by omega)),
   integralSum_of_tableInv image U64 (Or.inr rfl) chanSq _ (integralImage_tables image).2
      c x y kw kh hx hy (prefix_lt_U64 image c x y kw kh hsz (by omega) (by omega))⟩

/-- C1: for an image with `255 * W * H < 2^32` and a rectangle
`[x, x + kw) × [y, y + kh)` inside the image, `integralSum` on the tables of
`integralImage` returns, per channel, the brute-force sum of the channel values
(`integral`) and of the squared channel values (`integral2`) over the
rectangle. (The bounds `W, H ≥ 1` of the claim are not needed.) -/
theorem integralSum_eq_bruteSum (image : QImage)
    (hsz : 255 * image.width * image.height < 2 ^ 32)
    (x y kw kh : Nat) (hx : x + kw ≤ image.width) (hy : y + kh ≤ image.height)
    (c : Channel) :
    (integralSum U32 (integralImage image [] [] []).integral (image.width + 1) x y kw kh).get c
      = bruteSum image (chanVal c) x y kw kh ∧
    (integralSum U64 (integralImage image [] [] []).integral2 (image.width + 1) x y kw kh).get c
      = bruteSum image (chanSq c) x y kw kh := by
  have hfit1 := prefix_lt_U32 image c x y kw kh hsz (by omega) (by omega)
  have hfit2 := prefix_lt_U64 image c x y kw kh hsz (by omega) (by omega)
  obtain ⟨t1, t2⟩ := integralImage_tables image
  constructor
  · exact integralSum_of_tableInv image U32 (Or.inl rfl) chanVal _ t1 c x y kw kh hx hy hfit1
  · exact integralSum_of_tableInv image U64 (Or.inr rfl) chanSq _ t2 c x y kw kh hx hy hfit2

/-- Witness for C1: the rectangle `[1, 3) × [1, 3)` of the all-255 and of the
all-zero image of size `4 × 3`. -/
theorem integralSum_eq_bruteSum_witness :
    (255 * (maxImage 4 3).width * (maxImage 4 3).height < 2 ^ 32 ∧
      1 + 2 ≤ (maxImage 4 3).width ∧ 1 + 2 ≤ (maxImage 4 3).height ∧
      (integralSum U32 (integralImage (maxImage 4 3) [] [] []).integral
          ((maxImage 4 3).width + 1) 1 1 2 2).get .red
        = bruteSum (maxImage 4 3) (chanVal .red) 1 1 2 2 ∧
      (integralSum U64 (integralImage (maxImage 4 3) [] [] []).integral2
          ((maxImage 4 3).width + 1) 1 1 2 2).get .red
        = bruteSum (maxImage 4 3) (chanSq .red) 1 1 2 2) ∧
    (255 * (zeroImage 4 3).width * (zeroImage 4 3).height < 2 ^ 32 ∧
      1 + 2 ≤ (zeroImage 4 3).width ∧ 1 + 2 ≤ (zeroImage 4 3).height ∧
      (integralSum U32 (integralImage (zeroImage 4 3) [] [] []).integral
          ((zeroImage 4 3).width + 1) 1 1 2 2).get .red
        = bruteSum (zeroImage 4 3) (chanVal .red) 1 1 2 2 ∧
      (integralSum U64 (integralImage (zeroImage 4 3) [] [] []).integral2
          ((zeroImage 4 3).width + 1) 1 1 2 2).get .red
        = bruteSum (zeroImage 4 3) (chanSq .red) 1 1 2 2) :=
  ⟨⟨by decide, by decide, by decide,
      integralSum_eq_bruteSum (maxImage 4 3) (by decide) 1 1 2 2 (by decide) (by decide) .red⟩,
   ⟨by decide, by decide, by decide,
      integralSum_eq_bruteSum (zeroImage 4 3) (by decide) 1 1 2 2 (by decide) (by decide) .red⟩⟩

/-! ### Loops -/

theorem forLoop_induction {σ : Type} (P : Nat → σ → Prop) (n : Nat) (body : Nat → σ → σ)
    (s : σ) (h0 : P 0 s) (hstep : ∀ i t, i < n → P i t → P (i + 1) (body i t)) :
    P n (forLoop n body s) := by
  induction n with
  | zero => exact h0
  | succ k ih =>
    exact hstep k _ (Nat.lt_succ_self k)
      (ih (fun i t hi hP => hstep i t (Nat.lt_succ_of_lt hi) hP))

theorem forLoop_congr {σ : Type} (n : Nat) (f g : Nat → σ → σ) (s : σ)
    (h : ∀ i t, i < n → f i t = g i t) : forLoop n f s = forLoop n g s := by
  induction n with
  | zero => rfl
  | succ k ih =>
    simp only [forLoop]
    rw [ih (fun i t hi => h i t (Nat.lt_succ_of_lt hi)), h k _ (Nat.lt_succ_self k)]

theorem forLoop_add {σ : Type} (a b : Nat) (body : Nat → σ → σ) (s : σ) :
    forLoop (a + b) body s = forLoop b (fun i t => body (a + i) t) (forLoop a body s) := by
  induction b with
  | zero => rfl
  | succ k ih =>
    rw [← Nat.add_assoc]
    simp only [forLoop, ih]

/-- Two nested loops over lines and columns are one loop over the flat index
`k = j * kw + i`. -/
theorem forLoop_nested {σ : Type} (kh kw : Nat) (body : Nat → Nat → σ → σ) (s : σ) :
    forLoop kh (fun j t => forLoop kw (fun i u => body j i u) t) s
      = forLoop (kh * kw) (fun k t => body (k / kw) (k % kw) t) s := by
  induction kh with
  | zero => simp [forLoop]
  | succ j ih =>
    conv_rhs => rw [Nat.succ_mul, forLoop_add, ← ih]
    simp only [forLoop]
    apply forLoop_congr
    intro i t hi
    have hkw : 0 < kw := by omega
    have h1 : (j * kw + i) / kw = j := by
      rw [Nat.add_comm, Nat.add_mul_div_right _ _ hkw, Nat.div_eq_of_lt hi, Nat.zero_add]
    have h2 : (j * kw + i) % kw = i := by
      rw [Nat.add_comm, Nat.add_mul_mod_self_right, Nat.mod_eq_of_lt hi]
    rw [h1, h2]

/-- A loop that writes `f k` to index `k` for `k < n`. -/
theorem forLoop_set (n : Nat) (f : Nat → Nat) (d : List Nat) :
    (forLoop n (fun k t => t.set k (f k)) d).length = d.length ∧
    ∀ k, (forLoop n (fun k t => t.set k (f k)) d).getD k 0
      = if k < n ∧ k < d.length then f k else d.getD k 0 := by
  induction n with
  | zero => simp [forLoop]
  | succ m ih =>
    obtain ⟨hl, hg⟩ := ih
    refine ⟨by simp only [forLoop, List.length_set, hl], ?_⟩
    intro k
    simp only [forLoop]
    rw [getD_set_eq, hl, hg k]
    by_cases h1 : m = k
    · subst h1
      by_cases h2 : m < d.length
      · rw [if_pos ⟨rfl, h2⟩, if_pos ⟨Nat.lt_succ_self m, h2⟩]
      · rw [if_neg (fun h => h2 h.2), if_neg (fun h => h2 h.2), if_neg (fun h => h2 h.2)]
    · rw [if_neg (fun h => h1 h.1)]
      by_cases h3 : k < m ∧ k < d.length
      · rw [if_pos h3, if_pos ⟨Nat.lt_succ_of_lt h3.1, h3.2⟩]
      · rw [if_neg h3, if_neg (by omega)]

theorem list_eq_of_getD (l1 l2 : List Nat) (hlen : l1.length = l2.length)
    (h : ∀ k, k < l1.length → l1.getD k 0 = l2.getD k 0) : l1 = l2 := by
  apply List.ext_getElem hlen
  intro k h1 h2
  have := h k h1
  simp only [List.getD_eq_getElem?_getD, List.getElem?_eq_getElem h1,
    List.getElem?_eq_getElem h2, Option.getD_some] at this
  exact this

/-! ### The clamped window, in natural numbers -/

theorem window_nat (x W : Nat) (radius : Int) (hr : 0 ≤ radius) (hx : x < W) :
    1 ≤ (windowLen x radius W).toNat ∧ (windowStart x radius).toNat ≤ x ∧
    x < (windowStart x radius).toNat + (windowLen x radius W).toNat ∧
    (windowStart x radius).toNat + (windowLen x radius W).toNat ≤ W := by
  unfold windowLen windowStart
  omega

theorem flat_index_lt (k kw kh : Nat) (hk : k < kw * kh) : k % kw < kw ∧ k / kw < kh := by
  have hkw : 0 < kw := by
    rcases Nat.eq_zero_or_pos kw with h | h
    · rw [h, Nat.zero_mul] at hk; omega
    · exact h
  exact ⟨Nat.mod_lt _ hkw, Nat.div_lt_of_lt_mul hk⟩

theorem pixel_index_lt (x y W H : Nat) (hx : x < W) (hy : y < H) : x + y * W < W * H := by
  have h1 : y * W + W ≤ H * W := by
    have : (y + 1) * W ≤ H * W := Nat.mul_le_mul_right _ hy
    rwa [Nat.succ_mul] at this
  rw [Nat.mul_comm W H]
  omega

/-! ### The class `Buffer` -/

theorem ofImage_loop (image : QImage) (n : Nat) (s0 : Buffer) (c : Channel) :
    (forLoop n
      (fun i buf =>
        let pixel := image.bits i
        { buf with
          r := buf.r.set i (qRed pixel)
          g := buf.g.set i (qGreen pixel)
          b := buf.b.set i (qBlue pixel) }) s0).plane c
      = forLoop n (fun i t => t.set i (c.ofRgb (image.bits i))) (s0.plane c) := by
  induction n with
  | zero => rfl
  | succ k ih =>
    simp only [forLoop]
    rw [← ih]
    cases c <;> rfl

theorem ofImage_width (image : QImage) : (Buffer.ofImage image).width = image.width := by
  unfold Buffer.ofImage
  exact forLoop_induction (fun _ (b : Buffer) => b.width = image.width) _ _ _ rfl
    (fun _ _ _ h => h)

theorem resizeVec_nil_zero (n k : Nat) : (resizeVec ([] : List Nat) n 0).getD k 0 = 0 := by
  simp only [resizeVec, List.take_nil, List.nil_append, List.length_nil, Nat.sub_zero,
    List.getD_eq_getElem?_getD]
  by_cases h : k < n
  · simp [List.getElem?_replicate, h]
  · simp [List.getElem?_replicate, h]

/-- The planes built by `Buffer(image)` hold the channels of the image's
pixels. -/
theorem ofImage_plane (image : QImage) (c : Channel) :
    ((Buffer.ofImage image).plane c).length = image.width * image.height ∧
    ∀ k, k < image.width * image.height →
      ((Buffer.ofImage image).plane c).getD k 0 = c.ofRgb (image.bits k) := by
  have hloop := ofImage_loop image (image.width * image.height)
    { r := resizeVec [] (image.width * image.height) 0
      g := resizeVec [] (image.width * image.height) 0
      b := resizeVec [] (image.width * image.height) 0
      width := image.width
      size := image.width * image.height } c
  have hinit : (Buffer.plane
    { r := resizeVec [] (image.width * image.height) 0
      g := resizeVec [] (image.width * image.height) 0
      b := resizeVec [] (image.width * image.height) 0
      width := image.width
      size := image.width * image.height } c) = resizeVec [] (image.width * image.height) 0 := by
    cases c <;> rfl
  rw [hinit] at hloop
  obtain ⟨hl, hg⟩ := forLoop_set (image.width * image.height)
    (fun i => c.ofRgb (image.bits i)) (resizeVec [] (image.width * image.height) 0)
  unfold Buffer.ofImage
  simp only []
  rw [hloop]
  refine ⟨by rw [hl, length_resizeVec], ?_⟩
  intro k hk
  rw [hg k, if_pos ⟨hk, by rw [length_resizeVec]; exact hk⟩]

theorem copy_loop (image : Buffer) (xp yp kw : Nat) (n : Nat) (b0 : Buffer) (c : Channel)
    (hw : b0.width = kw) :
    (forLoop n (fun j buf => buf.copy j image (image.constPixel xp (yp + j))) b0).width = kw ∧
    (forLoop n (fun j buf => buf.copy j image (image.constPixel xp (yp + j))) b0).size
      = b0.size ∧
    (forLoop n (fun j buf => buf.copy j image (image.constPixel xp (yp + j))) b0).plane c
      = forLoop n
          (fun j d => forLoop kw
            (fun i t => t.set (j * kw + i)
              ((image.plane c).getD (xp + (yp + j) * image.width + i) 0)) d)
          (b0.plane c) := by
  induction n with
  | zero => exact ⟨hw, rfl, rfl⟩
  | succ k ih =>
    obtain ⟨h1, h2, h3⟩ := ih
    simp only [forLoop]
    refine ⟨h1, h2, ?_⟩
    rw [← h3]
    generalize forLoop k (fun j buf => buf.copy j image (image.constPixel xp (yp + j))) b0
      = bk at h1
    cases c <;> simp only [Buffer.copy, Buffer.plane, memcpy, Buffer.constPixel, h1]

/-- After the copy loop a plane of the scratch buffer holds the window, line
by line. -/
theorem copy_loop_plane (image : Buffer) (xp yp kw kh : Nat) (b0 : Buffer) (c : Channel)
    (hw : b0.width = kw) (hlen : (b0.plane c).length = kw * kh) :
    ((forLoop kh (fun j buf => buf.copy j image (image.constPixel xp (yp + j))) b0).plane
        c).length = kw * kh ∧
    ∀ k, k < kw * kh →
      ((forLoop kh (fun j buf => buf.copy j image (image.constPixel xp (yp + j))) b0).plane
          c).getD k 0
        = (image.plane c).getD (xp + (yp + k / kw) * image.width + k % kw) 0 := by
  have hn := forLoop_nested kh kw (fun j i (t : List Nat) => t.set (j * kw + i)
      ((image.plane c).getD (xp + (yp + j) * image.width + i) 0)) (b0.plane c)
  beta_reduce at hn
  rw [(copy_loop image xp yp kw kh b0 c hw).2.2, hn]
  have hcongr : forLoop (kh * kw)
      (fun k t => t.set (k / kw * kw + k % kw)
        ((image.plane c).getD (xp + (yp + k / kw) * image.width + k % kw) 0)) (b0.plane c)
      = forLoop (kh * kw)
      (fun k t => t.set k
        ((image.plane c).getD (xp + (yp + k / kw) * image.width + k % kw) 0)) (b0.plane c) := by
    apply forLoop_congr
    intro i t _
    rw [Nat.div_add_mod']
  rw [hcongr]
  obtain ⟨hl, hg⟩ := forLoop_set (kh * kw)
    (fun k => (image.plane c).getD (xp + (yp + k / kw) * image.width + k % kw) 0) (b0.plane c)
  refine ⟨by rw [hl, hlen], ?_⟩
  intro k hk
  rw [hg k, if_pos ⟨by rw [Nat.mul_comm]; exact hk, by rw [hlen]; exact hk⟩]

theorem resize_plane (buf : Buffer) (w h : Nat) (c : Channel) :
    (buf.resize w h).width = w ∧ (buf.resize w h).size = w * h ∧
    ((buf.resize w h).plane c).length = w * h := by
  refine ⟨rfl, rfl, ?_⟩
  cases c <;> simp only [Buffer.resize, Buffer.plane, length_resizeVec]

/-- The scratch buffer of the Median filter before sorting: each plane is the
list of the window's samples, whatever the buffer held before. -/
theorem median_buffer (inImage : QImage) (xp yp kw kh : Nat) (buffer : Buffer) (c : Channel)
    (hx : xp + kw ≤ inImage.width) (hy : yp + kh ≤ inImage.height) :
    (forLoop kh
      (fun j buf => buf.copy j (Buffer.ofImage inImage)
        ((Buffer.ofImage inImage).constPixel xp (yp + j)))
      (buffer.resize kw kh)).plane c = windowSamples inImage c xp yp kw kh := by
  obtain ⟨r1, _, r3⟩ := resize_plane buffer kw kh c
  obtain ⟨hl, hg⟩ := copy_loop_plane (Buffer.ofImage inImage) xp yp kw kh _ c r1 r3
  apply list_eq_of_getD
  · rw [hl]; simp [windowSamples]
  · intro k hk
    rw [hl] at hk
    obtain ⟨hk1, hk2⟩ := flat_index_lt k kw kh hk
    rw [hg k hk, ofImage_width]
    have hidx : xp + (yp + k / kw) * inImage.width + k % kw
        = (xp + k % kw) + (yp + k / kw) * inImage.width := by omega
    rw [hidx, (ofImage_plane inImage c).2 _
      (pixel_index_lt _ _ _ _ (by omega) (by omega))]
    simp [windowSamples, List.getD_eq_getElem?_getD, hk, QImage.constScanLine]

/-! ### Median -/

theorem ofRgb_qRgb (r g b : Nat) (c : Channel) :
    c.ofRgb (qRgb r g b) = (Pixel.mk r g b).get c % 256 := by
  cases c <;> simp only [Channel.ofRgb, qRed, qGreen, qBlue, qRgb, Pixel.get] <;> omega

theorem at_get (buf : Buffer) (i : Nat) (c : Channel) :
    (buf.at i).get c = (buf.plane c).getD i 0 := by
  cases c <;> rfl

theorem sort_plane (buf : Buffer) (c : Channel) :
    (buf.sort).plane c = qSort (buf.plane c) ∧ (buf.sort).size = buf.size := by
  cases c <;> exact ⟨rfl, rfl⟩

theorem qSort_unique (l s : List Nat) (hs : s.Sorted (· ≤ ·)) (hp : s.Perm l) :
    qSort l = s :=
  List.eq_of_perm_of_sorted ((List.perm_insertionSort (· ≤ ·) l).trans hp.symm)
    (List.sorted_insertionSort (· ≤ ·) l) hs

theorem windowSamples_le (image : QImage) (c : Channel) (xp yp kw kh : Nat) (v : Nat)
    (hv : v ∈ windowSamples image c xp yp kw kh) : v ≤ 255 := by
  simp only [windowSamples, List.mem_map] at hv
  obtain ⟨k, _, rfl⟩ := hv
  exact ofRgb_le c _

theorem getD_le_of_forall (l : List Nat) (B : Nat) (h : ∀ v ∈ l, v ≤ B) (i : Nat) :
    l.getD i 0 ≤ B := by
  rw [List.getD_eq_getElem?_getD]
  by_cases hi : i < l.length
  · rw [List.getElem?_eq_getElem hi]
    exact h _ (List.getElem_mem hi)
  · rw [List.getElem?_eq_none (Nat.le_of_not_lt hi)]
    exact Nat.zero_le _

/-- The Median output channel is the middle element of the sorted samples of
the window `[xp, xp + kw) × [yp, yp + kh)` read by the loop body. -/
theorem medianOutput_eq (inImage : QImage) (radius : Int) (buffer : Buffer) (x y : Nat)
    (c : Channel) (hr : 0 ≤ radius) (hx : x < inImage.width) (hy : y < inImage.height) :
    c.ofRgb (medianOutput inImage radius buffer x y)
      = (qSort (clampedSamples inImage c radius x y)).getD
          (((windowLen x radius inImage.width).toNat
            * (windowLen y radius inImage.height).toNat) / 2) 0 := by
  obtain ⟨_, _, _, wx⟩ := window_nat x inImage.width radius hr hx
  obtain ⟨_, _, _, wy⟩ := window_nat y inImage.height radius hr hy
  have hbuf := median_buffer inImage (windowStart x radius).toNat (windowStart y radius).toNat
    (windowLen x radius inImage.width).toNat (windowLen y radius inImage.height).toNat
    buffer c wx wy
  have hsz := (copy_loop (Buffer.ofImage inImage) (windowStart x radius).toNat
    (windowStart y radius).toNat (windowLen x radius inImage.width).toNat
    (windowLen y radius inImage.height).toNat
    (buffer.resize (windowLen x radius inImage.width).toNat
      (windowLen y radius inImage.height).toNat) c rfl).2.1
  simp only [medianOutput, medianPixel]
  rw [ofRgb_qRgb]
  have hpix : ∀ p : Pixel Nat, (Pixel.mk p.r p.g p.b) = p := fun p => rfl
  rw [hpix, at_get, (sort_plane _ c).1, (sort_plane _ c).2, hbuf, hsz]
  apply Nat.mod_eq_of_lt
  have hle := getD_le_of_forall (qSort (windowSamples inImage c (windowStart x radius).toNat
    (windowStart y radius).toNat (windowLen x radius inImage.width).toNat
    (windowLen y radius inImage.height).toNat)) 255
    (fun v hv => windowSamples_le inImage c _ _ _ _ v
      ((List.perm_insertionSort (· ≤ ·) _).mem_iff.mp hv))
    (((windowLen x radius inImage.width).toNat
      * (windowLen y radius inImage.height).toNat) / 2)
  exact Nat.lt_succ_of_le hle

set_option maxRecDepth 4000 in
/-- C4: for every image, radius `≥ 0`, pixel `(x, y)` and channel, the Median
output channel at `(x, y)` is the element at index `count / 2` of the ascending
sort `s` of the channel's samples in the clamped window, `count = kw * kh`
(whatever the scratch buffer held before); for the `3 × 3` window with channel
values `0,0,0,0,100,0,0,0,200` the output channel is `0`. -/
theorem median_is_middle_of_sorted (inImage : QImage) (radius : Int) (buffer : Buffer)
    (x y : Nat) (c : Channel) (hr : 0 ≤ radius) (hx : x < inImage.width)
    (hy : y < inImage.height) (s : List Nat) (hs : s.Sorted (· ≤ ·))
    (hp : s.Perm (clampedSamples inImage c radius x y)) :
    ((windowLen x radius inImage.width).toNat * (windowLen y radius inImage.height).toNat) / 2
      < s.length ∧
    c.ofRgb (medianOutput inImage radius buffer x y)
      = s.getD (((windowLen x radius inImage.width).toNat
          * (windowLen y radius inImage.height).toNat) / 2) 0 ∧
    qRed (medianOutput windowImage 1 Buffer.empty 1 1) = 0 := by
  refine ⟨?_, ?_, by decide⟩
  · obtain ⟨h1, _, _, _⟩ := window_nat x inImage.width radius hr hx
    obtain ⟨h2, _, _, _⟩ := window_nat y inImage.height radius hr hy
    have hlen : s.length = (windowLen x radius inImage.width).toNat
        * (windowLen y radius inImage.height).toNat := by
      rw [hp.length_eq]
      simp [clampedSamples, windowSamples]
    rw [hlen]
    have hpos : 0 < (windowLen x radius inImage.width).toNat
        * (windowLen y radius inImage.height).toNat := Nat.mul_pos h1 h2
    omega
  · rw [medianOutput_eq inImage radius buffer x y c hr hx hy, qSort_unique _ s hs hp]

set_option maxRecDepth 4000 in
/-- Witness for C4: the centre pixel of the `3 × 3` test image, radius 1. -/
theorem median_is_middle_of_sorted_witness :
    (0 : Int) ≤ 1 ∧ 1 < windowImage.width ∧ 1 < windowImage.height ∧
    List.Sorted (· ≤ ·) [0, 0, 0, 0, 0, 0, 0, 100, 200] ∧
    List.Perm [0, 0, 0, 0, 0, 0, 0, 100, 200] (clampedSamples windowImage .red 1 1 1) ∧
    (((windowLen (1 : Nat) 1 windowImage.width).toNat
        * (windowLen (1 : Nat) 1 windowImage.height).toNat) / 2
      < [0, 0, 0, 0, 0, 0, 0, 100, 200].length ∧
    Channel.red.ofRgb (medianOutput windowImage 1 Buffer.empty 1 1)
      = [0, 0, 0, 0, 0, 0, 0, 100, 200].getD
          (((windowLen (1 : Nat) 1 windowImage.width).toNat
            * (windowLen (1 : Nat) 1 windowImage.height).toNat) / 2) 0 ∧
    qRed (medianOutput windowImage 1 Buffer.empty 1 1) = 0) :=
  ⟨by decide, by decide, by decide, by decide, by decide,
    median_is_middle_of_sorted windowImage 1 Buffer.empty 1 1 .red (by decide) (by decide)
      (by decide) [0, 0, 0, 0, 0, 0, 0, 100, 200] (by decide) (by decide)⟩

/-! ### Pseudo-Median -/

theorem pseudoMedianStep_lo (image : Buffer) (pixel i : Nat) (m : MinMax) (c : Channel) :
    (pseudoMedianStep image pixel i m).lo c
      = if (image.plane c).getD (pixel + i) 0 < m.lo c then (image.plane c).getD (pixel + i) 0
        else m.lo c := by
  cases c <;>
    simp only [pseudoMedianStep, MinMax.lo, Buffer.plane, apply_ite MinMax.minR,
      apply_ite MinMax.minG, apply_ite MinMax.minB, apply_ite MinMax.maxR,
      apply_ite MinMax.maxG, apply_ite MinMax.maxB, ite_self]

theorem pseudoMedianStep_hi (image : Buffer) (pixel i : Nat) (m : MinMax) (c : Channel) :
    (pseudoMedianStep image pixel i m).hi c
      = if (image.plane c).getD (pixel + i) 0 > m.hi c then (image.plane c).getD (pixel + i) 0
        else m.hi c := by
  cases c <;>
    simp only [pseudoMedianStep, MinMax.hi, Buffer.plane, apply_ite MinMax.minR,
      apply_ite MinMax.minG, apply_ite MinMax.minB, apply_ite MinMax.maxR,
      apply_ite MinMax.maxG, apply_ite MinMax.maxB, ite_self]

/-- The invariant of the pseudo-median scan after `n` samples `S 0 .. S (n-1)`:
the running extrema bound the samples seen and, once a sample has been seen,
are samples themselves. -/
theorem minmax_scan (S : Nat → Nat) (c : Channel) (N : Nat) (hS : ∀ k, k < N → S k ≤ 255)
    (body : Nat → MinMax → MinMax)
    (hlo : ∀ k m, k < N → (body k m).lo c = if S k < m.lo c then S k else m.lo c)
    (hhi : ∀ k m, k < N → (body k m).hi c = if S k > m.hi c then S k else m.hi c)
    (m0 : MinMax) (h0 : m0.lo c = 255 ∧ m0.hi c = 0) (n : Nat) (hn : n ≤ N) :
    (∀ k, k < n → (forLoop n body m0).lo c ≤ S k ∧ S k ≤ (forLoop n body m0).hi c) ∧
    (n = 0 → (forLoop n body m0).lo c = 255 ∧ (forLoop n body m0).hi c = 0) ∧
    (0 < n → (∃ k, k < n ∧ (forLoop n body m0).lo c = S k) ∧
      (∃ k, k < n ∧ (forLoop n body m0).hi c = S k)) := by
  induction n with
  | zero => exact ⟨fun k hk => absurd hk (Nat.not_lt_zero k), fun _ => h0, fun h => absurd h (Nat.lt_irrefl 0)⟩
  | succ j ih =>
    obtain ⟨hb, hz, hex⟩ := ih (by omega)
    have hj : j < N := by omega
    have hSj := hS j hj
    simp only [forLoop]
    rw [hlo j _ hj, hhi j _ hj]
    refine ⟨?_, fun h => absurd h (Nat.succ_ne_zero j), fun _ => ⟨?_, ?_⟩⟩
    · intro k hk
      rcases Nat.lt_succ_iff_lt_or_eq.mp hk with h1 | h1
      · have := hb k h1
        constructor
        · split_ifs <;> omega
        · split_ifs <;> omega
      · subst h1
        constructor
        · split_ifs <;> omega
        · split_ifs <;> omega
    · by_cases h1 : S j < (forLoop j body m0).lo c
      · exact ⟨j, Nat.lt_succ_self j, by rw [if_pos h1]⟩
      · rw [if_neg h1]
        rcases Nat.eq_zero_or_pos j with h2 | h2
        · refine ⟨j, Nat.lt_succ_self j, ?_⟩
          have := (hz h2).1
          omega
        · obtain ⟨⟨k, hk, hk2⟩, _⟩ := hex h2
          exact ⟨k, Nat.lt_succ_of_lt hk, hk2⟩
    · by_cases h1 : S j > (forLoop j body m0).hi c
      · exact ⟨j, Nat.lt_succ_self j, by rw [if_pos h1]⟩
      · rw [if_neg h1]
        rcases Nat.eq_zero_or_pos j with h2 | h2
        · refine ⟨j, Nat.lt_succ_self j, ?_⟩
          have := (hz h2).2
          omega
        · obtain ⟨_, ⟨k, hk, hk2⟩⟩ := hex h2
          exact ⟨k, Nat.lt_succ_of_lt hk, hk2⟩

theorem windowSamples_getD (image : QImage) (c : Channel) (xp yp kw kh k : Nat)
    (hk : k < kw * kh) :
    (windowSamples image c xp yp kw kh).getD k 0
      = c.ofRgb (image.constScanLine (yp + k / kw) (xp + k % kw)) := by
  simp [windowSamples, List.getD_eq_getElem?_getD, hk]

theorem windowSamples_mem (image : QImage) (c : Channel) (xp yp kw kh k : Nat)
    (hk : k < kw * kh) :
    c.ofRgb (image.constScanLine (yp + k / kw) (xp + k % kw))
      ∈ windowSamples image c xp yp kw kh := by
  simp only [windowSamples, List.mem_map, List.mem_range]
  exact ⟨k, hk, rfl⟩

/-- The scan of the Pseudo-Median filter over a window inside the image ends
with the least and the greatest sample of each channel. -/
theorem pseudoMedianScan_extrema (inImage : QImage) (xp yp kw kh : Nat) (c : Channel)
    (hx : xp + kw ≤ inImage.width) (hy : yp + kh ≤ inImage.height)
    (hkw : 1 ≤ kw) (hkh : 1 ≤ kh) :
    (pseudoMedianScan (Buffer.ofImage inImage) xp yp kw kh).lo c
        ∈ windowSamples inImage c xp yp kw kh ∧
    (pseudoMedianScan (Buffer.ofImage inImage) xp yp kw kh).hi c
        ∈ windowSamples inImage c xp yp kw kh ∧
    ∀ v ∈ windowSamples inImage c xp yp kw kh,
      (pseudoMedianScan (Buffer.ofImage inImage) xp yp kw kh).lo c ≤ v ∧
      v ≤ (pseudoMedianScan (Buffer.ofImage inImage) xp yp kw kh).hi c := by
  have hn := forLoop_nested kh kw
    (fun j i (m : MinMax) => pseudoMedianStep (Buffer.ofImage inImage)
      ((Buffer.ofImage inImage).constPixel xp (yp + j)) i m)
    { minR := 255, minG := 255, minB := 255, maxR := 0, maxG := 0, maxB := 0 }
  beta_reduce at hn
  have hplane : ∀ k, k < kh * kw →
      ((Buffer.ofImage inImage).plane c).getD
        ((Buffer.ofImage inImage).constPixel xp (yp + k / kw) + k % kw) 0
      = c.ofRgb (inImage.constScanLine (yp + k / kw) (xp + k % kw)) := by
    intro k hk
    obtain ⟨hk1, hk2⟩ := flat_index_lt k kw kh (by rw [Nat.mul_comm]; exact hk)
    have hidx : (Buffer.ofImage inImage).constPixel xp (yp + k / kw) + k % kw
        = (xp + k % kw) + (yp + k / kw) * inImage.width := by
      simp only [Buffer.constPixel, ofImage_width]; omega
    rw [hidx, (ofImage_plane inImage c).2 _ (pixel_index_lt _ _ _ _ (by omega) (by omega))]
    rfl
  obtain ⟨hb, _, hex⟩ := minmax_scan
    (fun k => c.ofRgb (inImage.constScanLine (yp + k / kw) (xp + k % kw))) c (kh * kw)
    (fun k _ => ofRgb_le c _)
    (fun k m => pseudoMedianStep (Buffer.ofImage inImage)
      ((Buffer.ofImage inImage).constPixel xp (yp + k / kw)) (k % kw) m)
    (fun k m hk => by beta_reduce; rw [pseudoMedianStep_lo, hplane k hk])
    (fun k m hk => by beta_reduce; rw [pseudoMedianStep_hi, hplane k hk])
    { minR := 255, minG := 255, minB := 255, maxR := 0, maxG := 0, maxB := 0 }
    (by cases c <;> exact ⟨rfl, rfl⟩) (kh * kw) (Nat.le_refl _)
  have hpos : 0 < kh * kw := Nat.mul_pos hkh hkw
  obtain ⟨⟨k1, hk1, e1⟩, ⟨k2, hk2, e2⟩⟩ := hex hpos
  unfold pseudoMedianScan
  simp only []
  rw [hn]
  refine ⟨?_, ?_, ?_⟩
  · rw [e1]; exact windowSamples_mem inImage c xp yp kw kh k1 (by rw [Nat.mul_comm]; exact hk1)
  · rw [e2]; exact windowSamples_mem inImage c xp yp kw kh k2 (by rw [Nat.mul_comm]; exact hk2)
  · intro v hv
    simp only [windowSamples, List.mem_map, List.mem_range] at hv
    obtain ⟨k, hk, rfl⟩ := hv
    exact hb k (by rw [Nat.mul_comm]; exact hk)

set_option maxRecDepth 4000 in
/-- C5: for every image, radius `≥ 0`, pixel `(x, y)` and channel, the
Pseudo-Median output channel at `(x, y)` is `(lo + hi) / 2` (rounded down),
where `lo` and `hi` are the least and the greatest sample of the channel in
the clamped window; for the `3 × 3` window with channel values
`0,0,0,0,100,0,0,0,200` the output channel is `100`. -/
theorem pseudoMedian_is_midrange (inImage : QImage) (radius : Int) (x y : Nat) (c : Channel)
    (hr : 0 ≤ radius) (hx : x < inImage.width) (hy : y < inImage.height) :
    (∃ lo hi, lo ∈ clampedSamples inImage c radius x y ∧
      hi ∈ clampedSamples inImage c radius x y ∧
      (∀ v ∈ clampedSamples inImage c radius x y, lo ≤ v ∧ v ≤ hi) ∧
      c.ofRgb (pseudoMedianOutput inImage radius x y) = (lo + hi) / 2) ∧
    qRed (pseudoMedianOutput windowImage 1 1 1) = 100 := by
  refine ⟨?_, by decide⟩
  obtain ⟨wx1, _, _, wx⟩ := window_nat x inImage.width radius hr hx
  obtain ⟨wy1, _, _, wy⟩ := window_nat y inImage.height radius hr hy
  obtain ⟨h1, h2, h3⟩ := pseudoMedianScan_extrema inImage (windowStart x radius).toNat
    (windowStart y radius).toNat (windowLen x radius inImage.width).toNat
    (windowLen y radius inImage.height).toNat c wx wy wx1 wy1
  refine ⟨_, _, h1, h2, h3, ?_⟩
  have hlo := windowSamples_le inImage c _ _ _ _ _ h1
  have hhi := windowSamples_le inImage c _ _ _ _ _ h2
  simp only [pseudoMedianOutput, pseudoMedianPixel]
  have hcast : ∀ a b d : Nat, c.ofRgb (qRgb ((a : Nat) : Int) ((b : Nat) : Int) ((d : Nat) : Int))
      = (Pixel.mk a b d).get c % 256 := fun a b d => ofRgb_qRgb a b d c
  rw [hcast]
  cases c <;> simp only [Pixel.get, MinMax.lo, MinMax.hi] at hlo hhi ⊢ <;> omega

/-- Witness for C5: the centre pixel of the `3 × 3` test image, radius 1. -/
theorem pseudoMedian_is_midrange_witness :
    (0 : Int) ≤ 1 ∧ 1 < windowImage.width ∧ 1 < windowImage.height ∧
    ((∃ lo hi, lo ∈ clampedSamples windowImage .red 1 1 1 ∧
      hi ∈ clampedSamples windowImage .red 1 1 1 ∧
      (∀ v ∈ clampedSamples windowImage .red 1 1 1, lo ≤ v ∧ v ≤ hi) ∧
      Channel.red.ofRgb (pseudoMedianOutput windowImage 1 1 1) = (lo + hi) / 2) ∧
    qRed (pseudoMedianOutput windowImage 1 1 1) = 100) :=
  ⟨by decide, by decide, by decide,
    pseudoMedian_is_midrange windowImage 1 1 1 .red (by decide) (by decide) (by decide)⟩

/-! ### Colour helpers -/

theorem qRed_qRgba (r g b a : Int) : qRed (qRgba r g b a) = (r % 256).toNat := by
  simp only [qRed, qRgba]; omega

theorem qGreen_qRgba (r g b a : Int) : qGreen (qRgba r g b a) = (g % 256).toNat := by
  simp only [qGreen, qRgba]; omega

theorem qBlue_qRgba (r g b a : Int) : qBlue (qRgba r g b a) = (b % 256).toNat := by
  simp only [qBlue, qRgba]; omega

theorem qAlpha_qRgba (r g b a : Int) : qAlpha (qRgba r g b a) = (a % 256).toNat := by
  simp only [qAlpha, qRgba]; omega

theorem qAlpha_qRgba_qAlpha (r g b : Int) (p : Nat) :
    qAlpha (qRgba r g b (qAlpha p)) = qAlpha p := by
  rw [qAlpha_qRgba]; simp only [qAlpha]; omega

/-! ### Alpha pass-through -/

/-- C10: for the Gaussian and the Adaptive Mean filter, for every input image
and every pixel `(x, y)`, the alpha of the output pixel equals the alpha of the
input pixel at `(x, y)`, whatever the parameters and whatever the colour
computation yields. -/
theorem gauss_mean_alpha_passthrough {F : Type} [LinearOrderedField F] [FloorRing F]
    (exp : F → F) (undef : Int) (inImage : QImage) (radius mu : Int) (sigma : F) (x y : Nat) :
    qAlpha (gaussOutput exp undef inImage radius sigma x y)
      = qAlpha (inImage.constScanLine y x) ∧
    qAlpha (meanOutput exp undef inImage radius mu sigma x y)
      = qAlpha (inImage.constScanLine y x) := by
  constructor
  · unfold gaussOutput
    split
    · exact qAlpha_qRgba_qAlpha _ _ _ _
    · exact qAlpha_qRgba_qAlpha _ _ _ _
  · exact qAlpha_qRgba_qAlpha _ _ _ _

/-! ### Gauss -/

theorem realToInt_natCast {F : Type} [LinearOrderedField F] [FloorRing F] (undef : Int)
    (n : Nat) : realToInt undef (some (n : F)) = (n : Int) := by
  simp only [realToInt, truncToInt]
  rw [if_pos (Nat.cast_nonneg n)]
  exact Int.floor_natCast n

/-! ### Underflow -/

theorem underflow_zero {F : Type} [LinearOrderedField F] : underflow (0 : F) = 0 := by
  simp [underflow]

/-- A value that has not underflowed is the exact one. -/
theorem underflow_of_ne_zero {F : Type} [LinearOrderedField F] (v : F)
    (h : underflow v ≠ 0) : underflow v = v := by
  unfold underflow at h ⊢
  split
  · rename_i hc
    rw [if_pos hc] at h
    exact absurd rfl h
  · rfl

theorem underflow_of_lt {F : Type} [LinearOrderedField F] (v : F)
    (h : 1 < |v| * 2 ^ 1075) : underflow v = v := by
  unfold underflow
  rw [if_neg (not_le.mpr h)]

theorem underflow_of_one_le {F : Type} [LinearOrderedField F] (v : F) (h : 1 ≤ |v|) :
    underflow v = v := by
  apply underflow_of_lt
  have h2 : (1 : F) < 2 ^ 1075 := one_lt_pow₀ (by norm_num) (by norm_num)
  calc (1 : F) < 2 ^ 1075 := h2
    _ = 1 * 2 ^ 1075 := (one_mul _).symm
    _ ≤ |v| * 2 ^ 1075 := mul_le_mul_of_nonneg_right h (by positivity)

theorem underflow_nonneg {F : Type} [LinearOrderedField F] (v : F) (h : 0 ≤ v) :
    0 ≤ underflow v := by
  unfold underflow
  split
  · exact le_refl _
  · exact h

/-- A positive value above `2^-1075` does not underflow. -/
theorem underflow_pos {F : Type} [LinearOrderedField F] (v : F) (h : 1 < v * 2 ^ 1075) :
    0 < underflow v := by
  have hv : 0 < v := by
    by_contra hn
    have : v * 2 ^ 1075 ≤ 0 := mul_nonpos_of_nonpos_of_nonneg (not_lt.mp hn) (by positivity)
    linarith
  rw [underflow_of_lt v (by rwa [abs_of_pos hv])]
  exact hv

/-- The double `-2 * sigma * sigma` underflows for the non-zero double
`sigma = 2^-600`. -/
theorem underflow_tiny_sigma {F : Type} [LinearOrderedField F] :
    (1 / 2 ^ 600 : F) ≠ 0 ∧ underflow (-2 * (1 / 2 ^ 600 : F) * (1 / 2 ^ 600)) = 0 := by
  refine ⟨by positivity, ?_⟩
  have hv : (-2 * (1 / 2 ^ 600 : F) * (1 / 2 ^ 600)) = -(1 / 2 ^ 1199) := by
    field_simp
    ring
  unfold underflow
  rw [if_pos]
  rw [hv, abs_neg, abs_of_pos (by positivity), div_mul_eq_mul_div, one_mul,
    div_le_one (by positivity)]
  exact pow_le_pow_right₀ (by norm_num) (by norm_num)

/-- With a `sigma2` that is zero `gaussKernel` returns no kernel of finite
weights. -/
theorem gaussKernel_underflow {F : Type} [LinearOrderedField F] [FloorRing F]
    (exp : F → F) (radius : Int) (sigma : F) (h : underflow (-2 * sigma * sigma) = 0) :
    (gaussKernel exp radius sigma).1 = none := by
  simp only [gaussKernel, h, true_or, if_true]

/-- With a kernel of NaNs the colour channels of a Gaussian output pixel are
the conversion of a NaN to `int`. -/
theorem gaussOutput_none {F : Type} [LinearOrderedField F] [FloorRing F]
    (exp : F → F) (undef : Int) (inImage : QImage) (radius : Int) (sigma : F) (x y : Nat)
    (h : (gaussKernel exp radius sigma).1 = none) :
    gaussOutput exp undef inImage radius sigma x y
      = qRgba undef undef undef (qAlpha (inImage.constScanLine y x)) := by
  unfold gaussOutput
  split
  · rename_i kernel kw heq
    rw [heq] at h
    exact absurd h (by simp)
  · rfl

/-- For `radius = 0` and a `sigma` whose `sigma2` is not zero the kernel is the
single weight 1. -/
theorem gaussKernel_radius_zero {F : Type} [LinearOrderedField F] [FloorRing F]
    (exp : F → F) (hexp : exp 0 = 1) (sigma : F) (hs : underflow (-2 * sigma * sigma) ≠ 0) :
    gaussKernel exp 0 sigma = (some [1], 1) := by
  have h1 : underflow (1 : F) = 1 := underflow_of_one_le 1 (by simp)
  have hs' : ¬ underflow (-(2 * sigma * sigma)) = 0 := by
    rwa [show -(2 * sigma * sigma) = -2 * sigma * sigma by ring]
  simp [gaussKernel, forLoop, hexp, hs', h1]

/-- With the kernel `[1]` and `radius = 0` the colour of an output pixel is
the colour of the input pixel. -/
theorem gaussColour_radius_zero {F : Type} [LinearOrderedField F] [FloorRing F]
    (inImage : QImage) (x y : Nat) (hx : x < inImage.width) (hy : y < inImage.height) :
    gaussColour inImage ([1] : List F) 1 0 x y
      = (Pixel.ofRgb (inImage.constScanLine y x)).map (fun (v : Nat) => some (v : F)) := by
  have h1 : ¬ ((y : Int) + ((0 : Nat) : Int) < 0 ∨
      (y : Int) + ((0 : Nat) : Int) ≥ 0 + (inImage.height : Int)) := by omega
  have h2 : ¬ ((x : Int) + ((0 : Nat) : Int) < 0 ∨
      (x : Int) + ((0 : Nat) : Int) ≥ 0 + (inImage.width : Int)) := by omega
  have h3 : ((y : Int) + ((0 : Nat) : Int) - 0).toNat = y := by omega
  have h4 : ((x : Int) + ((0 : Nat) : Int) - 0).toNat = x := by omega
  have h5 : (1 : Int).toNat = 1 := rfl
  have h6 : ¬ ((y : Int) + ((0 : Nat) : Int) < 0 ∨
      (y : Int) + ((0 : Nat) : Int) ≥ (inImage.height : Int)) := by omega
  have h7 : ¬ ((x : Int) + ((0 : Nat) : Int) < 0 ∨
      (x : Int) + ((0 : Nat) : Int) ≥ (inImage.width : Int)) := by omega
  simp only [gaussColour, gaussAccumulate, h5, forLoop, if_neg h1, gaussTap, if_neg h2, h3, h4,
    Pixel.map, Pixel.zip, fdiv, List.getD_cons_zero, zero_add, one_mul, one_ne_zero, if_false,
    div_one, if_neg h6, if_neg h7]

/-- C7 (as stated, refuted): for `radius = 0` and the non-zero double
`sigma = 2^-600` the product `-2 * sigma * sigma` underflows to zero, the single
weight is `exp(0 / 0)`, and the kernel is not `[1]` but a NaN. Whatever `exp`
is and whatever the conversion of a NaN to `int` returns, the output pixel of
the `1 × 1` image of colour `(10, 20, 30)` has equal red and green channels: it
is not the input pixel. -/
theorem gauss_radius_zero_underflow :
    (1 / 2 ^ 600 : ℝ) ≠ 0 ∧
    ∀ (exp : ℝ → ℝ) (undef : Int),
      (gaussKernel exp 0 (1 / 2 ^ 600)).1 = none ∧
      gaussOutput exp undef pixelImage 0 (1 / 2 ^ 600) 0 0 = qRgba undef undef undef 255 ∧
      qRed (gaussOutput exp undef pixelImage 0 (1 / 2 ^ 600) 0 0)
        = qGreen (gaussOutput exp undef pixelImage 0 (1 / 2 ^ 600) 0 0) ∧
      qRed (pixelImage.constScanLine 0 0) = 10 ∧
      qGreen (pixelImage.constScanLine 0 0) = 20 ∧
      gaussOutput exp undef pixelImage 0 (1 / 2 ^ 600) 0 0 ≠ pixelImage.constScanLine 0 0 := by
  refine ⟨underflow_tiny_sigma.1, fun exp undef => ?_⟩
  have hk := gaussKernel_underflow exp 0 (1 / 2 ^ 600 : ℝ) underflow_tiny_sigma.2
  have ho := gaussOutput_none exp undef pixelImage 0 (1 / 2 ^ 600 : ℝ) 0 0 hk
  have ha : qAlpha (pixelImage.constScanLine 0 0) = 255 := by decide
  rw [ha] at ho
  have hrg : qRed (gaussOutput exp undef pixelImage 0 (1 / 2 ^ 600) 0 0)
      = qGreen (gaussOutput exp undef pixelImage 0 (1 / 2 ^ 600) 0 0) := by
    rw [ho, qRed_qRgba, qGreen_qRgba]
  have h10 : qRed (pixelImage.constScanLine 0 0) = 10 := by decide
  have h20 : qGreen (pixelImage.constScanLine 0 0) = 20 := by decide
  refine ⟨hk, ho, hrg, h10, h20, ?_⟩
  intro h
  rw [h, h10, h20] at hrg
  exact absurd hrg (by decide)

/-- C7 (amended): for `radius = 0` and every `sigma` for which the double
`sigma2 = -2 * sigma * sigma` is not zero (it is zero for `sigma = 0` and by
underflow when `2 * sigma^2 ≤ 2^-1075`), the Gaussian filter is the identity:
the kernel is the single weight 1 and, for every image and every pixel, the
red, green, blue and alpha of the output pixel equal the input's. `exp` is any
function with `exp 0 = 1`. -/
theorem gauss_radius_zero_identity {F : Type} [LinearOrderedField F] [FloorRing F]
    (exp : F → F) (hexp : exp 0 = 1) (sigma : F) (hs : underflow (-2 * sigma * sigma) ≠ 0)
    (undef : Int)
    (inImage : QImage) (x y : Nat) (hx : x < inImage.width) (hy : y < inImage.height) :
    (gaussKernel exp 0 sigma).1 = some [1] ∧
    qRed (gaussOutput exp undef inImage 0 sigma x y) = qRed (inImage.constScanLine y x) ∧
    qGreen (gaussOutput exp undef inImage 0 sigma x y) = qGreen (inImage.constScanLine y x) ∧
    qBlue (gaussOutput exp undef inImage 0 sigma x y) = qBlue (inImage.constScanLine y x) ∧
    qAlpha (gaussOutput exp undef inImage 0 sigma x y) = qAlpha (inImage.constScanLine y x) := by
  have hk := gaussKernel_radius_zero exp hexp sigma hs
  have hout : gaussOutput exp undef inImage 0 sigma x y
      = qRgba (qRed (inImage.constScanLine y x)) (qGreen (inImage.constScanLine y x))
          (qBlue (inImage.constScanLine y x)) (qAlpha (inImage.constScanLine y x)) := by
    simp only [gaussOutput, hk, gaussPixel, gaussColour_radius_zero inImage x y hx hy,
      Pixel.map, Pixel.ofRgb, realToInt_natCast]
  refine ⟨by rw [hk], ?_, ?_, ?_, ?_⟩
  · rw [hout, qRed_qRgba]; simp only [qRed]; omega
  · rw [hout, qGreen_qRgba]; simp only [qGreen]; omega
  · rw [hout, qBlue_qRgba]; simp only [qBlue]; omega
  · rw [hout, qAlpha_qRgba]; simp only [qAlpha]; omega

/-- Witness for C7: the real exponential function, `sigma = 1000` as in
`main`, and a pixel of the `3 × 2` test image. -/
theorem gauss_radius_zero_identity_witness :
    Real.exp 0 = 1 ∧ underflow (-2 * (1000 : ℝ) * 1000) ≠ 0 ∧ 2 < testImage.width ∧
    1 < testImage.height ∧
    ((gaussKernel Real.exp 0 (1000 : ℝ)).1 = some [1] ∧
    qRed (gaussOutput Real.exp 0 testImage 0 (1000 : ℝ) 2 1)
      = qRed (testImage.constScanLine 1 2) ∧
    qGreen (gaussOutput Real.exp 0 testImage 0 (1000 : ℝ) 2 1)
      = qGreen (testImage.constScanLine 1 2) ∧
    qBlue (gaussOutput Real.exp 0 testImage 0 (1000 : ℝ) 2 1)
      = qBlue (testImage.constScanLine 1 2) ∧
    qAlpha (gaussOutput Real.exp 0 testImage 0 (1000 : ℝ) 2 1)
      = qAlpha (testImage.constScanLine 1 2)) :=
  have hs : underflow (-2 * (1000 : ℝ) * 1000) ≠ 0 := by
    rw [underflow_of_one_le _ (by norm_num [abs_of_neg])]
    norm_num
  ⟨Real.exp_zero, hs, by decide, by decide,
    gauss_radius_zero_identity Real.exp Real.exp_zero 1000 hs 0 testImage 2 1
      (by decide) (by decide)⟩

/-- C6 (defect of the code): the output pixel `(0, 0)` of a `1 × 2` image
under a `3 × 3` kernel, `radius = 1`. The kernel line `j = 0` is skipped
without advancing `pos`, so the two source pixels inside the image are
weighted by `K[1]` and `K[4]` instead of `K[4]` and `K[7]`: the code yields the
red value 170 where the weighted mean over the taps inside the image is 85. -/
theorem gauss_top_border_misaligned :
    (gaussColour columnImage ([1, 2, 1, 2, 4, 2, 1, 2, 1] : List ℚ) 3 1 0 0).get .red
      = some 170 ∧
    gaussSpecColour columnImage ([1, 2, 1, 2, 4, 2, 1, 2, 1] : List ℚ) 1 0 0 .red
      = some 85 ∧
    (∀ K : List ℚ, (gaussAccumulate columnImage K 3 1 0 0).sumW = K.getD 1 0 + K.getD 4 0) ∧
    gaussTaps columnImage 1 0 0 = [(1, 1), (1, 2)] := by
  have h : gaussTaps columnImage 1 0 0 = [(1, 1), (1, 2)] := by decide
  refine ⟨?_, ?_, ?_, h⟩
  · simp [gaussColour, gaussAccumulate, gaussTap, forLoop, columnImage, fdiv, Pixel.map,
      Pixel.zip, Pixel.get, Pixel.ofRgb, qRed, QImage.constScanLine]
    norm_num
  · simp only [gaussSpecColour, h]
    simp [columnImage, fdiv, Channel.ofRgb, qRed, QImage.constScanLine]
    norm_num
  · intro K
    simp [gaussAccumulate, gaussTap, forLoop, columnImage]

/-! ### Adaptive Mean -/

theorem sqrt_two : Nat.sqrt 2 = 1 := (Nat.eq_sqrt.mpr ⟨by norm_num, by norm_num⟩).symm

/-- C9 (defect of the code): the window of the pixel `(1, 0)` of the `3 × 1`
image with red samples `0, 0, 1`, `radius = 1`. Here `n = 3`, `S1 = 1`,
`S2 = 1` and `n * S2 - S1^2 = 2`; `sqrt` on a `Pixel<quint32>` keeps the
integer part 1 of the square root, so the deviation is `1 / 3` and not
`sqrt 2 / 3`. -/
theorem localDeviation_truncated :
    (localDeviation (F := ℚ) rowImage (integralImage rowImage [] [] []) 1 1 0).get .red
      = some (1 / 3) ∧
    (clampedSamples rowImage .red 1 1 0 = [0, 0, 1] ∧
      bruteSum rowImage (chanVal .red) 0 0 3 1 = 1 ∧
      bruteSum rowImage (chanSq .red) 0 0 3 1 = 1) ∧
    ((1 / 3 : ℚ) : ℝ) ≠ Real.sqrt (max 0 (3 * 1 - 1 ^ 2)) / 3 := by
  refine ⟨?_, ⟨by decide, by decide, by decide⟩, ?_⟩
  · have hsum : integralSum U32 (integralImage rowImage [] [] []).integral (rowImage.width + 1)
        (windowStart ((1 : Nat) : Int) 1).toNat (windowStart ((0 : Nat) : Int) 1).toNat
        (windowLen ((1 : Nat) : Int) 1 rowImage.width).toNat
        (windowLen ((0 : Nat) : Int) 1 rowImage.height).toNat = ⟨1, 0, 0⟩ := by decide
    have hsum2 : integralSum U64 (integralImage rowImage [] [] []).integral2
        (rowImage.width + 1)
        (windowStart ((1 : Nat) : Int) 1).toNat (windowStart ((0 : Nat) : Int) 1).toNat
        (windowLen ((1 : Nat) : Int) 1 rowImage.width).toNat
        (windowLen ((0 : Nat) : Int) 1 rowImage.height).toNat = ⟨1, 0, 0⟩ := by decide
    have hks : windowLen ((1 : Nat) : Int) 1 rowImage.width
        * windowLen ((0 : Nat) : Int) 1 rowImage.height = 3 := by decide
    have hrad : meanRadicand 3 ⟨1, 0, 0⟩ ⟨1, 0, 0⟩ = ⟨2, 0, 0⟩ := by decide
    simp only [localDeviation, hsum, hsum2, hks, meanDeviation, hrad, sqrtU32, Pixel.map,
      Pixel.get, sqrt_two, fdiv]
    norm_num
  · norm_num
    intro h
    have h2 : Real.sqrt 2 = 1 := by linarith
    have h3 := Real.sq_sqrt (show (0 : ℝ) ≤ 2 by norm_num)
    rw [h2] at h3
    norm_num at h3

theorem Pixel.get_map {α β : Type} (f : α → β) (p : Pixel α) (c : Channel) :
    (p.map f).get c = f (p.get c) := by
  cases c <;> rfl

theorem Pixel.get_zip {α β γ : Type} (f : α → β → γ) (p : Pixel α) (q : Pixel β)
    (c : Channel) : (Pixel.zip f p q).get c = f (p.get c) (q.get c) := by
  cases c <;> rfl

theorem sumUpTo_const (n a : Nat) : sumUpTo n (fun _ => a) = n * a := by
  induction n with
  | zero => simp [sumUpTo]
  | succ k ih => simp only [sumUpTo, ih, Nat.succ_mul]

/-- The brute-force sum over a window of an image of one colour. -/
theorem bruteSum_uniform (image : QImage) (val : Nat → Nat) (col : Nat)
    (hu : ∀ i, i < image.width * image.height → image.bits i = col)
    (x y kw kh : Nat) (hx : x + kw ≤ image.width) (hy : y + kh ≤ image.height) :
    bruteSum image val x y kw kh = kh * (kw * val col) := by
  unfold bruteSum
  rw [← sumUpTo_const kh (kw * val col)]
  apply sumUpTo_congr
  intro j hj
  rw [← sumUpTo_const kw (val col)]
  apply sumUpTo_congr
  intro i hi
  simp only [QImage.constScanLine]
  rw [hu _ (pixel_index_lt _ _ _ _ (by omega) (by omega))]

theorem radicand_zero (A B : Nat) (h : A = B) :
    (((((A % 18446744073709551616 % 4294967296 : Nat) : Int)
      - ((B % 4294967296 : Nat) : Int)) % ((4294967296 : Nat) : Int)).toNat) = 0 := by
  rw [h]
  omega

/-- On an image of one colour the local deviation is zero in every channel. -/
theorem localDeviation_uniform {F : Type} [LinearOrderedField F] [FloorRing F]
    (inImage : QImage) (radius : Int) (x y col : Nat) (c : Channel)
    (hr : 0 ≤ radius) (hx : x < inImage.width) (hy : y < inImage.height)
    (hsz : 255 * inImage.width * inImage.height < 2 ^ 32)
    (hu : ∀ i, i < inImage.width * inImage.height → inImage.bits i = col) :
    (localDeviation (F := F) inImage (integralImage inImage [] [] []) radius x y).get c
      = some 0 := by
  obtain ⟨wx1, _, _, wx⟩ := window_nat x inImage.width radius hr hx
  obtain ⟨wy1, _, _, wy⟩ := window_nat y inImage.height radius hr hy
  obtain ⟨e1, e2⟩ := integralSum_exact inImage hsz (windowStart x radius).toNat
    (windowStart y radius).toNat (windowLen x radius inImage.width).toNat
    (windowLen y radius inImage.height).toNat wx wy c
  rw [bruteSum_uniform inImage _ col hu _ _ _ _ wx wy] at e1 e2
  have hks : windowLen x radius inImage.width * windowLen y radius inImage.height
      = (((windowLen y radius inImage.height).toNat
          * (windowLen x radius inImage.width).toNat : Nat) : Int) := by
    rw [Nat.cast_mul, Int.toNat_of_nonneg (by omega), Int.toNat_of_nonneg (by omega), mul_comm]
  have hn : (windowLen y radius inImage.height).toNat * (windowLen x radius inImage.width).toNat
      < 4294967296 := by
    have h1 := Nat.mul_le_mul (show (windowLen y radius inImage.height).toNat ≤ inImage.height
      by omega) (show (windowLen x radius inImage.width).toNat ≤ inImage.width by omega)
    have h2 : inImage.height * inImage.width ≤ 255 * inImage.width * inImage.height := by
      rw [Nat.mul_assoc, Nat.mul_comm inImage.height]
      exact Nat.le_mul_of_pos_left _ (by norm_num)
    norm_num at hsz
    omega
  have hpos : 0 < (windowLen y radius inImage.height).toNat
      * (windowLen x radius inImage.width).toNat := Nat.mul_pos wy1 wx1
  have hksF : ((((windowLen y radius inImage.height).toNat
      * (windowLen x radius inImage.width).toNat : Nat) : Int) : F) ≠ 0 := by
    have : (0 : Int) < (((windowLen y radius inImage.height).toNat
      * (windowLen x radius inImage.width).toNat : Nat) : Int) := by exact_mod_cast hpos
    exact_mod_cast this.ne'
  simp only [localDeviation, meanDeviation, meanRadicand, sqrtU32, mulU32, pow2, Pixel.get_map,
    Pixel.get_sub, e1, e2, hks, chanVal, chanSq]
  have hmod : ((((windowLen y radius inImage.height).toNat
      * (windowLen x radius inImage.width).toNat : Nat) : Int) % ((U32 : Nat) : Int)).toNat
      = (windowLen y radius inImage.height).toNat
        * (windowLen x radius inImage.width).toNat := by
    simp only [U32]; omega
  rw [hmod]
  simp only [U32, U64]
  rw [radicand_zero _ _ (by ring), Nat.sqrt_zero]
  simp only [fdiv, if_neg hksF, Nat.cast_zero, zero_div]

theorem qadd_none {F : Type} [LinearOrderedField F] [FloorRing F] (a : Option F) :
    qadd a none = none := by
  cases a <;> rfl

theorem qdiv_none {F : Type} [LinearOrderedField F] [FloorRing F] (a : Option F) :
    qdiv a none = none := by
  cases a <;> rfl

/-- With a zero deviation the weight `exp(d * d / h)` divides by `h = 0`, and
the sum of the weights is not a finite number. -/
theorem meanTap_sumW_none {F : Type} [LinearOrderedField F] [FloorRing F] (exp : F → F)
    (planes : List (Pixel Nat)) (width : Nat) (mean dev : Pixel F) (xp yp j i : Nat)
    (acc : MeanAcc F) (c : Channel) (hdev : dev.get c = 0) :
    (meanTap exp planes width mean dev xp yp j i acc).sumW.get c = none := by
  simp only [meanTap, Pixel.get_zip, Pixel.get_map, hdev, mul_zero, underflow_zero, fdiv,
    if_true, Option.map_none', qadd_none]

theorem meanLoop_sumW_none {F : Type} [LinearOrderedField F] [FloorRing F] (exp : F → F)
    (planes : List (Pixel Nat)) (width : Nat) (mean dev : Pixel F) (xp yp kw kh : Nat)
    (init : MeanAcc F) (c : Channel) (hdev : dev.get c = 0) (hkw : 1 ≤ kw) (hkh : 1 ≤ kh) :
    (forLoop kh
      (fun j a => forLoop kw (fun i b => meanTap exp planes width mean dev xp yp j i b) a)
      init).sumW.get c = none := by
  obtain ⟨a, rfl⟩ : ∃ a, kh = a + 1 := ⟨kh - 1, by omega⟩
  obtain ⟨b, rfl⟩ : ∃ b, kw = b + 1 := ⟨kw - 1, by omega⟩
  simp only [forLoop]
  exact meanTap_sumW_none _ _ _ _ _ _ _ _ _ _ _ hdev

/-- C8 (defect of the code): on an image whose pixels all have one colour, the
Adaptive Mean filter has no fallback to the window mean. At every pixel, for
every radius `≥ 0`, bias and gain, the deviation is 0, every weight is
`exp(d * d / 0)`, and the colour `sumP / sumW` is not a finite number in any
channel; the output channels are whatever the conversion of such a value to
`int` gives, not the colour of the image. -/
theorem mean_uniform_not_finite {F : Type} [LinearOrderedField F] [FloorRing F]
    (exp : F → F) (undef : Int) (inImage : QImage) (radius mu : Int) (sigma : F)
    (x y col : Nat) (hr : 0 ≤ radius) (hx : x < inImage.width) (hy : y < inImage.height)
    (hsz : 255 * inImage.width * inImage.height < 2 ^ 32)
    (hu : ∀ i, i < inImage.width * inImage.height → inImage.bits i = col) :
    (∀ c, (localDeviation (F := F) inImage (integralImage inImage [] [] []) radius x y).get c
      = some 0) ∧
    (∀ c, (meanColour exp inImage (integralImage inImage [] [] []) radius mu sigma x y).get c
      = none) ∧
    qRed (meanOutput exp undef inImage radius mu sigma x y) = (undef % 256).toNat ∧
    qGreen (meanOutput exp undef inImage radius mu sigma x y) = (undef % 256).toNat ∧
    qBlue (meanOutput exp undef inImage radius mu sigma x y) = (undef % 256).toNat := by
  obtain ⟨wx1, _, _, _⟩ := window_nat x inImage.width radius hr hx
  obtain ⟨wy1, _, _, _⟩ := window_nat y inImage.height radius hr hy
  have hdev : ∀ c, (localDeviation (F := F) inImage (integralImage inImage [] [] [])
      radius x y).get c = some 0 :=
    fun c => localDeviation_uniform inImage radius x y col c hr hx hy hsz hu
  have hcol : ∀ c, (meanColour exp inImage (integralImage inImage [] [] []) radius mu sigma
      x y).get c = none := by
    intro c
    simp only [meanColour, Pixel.get_zip]
    rw [meanLoop_sumW_none exp _ _ _ _ _ _ _ _ _ c _ wx1 wy1, qdiv_none]
    rw [Pixel.get_map, hdev c]
    simp [qBound, qmul, underflow_zero]
  have hr' := hcol .red
  have hg' := hcol .green
  have hb' := hcol .blue
  simp only [Pixel.get] at hr' hg' hb'
  refine ⟨hdev, hcol, ?_, ?_, ?_⟩
  · simp only [meanOutput, meanPixel, qRed_qRgba, hr', realToInt]
  · simp only [meanOutput, meanPixel, qGreen_qRgba, hg', realToInt]
  · simp only [meanOutput, meanPixel, qBlue_qRgba, hb', realToInt]

/-- Witness for C8: the pixel `(1, 0)` of the `2 × 2` image of colour
`(5, 6, 7)`, with `radius = 1`, `mu = 0`, `sigma = 1`; a conversion that
returns `INT_MIN` gives the output colour `(0, 0, 0)`. -/
theorem mean_uniform_not_finite_witness :
    (0 : Int) ≤ 1 ∧ 1 < uniformImage.width ∧ 0 < uniformImage.height ∧
    255 * uniformImage.width * uniformImage.height < 2 ^ 32 ∧
    (∀ i, i < uniformImage.width * uniformImage.height → uniformImage.bits i = 4278519303) ∧
    qRed (uniformImage.constScanLine 0 1) = 5 ∧
    qRed (meanOutput expQ (-2147483648) uniformImage 1 0 1 1 0) = 0 :=
  ⟨by decide, by decide, by decide, by decide, fun _ _ => rfl, by decide,
    (mean_uniform_not_finite expQ (-2147483648) uniformImage 1 0 1 1 0 4278519303 (by decide)
      (by decide) (by decide) (by decide) (fun _ _ => rfl)).2.2.1⟩

/-! ### The pixel loops of `main` -/

theorem setPixelAt_width (image : QImage) (y x v : Nat) :
    (image.setPixelAt y x v).width = image.width ∧
    (image.setPixelAt y x v).height = image.height := ⟨rfl, rfl⟩

/-- Two nested loops that assign `val x y` to `oLine[x]` of line `y` leave an
image of the same size in which every pixel `(x, y)` holds `val x y`. -/
theorem pixelLoop_spec {σ : Type} (img : σ → QImage) (W H : Nat)
    (step : Nat → Nat → σ → σ) (val : Nat → Nat → Nat) (s0 : σ) (hw : (img s0).width = W)
    (hstep : ∀ x y s, (img s).width = W →
      img (step x y s) = (img s).setPixelAt y x (val x y)) :
    (img (forLoop H (fun y s => forLoop W (fun x t => step x y t) s) s0)).width = W ∧
    (img (forLoop H (fun y s => forLoop W (fun x t => step x y t) s) s0)).height
      = (img s0).height ∧
    ∀ x y, x < W → y < H →
      (img (forLoop H (fun y s => forLoop W (fun x t => step x y t) s) s0)).constScanLine y x
        = val x y := by
  have hn := forLoop_nested H W (fun y x (t : σ) => step x y t) s0
  beta_reduce at hn
  rw [hn]
  have key : ∀ n, (img (forLoop n (fun k t => step (k % W) (k / W) t) s0)).width = W ∧
      (img (forLoop n (fun k t => step (k % W) (k / W) t) s0)).height = (img s0).height ∧
      ∀ k, k < n → (img (forLoop n (fun k t => step (k % W) (k / W) t) s0)).bits k
        = val (k % W) (k / W) := by
    intro n
    induction n with
    | zero => exact ⟨hw, rfl, fun k hk => absurd hk (Nat.not_lt_zero k)⟩
    | succ m ih =>
      obtain ⟨h1, h2, h3⟩ := ih
      simp only [forLoop]
      rw [hstep _ _ _ h1]
      refine ⟨h1, h2, ?_⟩
      intro k hk
      simp only [QImage.setPixelAt, h1]
      have hm : m % W + m / W * W = m := Nat.mod_add_div' m W
      rw [hm]
      by_cases hkm : k = m
      · rw [if_pos hkm, hkm]
      · rw [if_neg hkm]
        exact h3 k (by omega)
  obtain ⟨h1, h2, h3⟩ := key (H * W)
  refine ⟨h1, h2, ?_⟩
  intro x y hx hy
  have hlt : x + y * W < H * W := by
    have := pixel_index_lt x y W H hx hy
    rwa [Nat.mul_comm W H] at this
  have e1 : (x + y * W) % W = x := by
    rw [Nat.add_mul_mod_self_right, Nat.mod_eq_of_lt hx]
  have e2 : (x + y * W) / W = y := by
    rw [Nat.add_mul_div_right _ _ (by omega : 0 < W), Nat.div_eq_of_lt hx, Nat.zero_add]
  simp only [QImage.constScanLine, h1]
  rw [h3 _ hlt, e1, e2]

/-- The scratch buffer left by earlier pixels has no effect on the Median
loop body's output: `resize` and the copy loop overwrite all of it. -/
theorem medianPixel_buffer_indep (inImage : QImage) (image : Buffer) (radius : Int)
    (b1 b2 : Buffer) (x y : Nat) :
    (medianPixel inImage image radius b1 x y).1 = (medianPixel inImage image radius b2 x y).1 := by
  have hplane : ∀ (b : Buffer) (c : Channel),
      (forLoop (windowLen y radius inImage.height).toNat
        (fun j buf => buf.copy j image
          (image.constPixel (windowStart x radius).toNat ((windowStart y radius).toNat + j)))
        (b.resize (windowLen x radius inImage.width).toNat
          (windowLen y radius inImage.height).toNat)).plane c
      = (List.range ((windowLen x radius inImage.width).toNat
          * (windowLen y radius inImage.height).toNat)).map
        (fun k => (image.plane c).getD ((windowStart x radius).toNat
          + ((windowStart y radius).toNat + k / (windowLen x radius inImage.width).toNat)
            * image.width + k % (windowLen x radius inImage.width).toNat) 0) := by
    intro b c
    obtain ⟨r1, _, r3⟩ := resize_plane b (windowLen x radius inImage.width).toNat
      (windowLen y radius inImage.height).toNat c
    obtain ⟨hl, hg⟩ := copy_loop_plane image (windowStart x radius).toNat
      (windowStart y radius).toNat (windowLen x radius inImage.width).toNat
      (windowLen y radius inImage.height).toNat _ c r1 r3
    apply list_eq_of_getD
    · rw [hl]; simp
    · intro k hk
      rw [hl] at hk
      rw [hg k hk]
      simp [List.getD_eq_getElem?_getD, hk]
  have hsize : ∀ b : Buffer,
      (forLoop (windowLen y radius inImage.height).toNat
        (fun j buf => buf.copy j image
          (image.constPixel (windowStart x radius).toNat ((windowStart y radius).toNat + j)))
        (b.resize (windowLen x radius inImage.width).toNat
          (windowLen y radius inImage.height).toNat)).size
      = (windowLen x radius inImage.width).toNat * (windowLen y radius inImage.height).toNat :=
    fun b => (copy_loop image _ _ _ _ _ Channel.red rfl).2.1
  have hat : ∀ (b : Buffer) (i : Nat), b.at i
      = ⟨(b.plane .red).getD i 0, (b.plane .green).getD i 0, (b.plane .blue).getD i 0⟩ :=
    fun b i => rfl
  have hss : ∀ b : Buffer, b.sort.size = b.size := fun b => rfl
  have hsp : ∀ (b : Buffer) (c : Channel), b.sort.plane c = qSort (b.plane c) :=
    fun b c => (sort_plane b c).1
  simp only [medianPixel, hat, hsp, hss, hplane, hsize]

theorem gaussFilter_pixels {F : Type} [LinearOrderedField F] [FloorRing F]
    (exp : F → F) (undef : Int) (inImage : QImage) (radius : Int) (sigma : F)
    (garbage : Nat → Nat) :
    (gaussFilter exp undef inImage radius sigma garbage).width = inImage.width ∧
    (gaussFilter exp undef inImage radius sigma garbage).height = inImage.height ∧
    ∀ x y, x < inImage.width → y < inImage.height →
      (gaussFilter exp undef inImage radius sigma garbage).constScanLine y x
        = gaussOutput exp undef inImage radius sigma x y :=
  pixelLoop_spec (fun o => o) inImage.width inImage.height
    (fun x y o => o.setPixelAt y x (gaussOutput exp undef inImage radius sigma x y))
    (fun x y => gaussOutput exp undef inImage radius sigma x y) (newImage inImage garbage) rfl
    (fun _ _ _ _ => rfl)

theorem meanFilter_pixels {F : Type} [LinearOrderedField F] [FloorRing F]
    (exp : F → F) (undef : Int) (inImage : QImage) (radius mu : Int) (sigma : F)
    (garbage : Nat → Nat) :
    (meanFilter exp undef inImage radius mu sigma garbage).width = inImage.width ∧
    (meanFilter exp undef inImage radius mu sigma garbage).height = inImage.height ∧
    ∀ x y, x < inImage.width → y < inImage.height →
      (meanFilter exp undef inImage radius mu sigma garbage).constScanLine y x
        = meanOutput exp undef inImage radius mu sigma x y :=
  pixelLoop_spec (fun o => o) inImage.width inImage.height
    (fun x y o => o.setPixelAt y x
      (meanPixel exp undef inImage (integralImage inImage [] [] []) radius mu sigma x y))
    (fun x y => meanOutput exp undef inImage radius mu sigma x y) (newImage inImage garbage) rfl
    (fun _ _ _ _ => rfl)

theorem medianFilter_pixels (inImage : QImage) (radius : Int) (garbage : Nat → Nat) :
    (medianFilter inImage radius garbage).width = inImage.width ∧
    (medianFilter inImage radius garbage).height = inImage.height ∧
    ∀ x y, x < inImage.width → y < inImage.height → ∀ buffer,
      (medianFilter inImage radius garbage).constScanLine y x
        = medianOutput inImage radius buffer x y := by
  obtain ⟨h1, h2, h3⟩ := pixelLoop_spec (fun (t : QImage × Buffer) => t.1) inImage.width
    inImage.height
    (fun x y (t : QImage × Buffer) =>
      (t.1.setPixelAt y x (medianPixel inImage (Buffer.ofImage inImage) radius t.2 x y).1,
        (medianPixel inImage (Buffer.ofImage inImage) radius t.2 x y).2))
    (fun x y => medianOutput inImage radius Buffer.empty x y)
    (newImage inImage garbage, Buffer.empty) rfl
    (fun x y t _ => by
      simp only [medianOutput]
      rw [medianPixel_buffer_indep inImage _ radius t.2 Buffer.empty x y])
  refine ⟨h1, h2, ?_⟩
  intro x y hx hy buffer
  have := h3 x y hx hy
  simp only [medianOutput] at this ⊢
  rw [medianPixel_buffer_indep inImage _ radius buffer Buffer.empty x y]
  exact this

theorem pseudoMedianFilter_pixels (inImage : QImage) (radius : Int) (garbage : Nat → Nat) :
    (pseudoMedianFilter inImage radius garbage).width = inImage.width ∧
    (pseudoMedianFilter inImage radius garbage).height = inImage.height ∧
    ∀ x y, x < inImage.width → y < inImage.height →
      (pseudoMedianFilter inImage radius garbage).constScanLine y x
        = pseudoMedianOutput inImage radius x y :=
  pixelLoop_spec (fun o => o) inImage.width inImage.height
    (fun x y o => o.setPixelAt y x
      (pseudoMedianPixel inImage (Buffer.ofImage inImage) radius x y))
    (fun x y => pseudoMedianOutput inImage radius x y) (newImage inImage garbage) rfl
    (fun _ _ _ _ => rfl)

/-- C18: for each of the four filters and every input image of width `W` and
height `H`, whatever the parameters and the initial content of the output
image, the output image has width `W` and height `H`, and every output pixel
`(x, y)` with `x < W`, `y < H` is the value the loop body computes for that
coordinate (for the Median filter whatever the scratch buffer holds). -/
theorem filters_keep_size_and_place {F : Type} [LinearOrderedField F] [FloorRing F]
    (exp : F → F) (undef : Int) (inImage : QImage) (radius mu : Int) (sigma : F)
    (garbage : Nat → Nat) :
    ((gaussFilter exp undef inImage radius sigma garbage).width = inImage.width ∧
      (gaussFilter exp undef inImage radius sigma garbage).height = inImage.height ∧
      ∀ x y, x < inImage.width → y < inImage.height →
        (gaussFilter exp undef inImage radius sigma garbage).constScanLine y x
          = gaussOutput exp undef inImage radius sigma x y) ∧
    ((meanFilter exp undef inImage radius mu sigma garbage).width = inImage.width ∧
      (meanFilter exp undef inImage radius mu sigma garbage).height = inImage.height ∧
      ∀ x y, x < inImage.width → y < inImage.height →
        (meanFilter exp undef inImage radius mu sigma garbage).constScanLine y x
          = meanOutput exp undef inImage radius mu sigma x y) ∧
    ((medianFilter inImage radius garbage).width = inImage.width ∧
      (medianFilter inImage radius garbage).height = inImage.height ∧
      ∀ x y, x < inImage.width → y < inImage.height → ∀ buffer,
        (medianFilter inImage radius garbage).constScanLine y x
          = medianOutput inImage radius buffer x y) ∧
    ((pseudoMedianFilter inImage radius garbage).width = inImage.width ∧
      (pseudoMedianFilter inImage radius garbage).height = inImage.height ∧
      ∀ x y, x < inImage.width → y < inImage.height →
        (pseudoMedianFilter inImage radius garbage).constScanLine y x
          = pseudoMedianOutput inImage radius x y) :=
  ⟨gaussFilter_pixels exp undef inImage radius sigma garbage,
    meanFilter_pixels exp undef inImage radius mu sigma garbage,
    medianFilter_pixels inImage radius garbage,
    pseudoMedianFilter_pixels inImage radius garbage⟩

/-- Witness for C18: the pixel `(2, 1)` of the `3 × 2` test image under the
four filters with `radius = 1`, the output images starting from zeros. -/
theorem filters_keep_size_and_place_witness :
    2 < testImage.width ∧ 1 < testImage.height ∧
    (gaussFilter expQ 0 testImage 1 1 (fun _ => 0)).width = testImage.width ∧
    (gaussFilter expQ 0 testImage 1 1 (fun _ => 0)).height = testImage.height ∧
    (gaussFilter expQ 0 testImage 1 1 (fun _ => 0)).constScanLine 1 2
      = gaussOutput expQ 0 testImage 1 1 2 1 ∧
    (meanFilter expQ 0 testImage 1 0 1 (fun _ => 0)).constScanLine 1 2
      = meanOutput expQ 0 testImage 1 0 1 2 1 ∧
    (medianFilter testImage 1 (fun _ => 0)).constScanLine 1 2
      = medianOutput testImage 1 Buffer.empty 2 1 ∧
    (pseudoMedianFilter testImage 1 (fun _ => 0)).constScanLine 1 2
      = pseudoMedianOutput testImage 1 2 1 :=
  ⟨by decide, by decide,
    (filters_keep_size_and_place expQ 0 testImage 1 0 1 (fun _ => 0)).1.1,
    (filters_keep_size_and_place expQ 0 testImage 1 0 1 (fun _ => 0)).1.2.1,
    (filters_keep_size_and_place expQ 0 testImage 1 0 1 (fun _ => 0)).1.2.2 2 1 (by decide)
      (by decide),
    (filters_keep_size_and_place expQ 0 testImage 1 0 1 (fun _ => 0)).2.1.2.2 2 1 (by decide)
      (by decide),
    (filters_keep_size_and_place expQ 0 testImage 1 0 1 (fun _ => 0)).2.2.1.2.2 2 1 (by decide)
      (by decide) Buffer.empty,
    (filters_keep_size_and_place expQ 0 testImage 1 0 1 (fun _ => 0)).2.2.2.2.2 2 1 (by decide)
      (by decide)⟩

/-! ### Alpha of the Median and Pseudo-Median output -/

theorem qAlpha_qRgb (r g b : Int) : qAlpha (qRgb r g b) = 255 := by
  simp only [qAlpha, qRgb]; omega

/-- C11 (as stated, refuted): on an image whose pixels have the alpha bytes 0
and 128 the Median and the Pseudo-Median filter do not pass the alpha
through. -/
theorem median_alpha_not_passed :
    qAlpha (medianOutput alphaImage 1 Buffer.empty 0 0)
      ≠ qAlpha (alphaImage.constScanLine 0 0) ∧
    qAlpha (pseudoMedianOutput alphaImage 1 1 0)
      ≠ qAlpha (alphaImage.constScanLine 0 1) := by
  have h1 : qAlpha (medianOutput alphaImage 1 Buffer.empty 0 0) = 255 := qAlpha_qRgb _ _ _
  have h2 : qAlpha (pseudoMedianOutput alphaImage 1 1 0) = 255 := qAlpha_qRgb _ _ _
  have h3 : qAlpha (alphaImage.constScanLine 0 0) = 0 := by decide
  have h4 : qAlpha (alphaImage.constScanLine 0 1) = 128 := by decide
  rw [h1, h2, h3, h4]
  exact ⟨by decide, by decide⟩

/-- C11 (amended): for the Median and the Pseudo-Median filter, for every
input image, radius and pixel `(x, y)`, the alpha of the output pixel is 255
(`qRgb` builds the pixel); it equals the alpha of the input pixel exactly when
that is 255, as in every pixel of a `Format_RGB32` image. -/
theorem median_alpha_is_255 (inImage : QImage) (radius : Int) (buffer : Buffer) (x y : Nat) :
    qAlpha (medianOutput inImage radius buffer x y) = 255 ∧
    qAlpha (pseudoMedianOutput inImage radius x y) = 255 ∧
    (qAlpha (medianOutput inImage radius buffer x y) = qAlpha (inImage.constScanLine y x)
      ↔ qAlpha (inImage.constScanLine y x) = 255) ∧
    (qAlpha (pseudoMedianOutput inImage radius x y) = qAlpha (inImage.constScanLine y x)
      ↔ qAlpha (inImage.constScanLine y x) = 255) := by
  have h1 : qAlpha (medianOutput inImage radius buffer x y) = 255 := qAlpha_qRgb _ _ _
  have h2 : qAlpha (pseudoMedianOutput inImage radius x y) = 255 := qAlpha_qRgb _ _ _
  refine ⟨h1, h2, ?_, ?_⟩
  · rw [h1]; exact eq_comm
  · rw [h2]; exact eq_comm

/-! ### Colours made by the Median filter -/

set_option maxRecDepth 4000 in
/-- C16: there are an image, a radius and a pixel for which the colour of the
Median output is the colour of no input pixel of the window: in the `3 × 1`
image with the colours `(0, 1, 2)`, `(1, 2, 0)`, `(2, 0, 1)` and `radius = 1`
the pixel `(1, 0)` gets `(1, 1, 1)`, the middle of each sorted channel. -/
theorem median_synthesizes_colour :
    ∃ (inImage : QImage) (radius : Int) (x y : Nat),
      0 ≤ radius ∧ x < inImage.width ∧ y < inImage.height ∧
      ∀ buffer, Pixel.ofRgb (medianOutput inImage radius buffer x y) = ⟨1, 1, 1⟩ ∧
        ∀ i j, (windowStart x radius).toNat ≤ i →
          i < (windowStart x radius).toNat + (windowLen x radius inImage.width).toNat →
          (windowStart y radius).toNat ≤ j →
          j < (windowStart y radius).toNat + (windowLen y radius inImage.height).toNat →
          Pixel.ofRgb (medianOutput inImage radius buffer x y)
            ≠ Pixel.ofRgb (inImage.constScanLine j i) := by
  refine ⟨mixImage, 1, 1, 0, by decide, by decide, by decide, ?_⟩
  intro buffer
  have hb : medianOutput mixImage 1 buffer 1 0 = medianOutput mixImage 1 Buffer.empty 1 0 :=
    medianPixel_buffer_indep mixImage _ 1 buffer Buffer.empty 1 0
  have hv : Pixel.ofRgb (medianOutput mixImage 1 Buffer.empty 1 0) = ⟨1, 1, 1⟩ := by decide
  rw [hb, hv]
  refine ⟨rfl, ?_⟩
  intro i j _ hi _ hj
  have hi' : i < 3 := hi
  have hj' : j < 1 := hj
  interval_cases i <;> interval_cases j <;> decide

/-! ### Images of one colour under the Median and the Pseudo-Median filter -/

theorem Pixel.get_ofRgb (pixel : Nat) (c : Channel) : (Pixel.ofRgb pixel).get c = c.ofRgb pixel := by
  cases c <;> rfl

/-- The samples of a window inside an image of one colour all equal that
colour's channel. -/
theorem windowSamples_uniform (image : QImage) (col : Pixel Nat)
    (hu : ∀ i, i < image.width * image.height → Pixel.ofRgb (image.bits i) = col)
    (c : Channel) (xp yp kw kh : Nat) (hx : xp + kw ≤ image.width)
    (hy : yp + kh ≤ image.height) (v : Nat) (hv : v ∈ windowSamples image c xp yp kw kh) :
    v = col.get c := by
  simp only [windowSamples, List.mem_map, List.mem_range] at hv
  obtain ⟨k, hk, rfl⟩ := hv
  obtain ⟨hk1, hk2⟩ := flat_index_lt k kw kh hk
  rw [← hu _ (pixel_index_lt (xp + k % kw) (yp + k / kw) _ _ (by omega) (by omega)),
    Pixel.get_ofRgb]
  rfl

theorem pseudoMedianOutput_eq (inImage : QImage) (radius : Int) (x y : Nat) (c : Channel) :
    c.ofRgb (pseudoMedianOutput inImage radius x y)
      = ((pseudoMedianScan (Buffer.ofImage inImage) (windowStart x radius).toNat
            (windowStart y radius).toNat (windowLen x radius inImage.width).toNat
            (windowLen y radius inImage.height).toNat).lo c
          + (pseudoMedianScan (Buffer.ofImage inImage) (windowStart x radius).toNat
            (windowStart y radius).toNat (windowLen x radius inImage.width).toNat
            (windowLen y radius inImage.height).toNat).hi c) / 2 % 256 := by
  simp only [pseudoMedianOutput, pseudoMedianPixel]
  have hcast : ∀ a b d : Nat, c.ofRgb (qRgb ((a : Nat) : Int) ((b : Nat) : Int) ((d : Nat) : Int))
      = (Pixel.mk a b d).get c % 256 := fun a b d => ofRgb_qRgb a b d c
  rw [hcast]
  cases c <;> simp only [Pixel.get, MinMax.lo, MinMax.hi, Nat.mod_mod]

/-- On an image of one colour the Median and the Pseudo-Median loop bodies
return that colour. -/
theorem median_uniform_pixel (inImage : QImage) (radius : Int) (col : Pixel Nat)
    (hr : 0 ≤ radius)
    (hu : ∀ i, i < inImage.width * inImage.height → Pixel.ofRgb (inImage.bits i) = col)
    (x y : Nat) (hx : x < inImage.width) (hy : y < inImage.height) (buffer : Buffer) :
    Pixel.ofRgb (medianOutput inImage radius buffer x y) = col ∧
    Pixel.ofRgb (pseudoMedianOutput inImage radius x y) = col := by
  obtain ⟨wx1, _, _, wx⟩ := window_nat x inImage.width radius hr hx
  obtain ⟨wy1, _, _, wy⟩ := window_nat y inImage.height radius hr hy
  have hle : ∀ c, col.get c ≤ 255 := by
    intro c
    rw [← hu _ (pixel_index_lt x y _ _ hx hy), Pixel.get_ofRgb]
    exact ofRgb_le c _
  constructor
  · apply Pixel.ext_get
    intro c
    rw [Pixel.get_ofRgb, medianOutput_eq inImage radius buffer x y c hr hx hy]
    have hperm := List.perm_insertionSort (· ≤ ·) (clampedSamples inImage c radius x y)
    have hlen : (qSort (clampedSamples inImage c radius x y)).length
        = (windowLen x radius inImage.width).toNat
          * (windowLen y radius inImage.height).toNat := by
      rw [qSort, hperm.length_eq]
      simp [clampedSamples, windowSamples]
    have hpos : 0 < (windowLen x radius inImage.width).toNat
        * (windowLen y radius inImage.height).toNat := Nat.mul_pos wx1 wy1
    have hidx : (windowLen x radius inImage.width).toNat
        * (windowLen y radius inImage.height).toNat / 2
        < (qSort (clampedSamples inImage c radius x y)).length := by
      rw [hlen]; omega
    rw [List.getD_eq_getElem?_getD, List.getElem?_eq_getElem hidx, Option.getD_some]
    exact windowSamples_uniform inImage col hu c _ _ _ _ wx wy _
      (hperm.mem_iff.mp (List.getElem_mem hidx))
  · apply Pixel.ext_get
    intro c
    obtain ⟨h1, h2, _⟩ := pseudoMedianScan_extrema inImage (windowStart x radius).toNat
      (windowStart y radius).toNat (windowLen x radius inImage.width).toNat
      (windowLen y radius inImage.height).toNat c wx wy wx1 wy1
    rw [Pixel.get_ofRgb, pseudoMedianOutput_eq,
      windowSamples_uniform inImage col hu c _ _ _ _ wx wy _ h1,
      windowSamples_uniform inImage col hu c _ _ _ _ wx wy _ h2]
    have := hle c
    omega

/-- An image whose pixels `(x, y)` all have the colour `col` has it at every
index of its pixel data. -/
theorem uniform_of_pixels (image : QImage) (col : Pixel Nat)
    (h : ∀ x y, x < image.width → y < image.height →
      Pixel.ofRgb (image.constScanLine y x) = col) :
    ∀ i, i < image.width * image.height → Pixel.ofRgb (image.bits i) = col := by
  intro i hi
  obtain ⟨h1, h2⟩ := flat_index_lt i image.width image.height hi
  have := h (i % image.width) (i / image.width) h1 h2
  simp only [QImage.constScanLine, Nat.mod_add_div'] at this
  exact this

/-- C12: for every image whose pixels all have the colour `col` and every
radius `≥ 0`, the Median and the Pseudo-Median filter output `col` at every
pixel, and applying either filter to its own output returns `col` at every
pixel again. -/
theorem median_uniform_fixed (inImage : QImage) (radius : Int) (col : Pixel Nat)
    (hr : 0 ≤ radius)
    (hu : ∀ i, i < inImage.width * inImage.height → Pixel.ofRgb (inImage.bits i) = col) :
    (∀ x y, x < inImage.width → y < inImage.height → ∀ buffer,
      Pixel.ofRgb (medianOutput inImage radius buffer x y) = col ∧
      Pixel.ofRgb (pseudoMedianOutput inImage radius x y) = col) ∧
    (∀ g1 g2 x y, x < inImage.width → y < inImage.height →
      Pixel.ofRgb ((medianFilter inImage radius g1).constScanLine y x) = col ∧
      Pixel.ofRgb ((medianFilter (medianFilter inImage radius g1) radius g2).constScanLine y x)
        = col ∧
      Pixel.ofRgb ((pseudoMedianFilter inImage radius g1).constScanLine y x) = col ∧
      Pixel.ofRgb ((pseudoMedianFilter (pseudoMedianFilter inImage radius g1) radius
        g2).constScanLine y x) = col) := by
  have first := fun x y hx hy buffer =>
    median_uniform_pixel inImage radius col hr hu x y hx hy buffer
  refine ⟨first, ?_⟩
  intro g1 g2 x y hx hy
  obtain ⟨mw, mh, mp⟩ := medianFilter_pixels inImage radius g1
  obtain ⟨pw, ph, pp⟩ := pseudoMedianFilter_pixels inImage radius g1
  have hm1 : ∀ x y, x < inImage.width → y < inImage.height →
      Pixel.ofRgb ((medianFilter inImage radius g1).constScanLine y x) = col := by
    intro x y hx hy
    rw [mp x y hx hy Buffer.empty]
    exact (first x y hx hy Buffer.empty).1
  have hp1 : ∀ x y, x < inImage.width → y < inImage.height →
      Pixel.ofRgb ((pseudoMedianFilter inImage radius g1).constScanLine y x) = col := by
    intro x y hx hy
    rw [pp x y hx hy]
    exact (first x y hx hy Buffer.empty).2
  have hum := uniform_of_pixels (medianFilter inImage radius g1) col
    (by rw [mw, mh]; exact hm1)
  have hup := uniform_of_pixels (pseudoMedianFilter inImage radius g1) col
    (by rw [pw, ph]; exact hp1)
  obtain ⟨mw2, mh2, mp2⟩ := medianFilter_pixels (medianFilter inImage radius g1) radius g2
  obtain ⟨pw2, ph2, pp2⟩ := pseudoMedianFilter_pixels (pseudoMedianFilter inImage radius g1)
    radius g2
  refine ⟨hm1 x y hx hy, ?_, hp1 x y hx hy, ?_⟩
  · rw [mp2 x y (by rw [mw]; exact hx) (by rw [mh]; exact hy) Buffer.empty]
    exact (median_uniform_pixel _ radius col hr hum x y (by rw [mw]; exact hx)
      (by rw [mh]; exact hy) Buffer.empty).1
  · rw [pp2 x y (by rw [pw]; exact hx) (by rw [ph]; exact hy)]
    exact (median_uniform_pixel _ radius col hr hup x y (by rw [pw]; exact hx)
      (by rw [ph]; exact hy) Buffer.empty).2

/-- Witness for C12: the `2 × 2` image of colour `(5, 6, 7)`, `radius = 1`. -/
theorem median_uniform_fixed_witness :
    (0 : Int) ≤ 1 ∧
    (∀ i, i < uniformImage.width * uniformImage.height →
      Pixel.ofRgb (uniformImage.bits i) = ⟨5, 6, 7⟩) ∧
    ((∀ x y, x < uniformImage.width → y < uniformImage.height → ∀ buffer,
      Pixel.ofRgb (medianOutput uniformImage 1 buffer x y) = ⟨5, 6, 7⟩ ∧
      Pixel.ofRgb (pseudoMedianOutput uniformImage 1 x y) = ⟨5, 6, 7⟩) ∧
    (∀ g1 g2 x y, x < uniformImage.width → y < uniformImage.height →
      Pixel.ofRgb ((medianFilter uniformImage 1 g1).constScanLine y x) = ⟨5, 6, 7⟩ ∧
      Pixel.ofRgb ((medianFilter (medianFilter uniformImage 1 g1) 1 g2).constScanLine y x)
        = ⟨5, 6, 7⟩ ∧
      Pixel.ofRgb ((pseudoMedianFilter uniformImage 1 g1).constScanLine y x) = ⟨5, 6, 7⟩ ∧
      Pixel.ofRgb ((pseudoMedianFilter (pseudoMedianFilter uniformImage 1 g1) 1
        g2).constScanLine y x) = ⟨5, 6, 7⟩)) :=
  ⟨by decide, fun _ _ => (by decide : Pixel.ofRgb 4278519303 = ⟨5, 6, 7⟩),
    median_uniform_fixed uniformImage 1 ⟨5, 6, 7⟩ (by decide)
      (fun _ _ => (by decide : Pixel.ofRgb 4278519303 = ⟨5, 6, 7⟩))⟩

/-! ### The Gaussian kernel -/

/-- A loop that stores `f k` at index `k` and adds it to a running sum. -/
theorem fillLoop_spec {F : Type} [LinearOrderedField F] (m : Nat) (f : Nat → F) (l0 : List F) :
    (forLoop m (fun k (st : List F × F) => (st.1.set k (f k), st.2 + f k)) (l0, 0)).1.length
      = l0.length ∧
    (∀ k, (forLoop m (fun k (st : List F × F) => (st.1.set k (f k), st.2 + f k))
        (l0, 0)).1.getD k 0 = if k < m ∧ k < l0.length then f k else l0.getD k 0) ∧
    (forLoop m (fun k (st : List F × F) => (st.1.set k (f k), st.2 + f k)) (l0, 0)).2
      = ∑ k in Finset.range m, f k := by
  induction m with
  | zero => simp [forLoop]
  | succ n ih =>
    obtain ⟨hl, hg, hs⟩ := ih
    simp only [forLoop]
    refine ⟨by rw [List.length_set, hl], ?_, by rw [hs, Finset.sum_range_succ]⟩
    intro k
    rw [getD_set_eq, hl, hg k]
    by_cases h1 : n = k
    · subst h1
      by_cases h2 : n < l0.length
      · rw [if_pos ⟨rfl, h2⟩, if_pos ⟨Nat.lt_succ_self n, h2⟩]
      · rw [if_neg (fun h => h2 h.2), if_neg (fun h => h2 h.2), if_neg (fun h => h2 h.2)]
    · rw [if_neg (fun h => h1 h.1)]
      by_cases h3 : k < n ∧ k < l0.length
      · rw [if_pos h3, if_pos ⟨Nat.lt_succ_of_lt h3.1, h3.2⟩]
      · rw [if_neg h3, if_neg (by omega)]

/-- The loop `kernel[i] /= sum`. -/
theorem normLoop_spec {F : Type} [LinearOrderedField F] (m : Nat) (S : F) (l0 : List F) :
    (forLoop m (fun i (k : List F) => k.set i (underflow (k.getD i 0 / S))) l0).length
      = l0.length ∧
    ∀ i, (forLoop m (fun i (k : List F) => k.set i (underflow (k.getD i 0 / S))) l0).getD i 0
      = if i < m ∧ i < l0.length then underflow (l0.getD i 0 / S) else l0.getD i 0 := by
  induction m with
  | zero => simp [forLoop]
  | succ n ih =>
    obtain ⟨hl, hg⟩ := ih
    simp only [forLoop]
    refine ⟨by rw [List.length_set, hl], ?_⟩
    intro k
    rw [getD_set_eq, hl, hg k, hg n, if_neg (by omega : ¬ (n < n ∧ n < l0.length))]
    by_cases h1 : n = k
    · subst h1
      by_cases h2 : n < l0.length
      · rw [if_pos ⟨rfl, h2⟩, if_pos ⟨Nat.lt_succ_self n, h2⟩]
      · rw [if_neg (fun h => h2 h.2), if_neg (fun h => h2 h.2), if_neg (fun h => h2 h.2)]
    · rw [if_neg (fun h => h1 h.1)]
      by_cases h3 : k < n ∧ k < l0.length
      · rw [if_pos h3, if_pos ⟨Nat.lt_succ_of_lt h3.1, h3.2⟩]
      · rw [if_neg h3, if_neg (by omega)]

theorem list_sum_eq_sum_range {F : Type} [LinearOrderedField F] (l : List F) :
    l.sum = ∑ k in Finset.range l.length, l.getD k 0 := by
  induction l with
  | nil => simp
  | cons a t ih =>
    rw [List.sum_cons, List.length_cons, Finset.sum_range_succ', ih]
    simp [add_comm]

theorem replicate_getD_zero {F : Type} [LinearOrderedField F] (n k : Nat) : (List.replicate n (0 : F)).getD k 0 = 0 := by
  rw [List.getD_eq_getElem?_getD]
  by_cases h : k < n
  · simp [List.getElem?_replicate, h]
  · simp [List.getElem?_replicate, h]

/-- A sum over `J * n` consecutive indices, line by line. -/
theorem sum_range_mul {F : Type} [LinearOrderedField F] (f : Nat → F) (n J : Nat) :
    ∑ m in Finset.range (J * n), f m
      = ∑ j in Finset.range J, ∑ i in Finset.range n, f (i + j * n) := by
  induction J with
  | zero => simp
  | succ k ih =>
    rw [Nat.succ_mul, Finset.sum_range_add, ih, Finset.sum_range_succ]
    congr 1
    apply Finset.sum_congr rfl
    intro i _
    rw [Nat.add_comm]

/-- The kernel that `gaussKernel` returns for `radius ≥ 0`: with
`n = 2 * radius + 1` and `S` the sum of the `n * n` weights, entry `k` is the
double `kernelWeight k / S`, unless `sigma2` or `S` is zero. -/
theorem gaussKernel_eq {F : Type} [LinearOrderedField F] [FloorRing F] (exp : F → F) (radius : Int) (hr : 0 ≤ radius) (sigma : F) :
    ∃ kernel : List F,
      kernel.length = (2 * radius + 1).toNat * (2 * radius + 1).toNat ∧
      (∀ k, k < (2 * radius + 1).toNat * (2 * radius + 1).toNat →
        kernel.getD k 0 = underflow (kernelWeight exp radius sigma (2 * radius + 1).toNat k
          / ∑ m in Finset.range ((2 * radius + 1).toNat * (2 * radius + 1).toNat),
              kernelWeight exp radius sigma (2 * radius + 1).toNat m)) ∧
      gaussKernel exp radius sigma
        = (if underflow (-2 * sigma * sigma) = 0 ∨
            ∑ m in Finset.range ((2 * radius + 1).toNat * (2 * radius + 1).toNat),
              kernelWeight exp radius sigma (2 * radius + 1).toNat m = 0
          then none else some kernel, 2 * radius + 1) := by
  have hlen0 : ((2 * radius + 1) * (2 * radius + 1)).toNat
      = (2 * radius + 1).toNat * (2 * radius + 1).toNat := by
    have h1 : (0 : Int) ≤ 2 * radius + 1 := by omega
    have h2 : (2 * radius + 1) * (2 * radius + 1)
        = (((2 * radius + 1).toNat * (2 * radius + 1).toNat : Nat) : Int) := by
      rw [Nat.cast_mul, Int.toNat_of_nonneg h1]
    rw [h2, Int.toNat_natCast]
  have hn := forLoop_nested (2 * radius + 1).toNat (2 * radius + 1).toNat
    (fun j i (st : List F × F) =>
      (st.1.set (i + j * (2 * radius + 1).toNat)
        (exp (((((i : Int) - radius) * ((i : Int) - radius)
          + ((j : Int) - radius) * ((j : Int) - radius) : Int) : F)
            / underflow (-2 * sigma * sigma))),
        st.2 + exp (((((i : Int) - radius) * ((i : Int) - radius)
          + ((j : Int) - radius) * ((j : Int) - radius) : Int) : F)
            / underflow (-2 * sigma * sigma))))
    (List.replicate ((2 * radius + 1) * (2 * radius + 1)).toNat (0 : F), (0 : F))
  beta_reduce at hn
  rw [hlen0] at hn
  have hcongr : forLoop ((2 * radius + 1).toNat * (2 * radius + 1).toNat)
      (fun k (st : List F × F) =>
        (st.1.set (k % (2 * radius + 1).toNat + k / (2 * radius + 1).toNat
            * (2 * radius + 1).toNat)
          (exp ((((((k % (2 * radius + 1).toNat : Nat) : Int) - radius)
              * (((k % (2 * radius + 1).toNat : Nat) : Int) - radius)
            + (((k / (2 * radius + 1).toNat : Nat) : Int) - radius)
              * (((k / (2 * radius + 1).toNat : Nat) : Int) - radius) : Int) : F)
            / underflow (-2 * sigma * sigma))),
          st.2 + exp ((((((k % (2 * radius + 1).toNat : Nat) : Int) - radius)
              * (((k % (2 * radius + 1).toNat : Nat) : Int) - radius)
            + (((k / (2 * radius + 1).toNat : Nat) : Int) - radius)
              * (((k / (2 * radius + 1).toNat : Nat) : Int) - radius) : Int) : F)
            / underflow (-2 * sigma * sigma))))
      (List.replicate ((2 * radius + 1).toNat * (2 * radius + 1).toNat) (0 : F), (0 : F))
      = forLoop ((2 * radius + 1).toNat * (2 * radius + 1).toNat)
      (fun k (st : List F × F) =>
        (st.1.set k (kernelWeight exp radius sigma (2 * radius + 1).toNat k),
          st.2 + kernelWeight exp radius sigma (2 * radius + 1).toNat k))
      (List.replicate ((2 * radius + 1).toNat * (2 * radius + 1).toNat) (0 : F), (0 : F)) := by
    apply forLoop_congr
    intro k st _
    rw [Nat.mod_add_div']
    rfl
  obtain ⟨fl, fg, fs⟩ := fillLoop_spec ((2 * radius + 1).toNat * (2 * radius + 1).toNat)
    (kernelWeight exp radius sigma (2 * radius + 1).toNat)
    (List.replicate ((2 * radius + 1).toNat * (2 * radius + 1).toNat) (0 : F))
  rw [List.length_replicate] at fl
  obtain ⟨nl, ng⟩ := normLoop_spec ((2 * radius + 1).toNat * (2 * radius + 1).toNat)
    (∑ m in Finset.range ((2 * radius + 1).toNat * (2 * radius + 1).toNat),
      kernelWeight exp radius sigma (2 * radius + 1).toNat m)
    (forLoop ((2 * radius + 1).toNat * (2 * radius + 1).toNat)
      (fun k (st : List F × F) =>
        (st.1.set k (kernelWeight exp radius sigma (2 * radius + 1).toNat k),
          st.2 + kernelWeight exp radius sigma (2 * radius + 1).toNat k))
      (List.replicate ((2 * radius + 1).toNat * (2 * radius + 1).toNat) (0 : F), (0 : F))).1
  refine ⟨forLoop ((2 * radius + 1).toNat * (2 * radius + 1).toNat)
    (fun i (k : List F) => k.set i (underflow (k.getD i 0
      / ∑ m in Finset.range ((2 * radius + 1).toNat * (2 * radius + 1).toNat),
        kernelWeight exp radius sigma (2 * radius + 1).toNat m)))
    (forLoop ((2 * radius + 1).toNat * (2 * radius + 1).toNat)
      (fun k (st : List F × F) =>
        (st.1.set k (kernelWeight exp radius sigma (2 * radius + 1).toNat k),
          st.2 + kernelWeight exp radius sigma (2 * radius + 1).toNat k))
      (List.replicate ((2 * radius + 1).toNat * (2 * radius + 1).toNat) (0 : F), (0 : F))).1,
    ?_, ?_, ?_⟩
  · rw [nl, fl]
  · intro k hk
    rw [ng k, if_pos ⟨hk, by rw [fl]; exact hk⟩, fg k,
      if_pos ⟨hk, by rw [List.length_replicate]; exact hk⟩]
  · simp only [gaussKernel, hlen0]
    rw [hn, hcongr, fs, fl]

/-- The weight stored for the tap `(i, j)`. -/
theorem kernelWeight_index {F : Type} [LinearOrderedField F] [FloorRing F]
    (exp : F → F) (radius : Int) (sigma : F) (n i j : Nat) (hi : i < n) :
    kernelWeight exp radius sigma n (i + j * n)
      = exp (((((i : Int) - radius) * ((i : Int) - radius)
          + ((j : Int) - radius) * ((j : Int) - radius) : Int) : F)
            / underflow (-2 * sigma * sigma)) := by
  have e1 : (i + j * n) % n = i := by
    rw [Nat.add_mul_mod_self_right, Nat.mod_eq_of_lt hi]
  have e2 : (i + j * n) / n = j := by
    rw [Nat.add_mul_div_right _ _ (by omega : 0 < n), Nat.div_eq_of_lt hi, Nat.zero_add]
  simp only [kernelWeight, e1, e2]

/-- When `sigma2` has not underflowed, the weight stored for the tap `(i, j)`
is `exp(-(dx^2 + dy^2) / (2 * sigma^2))`. -/
theorem kernelWeight_eq_gaussWeight {F : Type} [LinearOrderedField F] [FloorRing F]
    (exp : F → F) (radius : Int) (sigma : F) (hs : underflow (-2 * sigma * sigma) ≠ 0)
    (n i j : Nat) (hi : i < n) :
    kernelWeight exp radius sigma n (i + j * n)
      = gaussWeight exp sigma ((i : Int) - radius) ((j : Int) - radius) := by
  rw [kernelWeight_index exp radius sigma n i j hi, underflow_of_ne_zero _ hs]
  simp only [gaussWeight]
  congr 1
  rw [show (-2 * sigma * sigma) = -(2 * sigma ^ 2) by ring, div_neg, neg_div]
  congr 2
  push_cast
  ring

theorem underflow_sigma2_nonpos {F : Type} [LinearOrderedField F] (sigma : F) :
    underflow (-2 * sigma * sigma) ≤ 0 := by
  unfold underflow
  split
  · exact le_refl _
  · have := mul_self_nonneg sigma
    nlinarith

/-- Every weight is a value of `exp` at a number that is not positive. -/
theorem kernelWeight_le_one {F : Type} [LinearOrderedField F] [FloorRing F]
    (exp : F → F) (hle : ∀ q, q ≤ 0 → exp q ≤ 1) (radius : Int) (sigma : F) (n k : Nat) :
    kernelWeight exp radius sigma n k ≤ 1 := by
  simp only [kernelWeight]
  apply hle
  apply div_nonpos_of_nonneg_of_nonpos
  · exact_mod_cast add_nonneg (mul_self_nonneg (((k % n : Nat) : Int) - radius))
      (mul_self_nonneg (((k / n : Nat) : Int) - radius))
  · exact underflow_sigma2_nonpos sigma

/-- The weight of the centre is `exp 0`. -/
theorem kernelWeight_centre {F : Type} [LinearOrderedField F] [FloorRing F]
    (exp : F → F) (radius : Int) (hr : 0 ≤ radius) (sigma : F) :
    kernelWeight exp radius sigma (2 * radius + 1).toNat
      (radius.toNat + radius.toNat * (2 * radius + 1).toNat) = exp 0 := by
  rw [kernelWeight_index exp radius sigma _ _ _ (by omega)]
  have h : ((radius.toNat : Nat) : Int) - radius = 0 := by omega
  rw [h]
  simp

/-- For `radius ≥ 0`, a `sigma2` that is not zero and an `exp` without negative
values and with `exp 0 = 1`, `gaussKernel` returns a kernel of finite weights:
entry `k` is the double `kernelWeight k / S` with `S ≥ 1` the sum of all
weights. -/
theorem gaussKernel_some {F : Type} [LinearOrderedField F] [FloorRing F]
    (exp : F → F) (hnn : ∀ q, 0 ≤ exp q) (h0 : exp 0 = 1) (radius : Int) (hr : 0 ≤ radius)
    (sigma : F) (hs : underflow (-2 * sigma * sigma) ≠ 0) :
    ∃ kernel : List F,
      gaussKernel exp radius sigma = (some kernel, 2 * radius + 1) ∧
      kernel.length = (2 * radius + 1).toNat * (2 * radius + 1).toNat ∧
      1 ≤ ∑ m in Finset.range ((2 * radius + 1).toNat * (2 * radius + 1).toNat),
        kernelWeight exp radius sigma (2 * radius + 1).toNat m ∧
      ∀ k, k < (2 * radius + 1).toNat * (2 * radius + 1).toNat →
        kernel.getD k 0 = underflow (kernelWeight exp radius sigma (2 * radius + 1).toNat k
          / ∑ m in Finset.range ((2 * radius + 1).toNat * (2 * radius + 1).toNat),
              kernelWeight exp radius sigma (2 * radius + 1).toNat m) := by
  obtain ⟨kernel, hl, hg, he⟩ := gaussKernel_eq exp radius hr sigma
  have hc : radius.toNat + radius.toNat * (2 * radius + 1).toNat
      < (2 * radius + 1).toNat * (2 * radius + 1).toNat :=
    pixel_index_lt _ _ _ _ (by omega) (by omega)
  have hS : 1 ≤ ∑ m in Finset.range ((2 * radius + 1).toNat * (2 * radius + 1).toNat),
      kernelWeight exp radius sigma (2 * radius + 1).toNat m := by
    calc (1 : F) = kernelWeight exp radius sigma (2 * radius + 1).toNat
          (radius.toNat + radius.toNat * (2 * radius + 1).toNat) := by
            rw [kernelWeight_centre exp radius hr sigma, h0]
      _ ≤ _ := Finset.single_le_sum
          (f := fun m => kernelWeight exp radius sigma (2 * radius + 1).toNat m)
          (fun m _ => hnn _) (Finset.mem_range.mpr hc)
  refine ⟨kernel, ?_, hl, hS, hg⟩
  rw [he, if_neg]
  rintro (h | h)
  · exact hs h
  · rw [h] at hS
    exact absurd hS (by norm_num)

/-- C13 (as stated, refuted): for `radius = 3` and the non-zero double
`sigma = 2^-600` the product `-2 * sigma * sigma` underflows to zero, the
centre weight is `exp(0 / 0)`, and `gaussKernel` returns no finite weights,
whatever `exp` is. -/
theorem gaussKernel_tiny_sigma :
    (0 : Int) ≤ 3 ∧ (1 / 2 ^ 600 : ℝ) ≠ 0 ∧
    ∀ exp : ℝ → ℝ, (gaussKernel exp 3 (1 / 2 ^ 600)).1 = none :=
  ⟨by decide, underflow_tiny_sigma.1,
    fun exp => gaussKernel_underflow exp 3 (1 / 2 ^ 600 : ℝ) underflow_tiny_sigma.2⟩

/-- C13 (amended): for every radius `≥ 0` and every `sigma` for which the
double `sigma2 = -2 * sigma * sigma` is not zero, `gaussKernel` returns
`(2 * radius + 1)^2` weights; the weight at `i + j * kw` is the double
`w / S` (zero when `w / S ≤ 2^-1075`) with
`w = exp(-(dx^2 + dy^2) / (2 * sigma^2))` for its offset
`(dx, dy) = (i - radius, j - radius)` from the centre and one `S ≥ 1` for all
weights; in exact arithmetic the quotients `w / S` sum to 1, and so does the
kernel when none of its weights is zero. `exp` is any function without
negative values and with `exp 0 = 1`. -/
theorem gaussKernel_normalised {F : Type} [LinearOrderedField F] [FloorRing F]
    (exp : F → F) (hnn : ∀ q, 0 ≤ exp q) (h0 : exp 0 = 1) (radius : Int) (hr : 0 ≤ radius)
    (sigma : F) (hs : underflow (-2 * sigma * sigma) ≠ 0) :
    ∃ (kernel : List F) (S : F),
      gaussKernel exp radius sigma = (some kernel, 2 * radius + 1) ∧
      kernel.length = (2 * radius + 1).toNat ^ 2 ∧
      1 ≤ S ∧
      (∀ i j, i < (2 * radius + 1).toNat → j < (2 * radius + 1).toNat →
        kernel.getD (i + j * (2 * radius + 1).toNat) 0
          = underflow
              (gaussWeight exp sigma ((i : Int) - radius) ((j : Int) - radius) / S)) ∧
      (∑ j in Finset.range (2 * radius + 1).toNat, ∑ i in Finset.range (2 * radius + 1).toNat,
        gaussWeight exp sigma ((i : Int) - radius) ((j : Int) - radius) / S = 1) ∧
      ((∀ k, k < (2 * radius + 1).toNat ^ 2 → kernel.getD k 0 ≠ 0) → kernel.sum = 1) := by
  obtain ⟨kernel, he, hl, hS, hg⟩ := gaussKernel_some exp hnn h0 radius hr sigma hs
  have hSne : (∑ m in Finset.range ((2 * radius + 1).toNat * (2 * radius + 1).toNat),
      kernelWeight exp radius sigma (2 * radius + 1).toNat m) ≠ 0 := by
    intro h
    rw [h] at hS
    exact absurd hS (by norm_num)
  refine ⟨kernel, _, he, by rw [hl, sq], hS, ?_, ?_, ?_⟩
  · intro i j hi hj
    have hk : i + j * (2 * radius + 1).toNat
        < (2 * radius + 1).toNat * (2 * radius + 1).toNat :=
      pixel_index_lt i j _ _ hi hj
    rw [hg _ hk, kernelWeight_eq_gaussWeight exp radius sigma hs _ i j hi]
  · have h1 : ∀ j ∈ Finset.range (2 * radius + 1).toNat,
        ∑ i in Finset.range (2 * radius + 1).toNat,
          gaussWeight exp sigma ((i : Int) - radius) ((j : Int) - radius)
            / ∑ m in Finset.range ((2 * radius + 1).toNat * (2 * radius + 1).toNat),
                kernelWeight exp radius sigma (2 * radius + 1).toNat m
        = ∑ i in Finset.range (2 * radius + 1).toNat,
          kernelWeight exp radius sigma (2 * radius + 1).toNat (i + j * (2 * radius + 1).toNat)
            / ∑ m in Finset.range ((2 * radius + 1).toNat * (2 * radius + 1).toNat),
                kernelWeight exp radius sigma (2 * radius + 1).toNat m := by
      intro j _
      apply Finset.sum_congr rfl
      intro i hi
      rw [kernelWeight_eq_gaussWeight exp radius sigma hs _ i j (Finset.mem_range.mp hi)]
    rw [Finset.sum_congr rfl h1,
      ← sum_range_mul (fun m => kernelWeight exp radius sigma (2 * radius + 1).toNat m
        / ∑ m in Finset.range ((2 * radius + 1).toNat * (2 * radius + 1).toNat),
            kernelWeight exp radius sigma (2 * radius + 1).toNat m),
      ← Finset.sum_div, div_self hSne]
  · intro hne
    rw [sq] at hne
    rw [list_sum_eq_sum_range, hl]
    have h2 : ∀ k ∈ Finset.range ((2 * radius + 1).toNat * (2 * radius + 1).toNat),
        kernel.getD k 0 = kernelWeight exp radius sigma (2 * radius + 1).toNat k
          / ∑ m in Finset.range ((2 * radius + 1).toNat * (2 * radius + 1).toNat),
              kernelWeight exp radius sigma (2 * radius + 1).toNat m := by
      intro k hk
      have h3 := hne k (Finset.mem_range.mp hk)
      rw [hg k (Finset.mem_range.mp hk)] at h3 ⊢
      exact underflow_of_ne_zero _ h3
    rw [Finset.sum_congr rfl h2, ← Finset.sum_div, div_self hSne]

/-- The double `-2 * sigma * sigma` for `sigma = 1000`, the value in `main`. -/
theorem underflow_sigma_main : underflow (-2 * (1000 : ℝ) * 1000) ≠ 0 := by
  rw [underflow_of_one_le _ (by norm_num [abs_of_neg])]
  norm_num

/-- Witness for C13: the real exponential function, `radius = 3` and
`sigma = 1000` as in `main`. -/
theorem gaussKernel_normalised_witness :
    (∀ q : ℝ, 0 ≤ Real.exp q) ∧ Real.exp 0 = 1 ∧ (0 : Int) ≤ 3 ∧
    underflow (-2 * (1000 : ℝ) * 1000) ≠ 0 ∧
    ∃ (kernel : List ℝ) (S : ℝ),
      gaussKernel Real.exp 3 (1000 : ℝ) = (some kernel, 2 * 3 + 1) ∧
      kernel.length = (2 * 3 + 1 : Int).toNat ^ 2 ∧
      1 ≤ S ∧
      (∀ i j, i < (2 * 3 + 1 : Int).toNat → j < (2 * 3 + 1 : Int).toNat →
        kernel.getD (i + j * (2 * 3 + 1 : Int).toNat) 0
          = underflow (gaussWeight Real.exp (1000 : ℝ) ((i : Int) - 3) ((j : Int) - 3) / S)) ∧
      (∑ j in Finset.range (2 * 3 + 1 : Int).toNat, ∑ i in Finset.range (2 * 3 + 1 : Int).toNat,
        gaussWeight Real.exp (1000 : ℝ) ((i : Int) - 3) ((j : Int) - 3) / S = 1) ∧
      ((∀ k, k < (2 * 3 + 1 : Int).toNat ^ 2 → kernel.getD k 0 ≠ 0) → kernel.sum = 1) :=
  ⟨fun q => (Real.exp_pos q).le, Real.exp_zero, by decide, underflow_sigma_main,
    gaussKernel_normalised Real.exp (fun q => (Real.exp_pos q).le) Real.exp_zero 3 (by decide)
      1000 underflow_sigma_main⟩

theorem kernelWeight_symm {F : Type} [LinearOrderedField F] [FloorRing F]
    (exp : F → F) (radius : Int) (hr : 0 ≤ radius) (sigma : F) (i j : Nat)
    (hi : i < (2 * radius + 1).toNat) (hj : j < (2 * radius + 1).toNat) :
    kernelWeight exp radius sigma (2 * radius + 1).toNat (i + j * (2 * radius + 1).toNat)
      = kernelWeight exp radius sigma (2 * radius + 1).toNat
          (((2 * radius + 1).toNat - 1 - i) + j * (2 * radius + 1).toNat) ∧
    kernelWeight exp radius sigma (2 * radius + 1).toNat (i + j * (2 * radius + 1).toNat)
      = kernelWeight exp radius sigma (2 * radius + 1).toNat
          (i + ((2 * radius + 1).toNat - 1 - j) * (2 * radius + 1).toNat) ∧
    kernelWeight exp radius sigma (2 * radius + 1).toNat (i + j * (2 * radius + 1).toNat)
      = kernelWeight exp radius sigma (2 * radius + 1).toNat
          (j + i * (2 * radius + 1).toNat) := by
  have hi' : (2 * radius + 1).toNat - 1 - i < (2 * radius + 1).toNat := by omega
  have hj' : (2 * radius + 1).toNat - 1 - j < (2 * radius + 1).toNat := by omega
  have ci : (((2 * radius + 1).toNat - 1 - i : Nat) : Int) - radius = -((i : Int) - radius) := by
    omega
  have cj : (((2 * radius + 1).toNat - 1 - j : Nat) : Int) - radius = -((j : Int) - radius) := by
    omega
  rw [kernelWeight_index exp radius sigma _ i j hi,
    kernelWeight_index exp radius sigma _ _ j hi',
    kernelWeight_index exp radius sigma _ i _ hi,
    kernelWeight_index exp radius sigma _ j i hj, ci, cj]
  simp only [neg_mul_neg]
  refine ⟨trivial, trivial, ?_⟩
  rw [add_comm]

/-- C14 (as stated, refuted): for `radius = 1` and `sigma = 0`, and also for
the non-zero double `sigma = 2^-600`, whose `sigma2` underflows to zero, the
weight of the centre is `exp(0 / 0)`, and `gaussKernel` returns no kernel of
finite, comparable weights. -/
theorem gaussKernel_sigma_zero :
    (¬ ∃ kernel : List ℝ, (gaussKernel Real.exp 1 (0 : ℝ)).1 = some kernel ∧
      ∀ i j, i < 3 → j < 3 →
        kernel.getD (i + j * 3) 0 = kernel.getD ((3 - 1 - i) + j * 3) 0 ∧
        kernel.getD (i + j * 3) 0 = kernel.getD (i + (3 - 1 - j) * 3) 0 ∧
        kernel.getD (i + j * 3) 0 = kernel.getD (j + i * 3) 0) ∧
    (¬ ∃ kernel : List ℝ, (gaussKernel Real.exp 1 (1 / 2 ^ 600 : ℝ)).1 = some kernel ∧
      ∀ i j, i < 3 → j < 3 →
        kernel.getD (i + j * 3) 0 = kernel.getD ((3 - 1 - i) + j * 3) 0 ∧
        kernel.getD (i + j * 3) 0 = kernel.getD (i + (3 - 1 - j) * 3) 0 ∧
        kernel.getD (i + j * 3) 0 = kernel.getD (j + i * 3) 0) := by
  constructor
  · rintro ⟨kernel, h, _⟩
    rw [gaussKernel_underflow Real.exp 1 (0 : ℝ) (by simp [underflow_zero])] at h
    exact absurd h (by simp)
  · rintro ⟨kernel, h, _⟩
    rw [gaussKernel_underflow Real.exp 1 (1 / 2 ^ 600 : ℝ) underflow_tiny_sigma.2] at h
    exact absurd h (by simp)

/-- C14 (amended): for every radius `≥ 0` and every `sigma` for which the
double `sigma2 = -2 * sigma * sigma` is not zero, the kernel returned by
`gaussKernel` is symmetric about its centre: with `kw = 2 * radius + 1`, for
all `i, j < kw`,
`kernel[i + j * kw] = kernel[(kw - 1 - i) + j * kw] = kernel[i + (kw - 1 - j) * kw]
= kernel[j + i * kw]`. `exp` is any function without negative values and with
`exp 0 = 1`. -/
theorem gaussKernel_symmetric {F : Type} [LinearOrderedField F] [FloorRing F]
    (exp : F → F) (hnn : ∀ q, 0 ≤ exp q) (h0 : exp 0 = 1) (radius : Int) (hr : 0 ≤ radius)
    (sigma : F) (hs : underflow (-2 * sigma * sigma) ≠ 0) :
    ∃ kernel : List F,
      gaussKernel exp radius sigma = (some kernel, 2 * radius + 1) ∧
      ∀ i j, i < (2 * radius + 1).toNat → j < (2 * radius + 1).toNat →
        kernel.getD (i + j * (2 * radius + 1).toNat) 0
          = kernel.getD (((2 * radius + 1).toNat - 1 - i) + j * (2 * radius + 1).toNat) 0 ∧
        kernel.getD (i + j * (2 * radius + 1).toNat) 0
          = kernel.getD (i + ((2 * radius + 1).toNat - 1 - j) * (2 * radius + 1).toNat) 0 ∧
        kernel.getD (i + j * (2 * radius + 1).toNat) 0
          = kernel.getD (j + i * (2 * radius + 1).toNat) 0 := by
  obtain ⟨kernel, he, _, _, hg⟩ := gaussKernel_some exp hnn h0 radius hr sigma hs
  refine ⟨kernel, he, ?_⟩
  intro i j hi hj
  have hi' : (2 * radius + 1).toNat - 1 - i < (2 * radius + 1).toNat := by omega
  have hj' : (2 * radius + 1).toNat - 1 - j < (2 * radius + 1).toNat := by omega
  obtain ⟨s1, s2, s3⟩ := kernelWeight_symm exp radius hr sigma i j hi hj
  rw [hg _ (pixel_index_lt i j _ _ hi hj), hg _ (pixel_index_lt _ j _ _ hi' hj),
    hg _ (pixel_index_lt i _ _ _ hi hj'), hg _ (pixel_index_lt j i _ _ hj hi), ← s1, ← s2, ← s3]
  exact ⟨rfl, rfl, rfl⟩

/-- Witness for C14: the real exponential function, `radius = 3` and
`sigma = 1000` as in `main`. -/
theorem gaussKernel_symmetric_witness :
    (∀ q : ℝ, 0 ≤ Real.exp q) ∧ Real.exp 0 = 1 ∧ (0 : Int) ≤ 3 ∧
    underflow (-2 * (1000 : ℝ) * 1000) ≠ 0 ∧
    ∃ kernel : List ℝ,
      gaussKernel Real.exp 3 (1000 : ℝ) = (some kernel, 2 * 3 + 1) ∧
      ∀ i j, i < (2 * 3 + 1 : Int).toNat → j < (2 * 3 + 1 : Int).toNat →
        kernel.getD (i + j * (2 * 3 + 1 : Int).toNat) 0
          = kernel.getD (((2 * 3 + 1 : Int).toNat - 1 - i) + j * (2 * 3 + 1 : Int).toNat) 0 ∧
        kernel.getD (i + j * (2 * 3 + 1 : Int).toNat) 0
          = kernel.getD (i + ((2 * 3 + 1 : Int).toNat - 1 - j) * (2 * 3 + 1 : Int).toNat) 0 ∧
        kernel.getD (i + j * (2 * 3 + 1 : Int).toNat) 0
          = kernel.getD (j + i * (2 * 3 + 1 : Int).toNat) 0 :=
  ⟨fun q => (Real.exp_pos q).le, Real.exp_zero, by decide, underflow_sigma_main,
    gaussKernel_symmetric Real.exp (fun q => (Real.exp_pos q).le) Real.exp_zero 3 (by decide)
      1000 underflow_sigma_main⟩

/-! ### The divisor of the Gaussian filter -/

/-- The inner kernel loop over one line, for a kernel without negative
weights: `pos` advances by one per tap, the sum of weights does not decrease,
and once the tap of column `radius` has been taken it has grown by the weight
read for that tap, the one at `pos + radius`. -/
theorem gaussRow_inv {F : Type} [LinearOrderedField F] [FloorRing F]
    (inImage : QImage) (kernel : List F) (radius : Int) (x y j : Nat)
    (hr : 0 ≤ radius) (hx : x < inImage.width)
    (hk : ∀ p, 0 ≤ kernel.getD p 0) (acc0 : GaussAcc F) (i : Nat) :
    (forLoop i (fun i a => gaussTap inImage kernel radius x y j i a) acc0).pos
      = acc0.pos + i ∧
    acc0.sumW ≤ (forLoop i (fun i a => gaussTap inImage kernel radius x y j i a) acc0).sumW ∧
    (radius.toNat < i →
      acc0.sumW + kernel.getD (acc0.pos + radius.toNat) 0
        ≤ (forLoop i (fun i a => gaussTap inImage kernel radius x y j i a) acc0).sumW) := by
  induction i with
  | zero => exact ⟨rfl, le_refl _, fun h => absurd h (Nat.not_lt_zero _)⟩
  | succ m ih =>
    obtain ⟨h1, h2, h3⟩ := ih
    simp only [forLoop]
    generalize forLoop m (fun i a => gaussTap inImage kernel radius x y j i a) acc0 = a
      at h1 h2 h3
    by_cases hskip : (x : Int) + (m : Nat) < radius ∨ (x : Int) + (m : Nat) ≥ radius + inImage.width
    · have hne : radius.toNat ≠ m := by omega
      simp only [gaussTap, if_pos hskip]
      refine ⟨by rw [h1]; omega, h2, fun h => h3 (by omega)⟩
    · simp only [gaussTap, if_neg hskip]
      have hw : 0 ≤ kernel.getD a.pos 0 := hk _
      refine ⟨by rw [h1]; omega, by linarith, fun hlt => ?_⟩
      by_cases hm : radius.toNat < m
      · have := h3 hm
        linarith
      · have hm' : radius.toNat = m := by omega
        rw [h1, ← hm']
        linarith

/-- The kernel loops of the Gaussian filter for `0 ≤ radius < H` and a kernel
without negative weights: a line above the image is skipped without advancing
`pos`, so the lines inside the image read the kernel from its first line on;
there are more than `radius` of them, and the tap of column `radius` in line
`radius` of the kernel reads the weight of the centre. The sum of weights is
at least that weight. -/
theorem gaussAccumulate_sumW_ge {F : Type} [LinearOrderedField F] [FloorRing F]
    (inImage : QImage) (kernel : List F) (radius : Int) (x y : Nat)
    (hr : 0 ≤ radius) (hrH : radius < inImage.height)
    (hx : x < inImage.width) (hy : y < inImage.height)
    (hk : ∀ p, 0 ≤ kernel.getD p 0) :
    kernel.getD (radius.toNat + radius.toNat * (2 * radius + 1).toNat) 0
      ≤ (gaussAccumulate inImage kernel (2 * radius + 1) radius x y).sumW := by
  have key : ∀ j, j ≤ (2 * radius + 1).toNat →
      0 ≤ (forLoop j
        (fun j acc =>
          if (y : Int) + j < radius ∨ (y : Int) + j ≥ radius + inImage.height then acc
          else forLoop (2 * radius + 1).toNat
            (fun i a => gaussTap inImage kernel radius x y j i a) acc)
        ({ sum := ⟨0, 0, 0⟩, sumW := 0, pos := 0 } : GaussAcc F)).sumW ∧
      (j ≤ radius.toNat + (radius - y).toNat →
        (forLoop j
          (fun j acc =>
            if (y : Int) + j < radius ∨ (y : Int) + j ≥ radius + inImage.height then acc
            else forLoop (2 * radius + 1).toNat
              (fun i a => gaussTap inImage kernel radius x y j i a) acc)
          ({ sum := ⟨0, 0, 0⟩, sumW := 0, pos := 0 } : GaussAcc F)).pos
          = (j - (radius - y).toNat) * (2 * radius + 1).toNat) ∧
      (radius.toNat + (radius - y).toNat < j →
        kernel.getD (radius.toNat + radius.toNat * (2 * radius + 1).toNat) 0
          ≤ (forLoop j
            (fun j acc =>
              if (y : Int) + j < radius ∨ (y : Int) + j ≥ radius + inImage.height then acc
              else forLoop (2 * radius + 1).toNat
                (fun i a => gaussTap inImage kernel radius x y j i a) acc)
            ({ sum := ⟨0, 0, 0⟩, sumW := 0, pos := 0 } : GaussAcc F)).sumW) := by
    intro j
    induction j with
    | zero =>
      intro _
      exact ⟨le_refl _, fun _ => by simp [forLoop], fun h => absurd h (Nat.not_lt_zero _)⟩
    | succ m ih =>
      intro hm
      obtain ⟨h1, h2, h3⟩ := ih (by omega)
      simp only [forLoop]
      generalize forLoop m
        (fun j acc =>
          if (y : Int) + j < radius ∨ (y : Int) + j ≥ radius + inImage.height then acc
          else forLoop (2 * radius + 1).toNat
            (fun i a => gaussTap inImage kernel radius x y j i a) acc)
        ({ sum := ⟨0, 0, 0⟩, sumW := 0, pos := 0 } : GaussAcc F) = am at h1 h2 h3
      by_cases hskip : (y : Int) + (m : Nat) < radius ∨
          (y : Int) + (m : Nat) ≥ radius + inImage.height
      · rw [if_pos hskip]
        refine ⟨h1, fun hle => ?_, fun hlt => h3 (by omega)⟩
        have hm0 : m + 1 - (radius - y).toNat = 0 := by omega
        have hm1 : m - (radius - y).toNat = 0 := by omega
        rw [h2 (by omega), hm0, hm1]
      · rw [if_neg hskip]
        obtain ⟨g1, g2, g3⟩ := gaussRow_inv inImage kernel radius x y m hr hx hk am
          (2 * radius + 1).toNat
        refine ⟨le_trans h1 g2, fun hle => ?_, fun hlt => ?_⟩
        · rw [g1, h2 (by omega)]
          have hm2 : m + 1 - (radius - y).toNat = (m - (radius - y).toNat) + 1 := by omega
          rw [hm2, Nat.succ_mul]
        · by_cases hlt' : radius.toNat + (radius - y).toNat < m
          · exact le_trans (h3 hlt') g2
          · have hpos : am.pos = radius.toNat * (2 * radius + 1).toNat := by
              rw [h2 (by omega)]
              congr 1
              omega
            have h4 := g3 (by omega)
            rw [hpos, Nat.add_comm (radius.toNat * (2 * radius + 1).toNat)] at h4
            linarith
  exact (key (2 * radius + 1).toNat (Nat.le_refl _)).2.2 (by omega)

theorem centre_mem_gaussTaps (inImage : QImage) (radius : Int) (x y : Nat)
    (hr : 0 ≤ radius) (hx : x < inImage.width) (hy : y < inImage.height) :
    (radius.toNat, radius.toNat) ∈ gaussTaps inImage radius x y := by
  simp only [gaussTaps, List.mem_flatMap, List.mem_map, List.mem_filter, List.mem_range,
    decide_eq_true_eq]
  refine ⟨radius.toNat, by omega, radius.toNat, ⟨by omega, ?_⟩, rfl⟩
  omega

/-- With a sum of weights that is not zero the colour of a Gaussian output
pixel is a quotient of finite numbers. -/
theorem gaussColour_finite {F : Type} [LinearOrderedField F] [FloorRing F]
    (inImage : QImage) (kernel : List F) (kw radius : Int) (x y : Nat)
    (hw : (gaussAccumulate inImage kernel kw radius x y).sumW ≠ 0) (c : Channel) :
    (gaussColour inImage kernel kw radius x y).get c
      = some ((gaussAccumulate inImage kernel kw radius x y).sum.get c
          / (gaussAccumulate inImage kernel kw radius x y).sumW) := by
  simp only [gaussColour, Pixel.get_map, fdiv, if_neg hw]

/-- The sum of the kernel's weights before normalisation is at most their
number, and below `2^64` for a radius that is an `int`. -/
theorem kernelWeight_sum_lt {F : Type} [LinearOrderedField F] [FloorRing F]
    (exp : F → F) (hle : ∀ q, q ≤ 0 → exp q ≤ 1) (radius : Int) (hr : 0 ≤ radius)
    (hint : radius < 2 ^ 31) (sigma : F) :
    ∑ m in Finset.range ((2 * radius + 1).toNat * (2 * radius + 1).toNat),
      kernelWeight exp radius sigma (2 * radius + 1).toNat m < 2 ^ 64 := by
  have h1 : ∑ m in Finset.range ((2 * radius + 1).toNat * (2 * radius + 1).toNat),
      kernelWeight exp radius sigma (2 * radius + 1).toNat m
      ≤ ∑ _m in Finset.range ((2 * radius + 1).toNat * (2 * radius + 1).toNat), (1 : F) :=
    Finset.sum_le_sum (fun m _ => kernelWeight_le_one exp hle radius sigma _ m)
  rw [Finset.sum_const, Finset.card_range, nsmul_eq_mul, mul_one] at h1
  have hn : (2 * radius + 1).toNat < 2 ^ 32 := by omega
  have h2 : (2 * radius + 1).toNat * (2 * radius + 1).toNat < 2 ^ 64 := by
    calc (2 * radius + 1).toNat * (2 * radius + 1).toNat
        < 2 ^ 32 * 2 ^ 32 := Nat.mul_lt_mul'' hn hn
      _ = 2 ^ 64 := by norm_num
  have h3 : (((2 * radius + 1).toNat * (2 * radius + 1).toNat : Nat) : F) < 2 ^ 64 := by
    exact_mod_cast h2
  exact lt_of_le_of_lt h1 h3

/-- For `0 ≤ radius < 2^31`, a `sigma2` that is not zero and an `exp` with the
range of the double `exp` on numbers that are not positive (`0 ≤ exp q ≤ 1`,
`exp 0 = 1`), no weight of the kernel is negative, and a weight is positive
when its value before normalisation is at least `2^-1011`: the quotient by the
sum, which is below `2^64`, does not underflow. -/
theorem gaussKernel_entries {F : Type} [LinearOrderedField F] [FloorRing F]
    (exp : F → F) (hnn : ∀ q, 0 ≤ exp q) (h0 : exp 0 = 1) (hle : ∀ q, q ≤ 0 → exp q ≤ 1)
    (radius : Int) (hr : 0 ≤ radius) (hint : radius < 2 ^ 31) (sigma : F)
    (hs : underflow (-2 * sigma * sigma) ≠ 0) :
    ∃ kernel : List F,
      gaussKernel exp radius sigma = (some kernel, 2 * radius + 1) ∧
      (∀ p, 0 ≤ kernel.getD p 0) ∧
      ∀ k, k < (2 * radius + 1).toNat * (2 * radius + 1).toNat →
        1 ≤ kernelWeight exp radius sigma (2 * radius + 1).toNat k * 2 ^ 1011 →
        0 < kernel.getD k 0 := by
  obtain ⟨kernel, he, hl, hS, hg⟩ := gaussKernel_some exp hnn h0 radius hr sigma hs
  have hS64 := kernelWeight_sum_lt exp hle radius hr hint sigma
  have hSpos : 0 < ∑ m in Finset.range ((2 * radius + 1).toNat * (2 * radius + 1).toNat),
      kernelWeight exp radius sigma (2 * radius + 1).toNat m := lt_of_lt_of_le one_pos hS
  refine ⟨kernel, he, fun p => ?_, fun k hk hw => ?_⟩
  · by_cases hp : p < (2 * radius + 1).toNat * (2 * radius + 1).toNat
    · rw [hg p hp]
      exact underflow_nonneg _ (div_nonneg (hnn _) hSpos.le)
    · rw [List.getD_eq_default _ _ (by rw [hl]; omega)]
  · rw [hg k hk]
    apply underflow_pos
    rw [show (2 : F) ^ 1075 = 2 ^ 1011 * 2 ^ 64 by rw [← pow_add], div_mul_eq_mul_div,
      lt_div_iff₀ hSpos, one_mul, ← mul_assoc]
    calc ∑ m in Finset.range ((2 * radius + 1).toNat * (2 * radius + 1).toNat),
          kernelWeight exp radius sigma (2 * radius + 1).toNat m < 2 ^ 64 := hS64
      _ = 1 * 2 ^ 64 := (one_mul _).symm
      _ ≤ kernelWeight exp radius sigma (2 * radius + 1).toNat k * 2 ^ 1011 * 2 ^ 64 :=
        mul_le_mul_of_nonneg_right hw (by positivity)

/-- C15 (as stated, refuted): the `3 × 2` test image, `radius = 1 < min(3, 2)`
and the non-zero double `sigma = 2^-600`, whose `sigma2` underflows to zero.
The kernel holds no finite weight, so the divisor `sumW` is not a sum of
positive weights, and the colour channels of the output pixel are the
conversion of a NaN to `int`, whatever `exp` is. -/
theorem gauss_divisor_tiny_sigma :
    ((0 : Int) ≤ 1 ∧ (1 : Int) < min (testImage.width : Int) (testImage.height : Int) ∧
      (1 / 2 ^ 600 : ℝ) ≠ 0) ∧
    ∀ (exp : ℝ → ℝ) (undef : Int),
      (gaussKernel exp 1 (1 / 2 ^ 600)).1 = none ∧
      gaussOutput exp undef testImage 1 (1 / 2 ^ 600) 0 0
        = qRgba undef undef undef (qAlpha (testImage.constScanLine 0 0)) :=
  ⟨⟨by decide, by decide, underflow_tiny_sigma.1⟩, fun exp undef =>
    ⟨gaussKernel_underflow exp 1 (1 / 2 ^ 600 : ℝ) underflow_tiny_sigma.2,
      gaussOutput_none exp undef testImage 1 (1 / 2 ^ 600 : ℝ) 0 0
        (gaussKernel_underflow exp 1 (1 / 2 ^ 600 : ℝ) underflow_tiny_sigma.2)⟩⟩

/-- C15 (amended): for every image, every radius with
`0 ≤ radius < min(W, H)` (an `int`, so below `2^31`), every `sigma` for which
the double `sigma2 = -2 * sigma * sigma` is not zero, and every output pixel,
the Gaussian filter takes at least one kernel tap, the one of the centre; no
weight of the kernel is negative, the weight of the kernel's centre is
positive and is among the weights read, so the divisor `sumW` is at least that
weight and the division `sum /= sumW` is not a division by zero: every channel
of the colour is a finite number. `exp` is any function with the range of the
double `exp` on numbers that are not positive: `0 ≤ exp q ≤ 1` and
`exp 0 = 1`. -/
theorem gauss_divisor_positive {F : Type} [LinearOrderedField F] [FloorRing F]
    (exp : F → F) (hnn : ∀ q, 0 ≤ exp q) (h0 : exp 0 = 1) (hle : ∀ q, q ≤ 0 → exp q ≤ 1)
    (inImage : QImage) (radius : Int) (sigma : F) (x y : Nat)
    (hr : 0 ≤ radius) (hrad : radius < min (inImage.width : Int) (inImage.height : Int))
    (hint : radius < 2 ^ 31) (hs : underflow (-2 * sigma * sigma) ≠ 0)
    (hx : x < inImage.width) (hy : y < inImage.height) :
    (radius.toNat, radius.toNat) ∈ gaussTaps inImage radius x y ∧
    ∃ kernel : List F,
      gaussKernel exp radius sigma = (some kernel, 2 * radius + 1) ∧
      (∀ p, 0 ≤ kernel.getD p 0) ∧
      0 < kernel.getD (radius.toNat + radius.toNat * (2 * radius + 1).toNat) 0 ∧
      kernel.getD (radius.toNat + radius.toNat * (2 * radius + 1).toNat) 0
        ≤ (gaussAccumulate inImage kernel (2 * radius + 1) radius x y).sumW ∧
      ∀ c, (gaussColour inImage kernel (2 * radius + 1) radius x y).get c
        = some ((gaussAccumulate inImage kernel (2 * radius + 1) radius x y).sum.get c
            / (gaussAccumulate inImage kernel (2 * radius + 1) radius x y).sumW) := by
  obtain ⟨kernel, he, hk0, hkp⟩ := gaussKernel_entries exp hnn h0 hle radius hr hint sigma hs
  have hrH : radius < inImage.height := lt_of_lt_of_le hrad (min_le_right _ _)
  have hc : radius.toNat + radius.toNat * (2 * radius + 1).toNat
      < (2 * radius + 1).toNat * (2 * radius + 1).toNat :=
    pixel_index_lt _ _ _ _ (by omega) (by omega)
  have hcp : 0 < kernel.getD (radius.toNat + radius.toNat * (2 * radius + 1).toNat) 0 := by
    apply hkp _ hc
    rw [kernelWeight_centre exp radius hr sigma, h0, one_mul]
    exact one_le_pow₀ (by norm_num)
  have hge := gaussAccumulate_sumW_ge inImage kernel radius x y hr hrH hx hy hk0
  exact ⟨centre_mem_gaussTaps inImage radius x y hr hx hy, kernel, he, hk0, hcp, hge,
    fun c => gaussColour_finite inImage kernel _ radius x y (lt_of_lt_of_le hcp hge).ne' c⟩

/-- Witness for C15: the real exponential function, `radius = 1`,
`sigma = 1000`, and the pixel `(0, 0)` of the `3 × 2` test image. -/
theorem gauss_divisor_positive_witness :
    ((∀ q : ℝ, 0 ≤ Real.exp q) ∧ Real.exp 0 = 1 ∧ (∀ q : ℝ, q ≤ 0 → Real.exp q ≤ 1) ∧
      (0 : Int) ≤ 1 ∧ (1 : Int) < min (testImage.width : Int) (testImage.height : Int) ∧
      (1 : Int) < 2 ^ 31 ∧ underflow (-2 * (1000 : ℝ) * 1000) ≠ 0 ∧
      0 < testImage.width ∧ 0 < testImage.height) ∧
    ((1 : Int).toNat, (1 : Int).toNat) ∈ gaussTaps testImage 1 0 0 ∧
    ∃ kernel : List ℝ,
      gaussKernel Real.exp 1 (1000 : ℝ) = (some kernel, 2 * 1 + 1) ∧
      (∀ p, 0 ≤ kernel.getD p 0) ∧
      0 < kernel.getD ((1 : Int).toNat + (1 : Int).toNat * (2 * 1 + 1 : Int).toNat) 0 ∧
      kernel.getD ((1 : Int).toNat + (1 : Int).toNat * (2 * 1 + 1 : Int).toNat) 0
        ≤ (gaussAccumulate testImage kernel (2 * 1 + 1) 1 0 0).sumW ∧
      ∀ c, (gaussColour testImage kernel (2 * 1 + 1) 1 0 0).get c
        = some ((gaussAccumulate testImage kernel (2 * 1 + 1) 1 0 0).sum.get c
            / (gaussAccumulate testImage kernel (2 * 1 + 1) 1 0 0).sumW) :=
  ⟨⟨fun q => (Real.exp_pos q).le, Real.exp_zero, fun _ hq => Real.exp_le_one_iff.mpr hq,
      by decide, by decide, by decide, underflow_sigma_main, by decide, by decide⟩,
    gauss_divisor_positive Real.exp (fun q => (Real.exp_pos q).le) Real.exp_zero
      (fun _ hq => Real.exp_le_one_iff.mpr hq) testImage 1 1000 0 0 (by decide) (by decide)
      (by decide) underflow_sigma_main (by decide) (by decide)⟩

theorem expFlush_nonneg (q : ℚ) : 0 ≤ expFlush q := by
  unfold expFlush expQ
  split
  · exact le_refl _
  · apply div_nonneg (by norm_num)
    nlinarith [sq_nonneg (q - 1)]

theorem expFlush_zero : expFlush 0 = 1 := by
  norm_num [expFlush, expQ]

/-- The bound `radius < H` of C15 is needed: the pixel `(1, 0)` of the `3 × 1`
image with `radius = 1` and `sigma = 1 / 64`. The weights off the centre are
`exp(-2048)` and `exp(-4096)`, which underflow to 0; the line `j = 0` of the
kernel is skipped without advancing `pos`, so the three taps of the line
`j = 1` read the kernel's first line, `sumW` is 0 and the colour is `0 / 0`. -/
theorem gauss_divisor_zero_beyond_bound :
    ¬ ((1 : Int) < min (rowImage.width : Int) (rowImage.height : Int)) ∧
    underflow (-2 * (1 / 64 : ℚ) * (1 / 64)) ≠ 0 ∧
    ∃ kernel : List ℚ,
      gaussKernel expFlush 1 (1 / 64) = (some kernel, 3) ∧
      (gaussAccumulate rowImage kernel 3 1 1 0).sumW
        = kernel.getD 0 0 + kernel.getD 1 0 + kernel.getD 2 0 ∧
      (kernel.getD 0 0 = 0 ∧ kernel.getD 1 0 = 0 ∧ kernel.getD 2 0 = 0) ∧
      (gaussAccumulate rowImage kernel 3 1 1 0).sumW = 0 ∧
      ∀ c, (gaussColour rowImage kernel 3 1 1 0).get c = none := by
  have hu : underflow (-2 * (1 / 64 : ℚ) * (1 / 64)) = -(1 / 2048) := by
    rw [underflow_of_lt _ (by norm_num [abs_of_neg])]
    norm_num
  have hs : underflow (-2 * (1 / 64 : ℚ) * (1 / 64)) ≠ 0 := by
    rw [hu]; norm_num
  obtain ⟨kernel, he, _, _, hg⟩ := gaussKernel_some expFlush expFlush_nonneg expFlush_zero 1
    (by decide) (1 / 64 : ℚ) hs
  have hw : ∀ k, k < 3 → kernelWeight expFlush 1 (1 / 64 : ℚ) (2 * 1 + 1 : Int).toNat k = 0 := by
    intro k hk
    have h3 : (2 * 1 + 1 : Int).toNat = 3 := rfl
    simp only [kernelWeight, hu, h3]
    interval_cases k <;> norm_num [expFlush]
  have hk : ∀ k, k < 3 → kernel.getD k 0 = 0 := by
    intro k hk
    rw [hg k (by rw [show (2 * 1 + 1 : Int).toNat = 3 from rfl]; omega), hw k hk, zero_div,
      underflow_zero]
  have hsum : (gaussAccumulate rowImage kernel 3 1 1 0).sumW
      = kernel.getD 0 0 + kernel.getD 1 0 + kernel.getD 2 0 := by
    simp [gaussAccumulate, gaussTap, forLoop, rowImage]
  have hz : (gaussAccumulate rowImage kernel 3 1 1 0).sumW = 0 := by
    rw [hsum, hk 0 (by decide), hk 1 (by decide), hk 2 (by decide)]
    norm_num
  refine ⟨by decide, hs, kernel, he, hsum, ⟨hk 0 (by decide), hk 1 (by decide),
    hk 2 (by decide)⟩, hz, fun c => ?_⟩
  simp only [gaussColour, Pixel.get_map, fdiv, hz, if_true]

/-! ### Runs with a radius outside `0 ≤ radius < min(W, H)` -/

/-- The Cauchy-Schwarz inequality for the samples of a rectangle: the square
of their sum is at most their number times the sum of their squares. -/
theorem bruteSum_cauchy (image : QImage) (c : Channel) (x y kw kh : Nat) :
    bruteSum image (chanVal c) x y kw kh * bruteSum image (chanVal c) x y kw kh
      ≤ kh * kw * bruteSum image (chanSq c) x y kw kh := by
  rw [bruteSum_eq_sum, bruteSum_eq_sum, ← Finset.sum_product', ← Finset.sum_product']
  have h := sq_sum_le_card_mul_sum_sq (s := Finset.range kh ×ˢ Finset.range kw)
    (f := fun p : ℕ × ℕ => ((chanVal c (image.constScanLine (y + p.1) (x + p.2)) : ℕ) : ℤ))
  simp only [Finset.card_product, Finset.card_range] at h
  have h2 : ((∑ p in Finset.range kh ×ˢ Finset.range kw,
      chanVal c (image.constScanLine (y + p.1) (x + p.2)) : ℕ) : ℤ) ^ 2
      ≤ ((kh * kw * ∑ p in Finset.range kh ×ˢ Finset.range kw,
        chanSq c (image.constScanLine (y + p.1) (x + p.2)) : ℕ) : ℤ) := by
    push_cast
    simp only [chanSq]
    push_cast
    convert h using 2
    apply Finset.sum_congr rfl
    intro p _
    simp only [chanVal]
    ring
  have h3 := Int.ofNat_le.mp (by simpa only [← Nat.cast_pow] using h2)
  rw [sq] at h3
  exact h3

theorem radicand_exact_arith (n S1 S2 : Nat) (h1 : n * S2 < 4294967296)
    (h2 : S1 * S1 ≤ n * S2) :
    (((((n * S2 % 18446744073709551616 % 4294967296 : Nat) : Int)
      - ((S1 * S1 % 4294967296 : Nat) : Int)) % ((4294967296 : Nat) : Int)).toNat)
      = n * S2 - S1 * S1 := by
  generalize n * S2 = A at h1 h2
  generalize S1 * S1 = B at h2
  omega

/-- The radicand `ks * sum2 - pow2(sum)` of a window of at most 256 pixels,
computed in `quint32`, is the exact `n * S2 - S1^2`. -/
theorem localRadicand_exact (inImage : QImage) (radius : Int) (x y : Nat) (c : Channel)
    (hr : 0 ≤ radius) (hx : x < inImage.width) (hy : y < inImage.height)
    (hn : (windowLen x radius inImage.width).toNat
      * (windowLen y radius inImage.height).toNat ≤ 256) :
    bruteSum inImage (chanVal c) (windowStart x radius).toNat (windowStart y radius).toNat
        (windowLen x radius inImage.width).toNat (windowLen y radius inImage.height).toNat ^ 2
      ≤ (windowLen x radius inImage.width).toNat * (windowLen y radius inImage.height).toNat
        * bruteSum inImage (chanSq c) (windowStart x radius).toNat
            (windowStart y radius).toNat (windowLen x radius inImage.width).toNat
            (windowLen y radius inImage.height).toNat ∧
    (windowLen x radius inImage.width).toNat * (windowLen y radius inImage.height).toNat
        * bruteSum inImage (chanSq c) (windowStart x radius).toNat
            (windowStart y radius).toNat (windowLen x radius inImage.width).toNat
            (windowLen y radius inImage.height).toNat < 2 ^ 32 ∧
    (localRadicand inImage (integralImage inImage [] [] []) radius x y).get c
      = (windowLen x radius inImage.width).toNat * (windowLen y radius inImage.height).toNat
          * bruteSum inImage (chanSq c) (windowStart x radius).toNat
            (windowStart y radius).toNat (windowLen x radius inImage.width).toNat
            (windowLen y radius inImage.height).toNat
        - bruteSum inImage (chanVal c) (windowStart x radius).toNat
            (windowStart y radius).toNat (windowLen x radius inImage.width).toNat
            (windowLen y radius inImage.height).toNat ^ 2 := by
  obtain ⟨wx1, _, _, wx⟩ := window_nat x inImage.width radius hr hx
  obtain ⟨wy1, _, _, wy⟩ := window_nat y inImage.height radius hr hy
  generalize hxp : (windowStart x radius).toNat = xp at *
  generalize hyp : (windowStart y radius).toNat = yp at *
  have hks : windowLen x radius inImage.width * windowLen y radius inImage.height
      = (((windowLen x radius inImage.width).toNat
          * (windowLen y radius inImage.height).toNat : Nat) : Int) := by
    rw [Nat.cast_mul, Int.toNat_of_nonneg (by omega), Int.toNat_of_nonneg (by omega)]
  generalize hkw : (windowLen x radius inImage.width).toNat = kw at *
  generalize hkh : (windowLen y radius inImage.height).toNat = kh at *
  have b1 := bruteSum_le inImage (chanVal c) 255 (ofRgb_le c) xp yp kw kh
  have b2 := bruteSum_le inImage (chanSq c) 65025 (chanSq_le c) xp yp kw kh
  have hcs := bruteSum_cauchy inImage c xp yp kw kh
  have hcomm : kh * kw = kw * kh := Nat.mul_comm _ _
  rw [hcomm] at hcs
  have hS2 : bruteSum inImage (chanSq c) xp yp kw kh ≤ 256 * 65025 := by
    have : kh * (kw * 65025) = kw * kh * 65025 := by ring
    omega
  have hS1 : bruteSum inImage (chanVal c) xp yp kw kh ≤ 256 * 255 := by
    have : kh * (kw * 255) = kw * kh * 255 := by ring
    omega
  have hnS2 : kw * kh * bruteSum inImage (chanSq c) xp yp kw kh ≤ 256 * (256 * 65025) :=
    Nat.mul_le_mul hn hS2
  have e1 := integralSum_of_tableInv inImage U32 (Or.inl rfl) chanVal _
    (integralImage_tables inImage).1 c xp yp kw kh wx wy (by simp only [U32]; omega)
  have e2 := integralSum_of_tableInv inImage U64 (Or.inr rfl) chanSq _
    (integralImage_tables inImage).2 c xp yp kw kh wx wy (by simp only [U64]; omega)
  refine ⟨by rw [sq]; exact hcs, by norm_num; omega, ?_⟩
  simp only [localRadicand, meanRadicand, mulU32, pow2, Pixel.get_map, Pixel.get_sub, hxp, hyp,
    hkw, hkh, e1, e2, hks]
  have hmod : ((((kw * kh : Nat) : Int)) % ((U32 : Nat) : Int)).toNat = kw * kh := by
    simp only [U32]; omega
  rw [hmod]
  simp only [U32, U64]
  rw [radicand_exact_arith _ _ _ (by omega) hcs, sq]

theorem window_small (x W : Nat) (radius : Int) (hr : 0 ≤ radius) (h7 : radius ≤ 7) :
    (windowLen x radius W).toNat ≤ 15 := by
  unfold windowLen windowStart
  omega

/-- C20: in the Adaptive Mean filter, for every pixel whose window has
`n ≤ 256` pixels (in particular for every radius `≤ 7`), the radicand computed
in 32-bit unsigned arithmetic, `(n * S2 mod 2^64 mod 2^32) - (S1^2 mod 2^32)`
modulo `2^32`, is the exact integer `n * S2 - S1^2`: `S1^2 ≤ n * S2`
(Cauchy-Schwarz) and `n * S2 < 2^32`, so neither operand is reduced and the
subtraction does not wrap. `S1` and `S2` are the sum and the sum of squares of
the channel over the window. -/
theorem radicand_never_wraps (inImage : QImage) (radius : Int) (x y : Nat) (c : Channel)
    (hr : 0 ≤ radius) (hx : x < inImage.width) (hy : y < inImage.height)
    (hn : (windowLen x radius inImage.width).toNat
      * (windowLen y radius inImage.height).toNat ≤ 256 ∨ radius ≤ 7) :
    bruteSum inImage (chanVal c) (windowStart x radius).toNat (windowStart y radius).toNat
        (windowLen x radius inImage.width).toNat (windowLen y radius inImage.height).toNat ^ 2
      ≤ (windowLen x radius inImage.width).toNat * (windowLen y radius inImage.height).toNat
        * bruteSum inImage (chanSq c) (windowStart x radius).toNat
            (windowStart y radius).toNat (windowLen x radius inImage.width).toNat
            (windowLen y radius inImage.height).toNat ∧
    (windowLen x radius inImage.width).toNat * (windowLen y radius inImage.height).toNat
        * bruteSum inImage (chanSq c) (windowStart x radius).toNat
            (windowStart y radius).toNat (windowLen x radius inImage.width).toNat
            (windowLen y radius inImage.height).toNat < 2 ^ 32 ∧
    (localRadicand inImage (integralImage inImage [] [] []) radius x y).get c
      = (windowLen x radius inImage.width).toNat * (windowLen y radius inImage.height).toNat
          * bruteSum inImage (chanSq c) (windowStart x radius).toNat
            (windowStart y radius).toNat (windowLen x radius inImage.width).toNat
            (windowLen y radius inImage.height).toNat
        - bruteSum inImage (chanVal c) (windowStart x radius).toNat
            (windowStart y radius).toNat (windowLen x radius inImage.width).toNat
            (windowLen y radius inImage.height).toNat ^ 2 := by
  apply localRadicand_exact inImage radius x y c hr hx hy
  rcases hn with h | h
  · exact h
  · have h1 := window_small x inImage.width radius hr h
    have h2 := window_small y inImage.height radius hr h
    have := Nat.mul_le_mul h1 h2
    omega

set_option maxRecDepth 4000 in
/-- Witness for C20: the pixel `(1, 0)` of the `3 × 2` test image with
`radius = 1`: `n = 6`, `S1 = 466`, `S2 = 105126` for the red channel. -/
theorem radicand_never_wraps_witness :
    (0 : Int) ≤ 1 ∧ 1 < testImage.width ∧ 0 < testImage.height ∧
    ((windowLen (1 : Nat) 1 testImage.width).toNat
      * (windowLen (0 : Nat) 1 testImage.height).toNat ≤ 256 ∨ (1 : Int) ≤ 7) ∧
    (localRadicand testImage (integralImage testImage [] [] []) 1 1 0).get .red
      = 6 * 105126 - 466 ^ 2 := by
  refine ⟨by decide, by decide, by decide, Or.inr (by decide), ?_⟩
  have h := (radicand_never_wraps testImage 1 1 0 .red (by decide) (by decide) (by decide)
    (Or.inr (by decide))).2.2
  rw [h]
  decide

/-! ### The planes built by `integralImage` -/

theorem getD_set_pixel (l : List (Pixel Nat)) (i j : Nat) (a : Pixel Nat) :
    (l.set i a).getD j 0 = if i = j ∧ i < l.length then a else l.getD j 0 :=
  getD_set_eq l i j a 0

/-- One line of `integralImage` fills one line of `planes`. -/
theorem planes_line (image : QImage) (j : Nat) (hj : j < image.height) (s : IntegralState)
    (hlen : s.planes.length = image.width * image.height)
    (hprev : ∀ k, k < j * image.width → s.planes.getD k 0 = Pixel.ofRgb (image.bits k)) :
    (integralImageLine image (j + 1) s).planes.length = image.width * image.height ∧
    ∀ k, k < (j + 1) * image.width →
      (integralImageLine image (j + 1) s).planes.getD k 0 = Pixel.ofRgb (image.bits k) := by
  have key : ∀ i, i ≤ image.width →
      (forLoop i (fun i t => integralImageStep image (j + 1) (i + 1) t)
        { s with sum := 0, sum2 := 0 }).planes.length = image.width * image.height ∧
      ∀ k, k < j * image.width + i →
        (forLoop i (fun i t => integralImageStep image (j + 1) (i + 1) t)
          { s with sum := 0, sum2 := 0 }).planes.getD k 0 = Pixel.ofRgb (image.bits k) := by
    intro i
    induction i with
    | zero => intro _; exact ⟨hlen, hprev⟩
    | succ m ih =>
      intro hm
      obtain ⟨h1, h2⟩ := ih (by omega)
      simp only [forLoop]
      generalize forLoop m (fun i t => integralImageStep image (j + 1) (i + 1) t)
        { s with sum := 0, sum2 := 0 } = t at h1 h2
      have hidx : j * image.width + m < image.width * image.height := by
        have := pixel_index_lt m j image.width image.height (by omega) hj
        omega
      simp only [integralImageStep, Nat.add_sub_cancel, List.length_set]
      refine ⟨h1, ?_⟩
      intro k hk
      rw [getD_set_pixel]
      by_cases hkm : j * image.width + m = k
      · rw [if_pos ⟨hkm, by rw [h1]; exact hidx⟩, ← hkm]
        simp only [QImage.constScanLine]
        rw [Nat.add_comm]
      · rw [if_neg (fun h => hkm h.1)]
        exact h2 k (by omega)
  obtain ⟨h1, h2⟩ := key image.width (Nat.le_refl _)
  refine ⟨h1, ?_⟩
  intro k hk
  exact h2 k (by rw [Nat.succ_mul] at hk; exact hk)

/-- The vector `planes` built by `integralImage` holds the colour of every
pixel of the image. -/
theorem integralImage_planes (image : QImage) :
    (integralImage image [] [] []).planes.length = image.width * image.height ∧
    ∀ k, k < image.width * image.height →
      (integralImage image [] [] []).planes.getD k 0 = Pixel.ofRgb (image.bits k) := by
  have key : ∀ n, n ≤ image.height →
      (forLoop n (fun j t => integralImageLine image (j + 1) t)
        { planes := resizeVec [] (image.width * image.height) 0
          integral := resizeVec [] ((image.width + 1) * (image.height + 1)) 0
          integral2 := resizeVec [] ((image.width + 1) * (image.height + 1)) 0
          sum := 0
          sum2 := 0 }).planes.length = image.width * image.height ∧
      ∀ k, k < n * image.width →
        (forLoop n (fun j t => integralImageLine image (j + 1) t)
          { planes := resizeVec [] (image.width * image.height) 0
            integral := resizeVec [] ((image.width + 1) * (image.height + 1)) 0
            integral2 := resizeVec [] ((image.width + 1) * (image.height + 1)) 0
            sum := 0
            sum2 := 0 }).planes.getD k 0 = Pixel.ofRgb (image.bits k) := by
    intro n
    induction n with
    | zero =>
      intro _
      exact ⟨length_resizeVec _ _ _, fun k hk => by simp at hk⟩
    | succ m ih =>
      intro hm
      obtain ⟨h1, h2⟩ := ih (by omega)
      simp only [forLoop]
      exact planes_line image m (by omega) _ h1 h2
  obtain ⟨h1, h2⟩ := key image.height (Nat.le_refl _)
  refine ⟨h1, ?_⟩
  intro k hk
  exact h2 k (by rw [Nat.mul_comm]; exact hk)

/-! ### The weighted average of the Adaptive Mean filter -/

/-- A positive value of at least `2^-64` does not underflow. -/
theorem underflow_of_ge {F : Type} [LinearOrderedField F] (v : F) (h : 1 ≤ v * 2 ^ 64) :
    underflow v = v := by
  have hv : 0 < v := by
    by_contra hn
    have : v * 2 ^ 64 ≤ 0 := mul_nonpos_of_nonpos_of_nonneg (not_lt.mp hn) (by positivity)
    linarith
  apply underflow_of_lt
  rw [abs_of_pos hv, show (2 : F) ^ 1075 = 2 ^ 64 * 2 ^ 1011 by rw [← pow_add], ← mul_assoc]
  calc (1 : F) < 2 ^ 1011 := one_lt_pow₀ (by norm_num) (by norm_num)
    _ = 1 * 2 ^ 1011 := (one_mul _).symm
    _ ≤ v * 2 ^ 64 * 2 ^ 1011 := mul_le_mul_of_nonneg_right h (by positivity)

/-- One tap of the weighted average when the double `dev * dev` is not zero:
the weight of the sample is `exp(-(mean - s)^2 / (2 * dev^2))`. -/
theorem meanTap_get {F : Type} [LinearOrderedField F] [FloorRing F] (exp : F → F)
    (planes : List (Pixel Nat)) (width : Nat) (mean dev : Pixel F) (xp yp j i : Nat)
    (acc : MeanAcc F) (c : Channel) (hsq : underflow (dev.get c * dev.get c) ≠ 0) (P Wt : F)
    (hP : acc.sumP.get c = some P) (hW : acc.sumW.get c = some Wt) :
    (meanTap exp planes width mean dev xp yp j i acc).sumP.get c
      = some (P + sampleWeight exp (mean.get c) (dev.get c)
          ((planes.getD ((yp + j) * width + (xp + i)) 0).get c)
        * (((planes.getD ((yp + j) * width + (xp + i)) 0).get c : Nat) : F)) ∧
    (meanTap exp planes width mean dev xp yp j i acc).sumW.get c
      = some (Wt + sampleWeight exp (mean.get c) (dev.get c)
          ((planes.getD ((yp + j) * width + (xp + i)) 0).get c)) := by
  have hu : underflow (dev.get c * dev.get c) = dev.get c * dev.get c :=
    underflow_of_ne_zero _ hsq
  have hh : ¬ (-2 * (dev.get c * dev.get c) = 0) := by
    intro h
    rw [hu] at hsq
    rcases mul_eq_zero.mp h with h1 | h1
    · norm_num at h1
    · exact hsq h1
  have harg : (mean.get c - (((planes.getD ((yp + j) * width + (xp + i)) 0).get c : Nat) : F))
        * (mean.get c - (((planes.getD ((yp + j) * width + (xp + i)) 0).get c : Nat) : F))
        / (-2 * (dev.get c * dev.get c))
      = -((mean.get c - (((planes.getD ((yp + j) * width + (xp + i)) 0).get c : Nat) : F)) ^ 2)
        / (2 * dev.get c ^ 2) := by
    rw [show (-2 * (dev.get c * dev.get c)) = -(2 * dev.get c ^ 2) by ring, div_neg, neg_div,
      sq (mean.get c - _)]
  simp only [meanTap, Pixel.get_zip, Pixel.get_map, hP, hW, hu, fdiv, if_neg hh,
    Option.map_some', qadd, qmul, sampleWeight, harg]
  exact ⟨trivial, trivial⟩

/-- The two sums after `n` taps, in row-major order. -/
theorem meanLoop_sums {F : Type} [LinearOrderedField F] [FloorRing F] (exp : F → F)
    (planes : List (Pixel Nat)) (width : Nat) (mean dev : Pixel F) (xp yp kw : Nat)
    (c : Channel) (hsq : underflow (dev.get c * dev.get c) ≠ 0) (n : Nat) :
    (forLoop n (fun k b => meanTap exp planes width mean dev xp yp (k / kw) (k % kw) b)
        ({ sumP := ⟨some 0, some 0, some 0⟩, sumW := ⟨some 0, some 0, some 0⟩ } : MeanAcc F)
      ).sumP.get c
      = some (∑ k in Finset.range n, sampleWeight exp (mean.get c) (dev.get c)
          ((planes.getD ((yp + k / kw) * width + (xp + k % kw)) 0).get c)
        * (((planes.getD ((yp + k / kw) * width + (xp + k % kw)) 0).get c : Nat) : F)) ∧
    (forLoop n (fun k b => meanTap exp planes width mean dev xp yp (k / kw) (k % kw) b)
        ({ sumP := ⟨some 0, some 0, some 0⟩, sumW := ⟨some 0, some 0, some 0⟩ } : MeanAcc F)
      ).sumW.get c
      = some (∑ k in Finset.range n, sampleWeight exp (mean.get c) (dev.get c)
          ((planes.getD ((yp + k / kw) * width + (xp + k % kw)) 0).get c)) := by
  induction n with
  | zero => cases c <;> simp [forLoop, Pixel.get]
  | succ m ih =>
    obtain ⟨h1, h2⟩ := ih
    simp only [forLoop, Finset.sum_range_succ]
    exact meanTap_get exp planes width mean dev xp yp _ _ _ c hsq _ _ h1 h2

theorem map_sum_range {F : Type} [LinearOrderedField F] (g : Nat → Nat) (f : Nat → F)
    (n : Nat) :
    (((List.range n).map g).map f).sum = ∑ k in Finset.range n, f (g k) := by
  induction n with
  | zero => simp
  | succ m ih =>
    rw [List.range_succ, List.map_append, List.map_append, List.sum_append, ih,
      Finset.sum_range_succ]
    simp

/-- The colour of an Adaptive Mean output pixel, in a channel in which the
double `dev * dev` of the adjusted deviation is not zero: the quotient of the
sum of `w_s * s` and the sum of the weights `w_s` over the window's samples,
not a finite number when the sum of the weights is zero. -/
theorem meanColour_sums {F : Type} [LinearOrderedField F] [FloorRing F]
    (exp : F → F) (inImage : QImage) (radius mu : Int) (sigma : F)
    (x y : Nat) (c : Channel) (hr : 0 ≤ radius) (hx : x < inImage.width)
    (hy : y < inImage.height)
    (hsq : underflow
      ((adjustedDeviation inImage (integralImage inImage [] [] []) radius sigma x y).get c
        * (adjustedDeviation inImage (integralImage inImage [] [] []) radius sigma x y).get c)
      ≠ 0) :
    (meanColour exp inImage (integralImage inImage [] [] []) radius mu sigma x y).get c
      = fdiv
        (((clampedSamples inImage c radius x y).map (fun s => sampleWeight exp
          ((adjustedMean (F := F) inImage (integralImage inImage [] [] []) radius mu x y).get c)
          ((adjustedDeviation inImage (integralImage inImage [] [] []) radius sigma x y).get c)
          s * (s : F))).sum)
        (((clampedSamples inImage c radius x y).map (fun s => sampleWeight exp
          ((adjustedMean (F := F) inImage (integralImage inImage [] [] []) radius mu x y).get c)
          ((adjustedDeviation inImage (integralImage inImage [] [] []) radius sigma x y).get c)
          s)).sum) := by
  obtain ⟨wx1, _, _, wx⟩ := window_nat x inImage.width radius hr hx
  obtain ⟨wy1, _, _, wy⟩ := window_nat y inImage.height radius hr hy
  have hn := forLoop_nested (windowLen y radius inImage.height).toNat
    (windowLen x radius inImage.width).toNat
    (fun j i (b : MeanAcc F) => meanTap exp (integralImage inImage [] [] []).planes
      inImage.width
      (adjustedMean (F := F) inImage (integralImage inImage [] [] []) radius mu x y)
      (adjustedDeviation inImage (integralImage inImage [] [] []) radius sigma x y)
      (windowStart x radius).toNat (windowStart y radius).toNat j i b)
    ({ sumP := ⟨some 0, some 0, some 0⟩, sumW := ⟨some 0, some 0, some 0⟩ } : MeanAcc F)
  beta_reduce at hn
  obtain ⟨hP, hW⟩ := meanLoop_sums exp (integralImage inImage [] [] []).planes inImage.width
    (adjustedMean (F := F) inImage (integralImage inImage [] [] []) radius mu x y)
    (adjustedDeviation inImage (integralImage inImage [] [] []) radius sigma x y)
    (windowStart x radius).toNat (windowStart y radius).toNat
    (windowLen x radius inImage.width).toNat c hsq
    ((windowLen y radius inImage.height).toNat * (windowLen x radius inImage.width).toNat)
  have hsample : ∀ k, k < (windowLen y radius inImage.height).toNat
        * (windowLen x radius inImage.width).toNat →
      ((integralImage inImage [] [] []).planes.getD
        (((windowStart y radius).toNat + k / (windowLen x radius inImage.width).toNat)
          * inImage.width
          + ((windowStart x radius).toNat + k % (windowLen x radius inImage.width).toNat))
        0).get c
      = c.ofRgb (inImage.constScanLine
          ((windowStart y radius).toNat + k / (windowLen x radius inImage.width).toNat)
          ((windowStart x radius).toNat + k % (windowLen x radius inImage.width).toNat)) := by
    intro k hk
    obtain ⟨hk1, hk2⟩ := flat_index_lt k _ _ (by rw [Nat.mul_comm]; exact hk)
    have hidx := pixel_index_lt
      ((windowStart x radius).toNat + k % (windowLen x radius inImage.width).toNat)
      ((windowStart y radius).toNat + k / (windowLen x radius inImage.width).toNat)
      inImage.width inImage.height (by omega) (by omega)
    rw [Nat.add_comm, (integralImage_planes inImage).2 _ hidx, Pixel.get_ofRgb]
    rfl
  have hcol : meanColour exp inImage (integralImage inImage [] [] []) radius mu sigma x y
      = Pixel.zip qdiv
        (forLoop (windowLen y radius inImage.height).toNat
          (fun j a => forLoop (windowLen x radius inImage.width).toNat
            (fun i b => meanTap exp (integralImage inImage [] [] []).planes inImage.width
              (adjustedMean (F := F) inImage (integralImage inImage [] [] []) radius mu x y)
              (adjustedDeviation inImage (integralImage inImage [] [] []) radius sigma x y)
              (windowStart x radius).toNat (windowStart y radius).toNat j i b) a)
          ({ sumP := ⟨some 0, some 0, some 0⟩, sumW := ⟨some 0, some 0, some 0⟩ }
            : MeanAcc F)).sumP
        (forLoop (windowLen y radius inImage.height).toNat
          (fun j a => forLoop (windowLen x radius inImage.width).toNat
            (fun i b => meanTap exp (integralImage inImage [] [] []).planes inImage.width
              (adjustedMean (F := F) inImage (integralImage inImage [] [] []) radius mu x y)
              (adjustedDeviation inImage (integralImage inImage [] [] []) radius sigma x y)
              (windowStart x radius).toNat (windowStart y radius).toNat j i b) a)
          ({ sumP := ⟨some 0, some 0, some 0⟩, sumW := ⟨some 0, some 0, some 0⟩ }
            : MeanAcc F)).sumW := rfl
  rw [hcol, hn, Pixel.get_zip, hP, hW]
  simp only [qdiv, clampedSamples, windowSamples]
  rw [map_sum_range, map_sum_range, Nat.mul_comm (windowLen x radius inImage.width).toNat]
  congr 1
  · apply Finset.sum_congr rfl
    intro k hk
    rw [hsample k (Finset.mem_range.mp hk)]
  · apply Finset.sum_congr rfl
    intro k hk
    rw [hsample k (Finset.mem_range.mp hk)]

/-- The adjusted deviation of the red channel at the pixel `(1, 0)` of the
`3 × 1` image with red samples `0, 0, 1`, for `radius = 1` and a gain `sigma`
with `2^-64 ≤ sigma / 3 ≤ 127`. -/
theorem adjustedDeviation_rowImage {F : Type} [LinearOrderedField F] [FloorRing F]
    (sigma : F) (h1 : 1 ≤ sigma * (1 / 3) * 2 ^ 64) (h2 : sigma * (1 / 3) ≤ 127) :
    (adjustedDeviation (F := F) rowImage (integralImage rowImage [] [] []) 1 sigma 1 0).get .red
      = sigma * (1 / 3) := by
  have hsum : integralSum U32 (integralImage rowImage [] [] []).integral (rowImage.width + 1)
      (windowStart ((1 : Nat) : Int) 1).toNat (windowStart ((0 : Nat) : Int) 1).toNat
      (windowLen ((1 : Nat) : Int) 1 rowImage.width).toNat
      (windowLen ((0 : Nat) : Int) 1 rowImage.height).toNat = ⟨1, 0, 0⟩ := by decide
  have hsum2 : integralSum U64 (integralImage rowImage [] [] []).integral2
      (rowImage.width + 1)
      (windowStart ((1 : Nat) : Int) 1).toNat (windowStart ((0 : Nat) : Int) 1).toNat
      (windowLen ((1 : Nat) : Int) 1 rowImage.width).toNat
      (windowLen ((0 : Nat) : Int) 1 rowImage.height).toNat = ⟨1, 0, 0⟩ := by decide
  have hks : windowLen ((1 : Nat) : Int) 1 rowImage.width
      * windowLen ((0 : Nat) : Int) 1 rowImage.height = 3 := by decide
  have hrad : meanRadicand 3 ⟨1, 0, 0⟩ ⟨1, 0, 0⟩ = ⟨2, 0, 0⟩ := by decide
  simp only [adjustedDeviation, localDeviation, hsum, hsum2, hks, meanDeviation, hrad, sqrtU32,
    Pixel.map, Pixel.get, sqrt_two, fdiv, qBound, qmul]
  have h3 : ¬ (((3 : Int) : F) = 0) := by norm_num
  have e : ((1 : Nat) : F) / ((3 : Int) : F) = 1 / 3 := by norm_num
  have hpos : 0 < sigma * (1 / 3) := by
    by_contra hn
    have : sigma * (1 / 3) * 2 ^ 64 ≤ 0 :=
      mul_nonpos_of_nonpos_of_nonneg (not_lt.mp hn) (by positivity)
    linarith
  rw [if_neg h3, e]
  simp only [Option.map_some', underflow_of_ge _ h1]
  rw [min_eq_right h2, max_eq_right hpos.le]

/-- The clamped adjusted mean of the red channel at the pixel `(1, 0)` of the
`3 × 1` image with red samples `0, 0, 1`, for `radius = 1` and `mu = 0`. -/
theorem adjustedMean_rowImage {F : Type} [LinearOrderedField F] [FloorRing F] :
    (adjustedMean (F := F) rowImage (integralImage rowImage [] [] []) 1 0 1 0).get .red
      = 1 / 3 := by
  have hsum : integralSum U32 (integralImage rowImage [] [] []).integral (rowImage.width + 1)
      (windowStart ((1 : Nat) : Int) 1).toNat (windowStart ((0 : Nat) : Int) 1).toNat
      (windowLen ((1 : Nat) : Int) 1 rowImage.width).toNat
      (windowLen ((0 : Nat) : Int) 1 rowImage.height).toNat = ⟨1, 0, 0⟩ := by decide
  have hks : windowLen ((1 : Nat) : Int) 1 rowImage.width
      * windowLen ((0 : Nat) : Int) 1 rowImage.height = 3 := by decide
  simp only [adjustedMean, hsum, hks, Pixel.map, Pixel.get, fdiv, qBound, qadd]
  have h3 : ¬ (((3 : Int) : F) = 0) := by norm_num
  have e : ((1 : Nat) : F) / ((3 : Int) : F) + ((0 : Int) : F) = 1 / 3 := by norm_num
  rw [if_neg h3]
  simp only [e]
  rw [min_eq_right (by norm_num), max_eq_right (by norm_num)]

/-- C19 (as stated, refuted): the pixel `(1, 0)` of the `3 × 1` image with red
samples `0, 0, 1`, `radius = 1`, `mu = 0` and the gain `sigma = 1 / 1000`. The
adjusted deviation of the red channel is `1 / 3000`, not zero, and the mean is
`1 / 3`; the arguments of `exp` are `-500000` and `-2000000`, where the double
`exp` returns 0, so every weight is 0 and the colour `sumP / sumW` is `0 / 0`,
not the weighted mean. -/
theorem mean_weights_underflow :
    (adjustedDeviation (F := ℚ) rowImage (integralImage rowImage [] [] []) 1 (1 / 1000)
      1 0).get .red = 1 / 3000 ∧
    (adjustedMean (F := ℚ) rowImage (integralImage rowImage [] [] []) 1 0 1 0).get .red
      = 1 / 3 ∧
    clampedSamples rowImage .red 1 1 0 = [0, 0, 1] ∧
    (-((1 / 3 - ((0 : Nat) : ℚ)) ^ 2) / (2 * (1 / 3000) ^ 2) = -500000 ∧
      -((1 / 3 - ((1 : Nat) : ℚ)) ^ 2) / (2 * (1 / 3000) ^ 2) = -2000000) ∧
    (∀ s ∈ [0, 0, 1], sampleWeight expFlush (1 / 3) (1 / 3000) s = 0) ∧
    (meanColour expFlush rowImage (integralImage rowImage [] [] []) 1 0 (1 / 1000) 1 0).get .red
      = none := by
  have hdev : (adjustedDeviation (F := ℚ) rowImage (integralImage rowImage [] [] []) 1
      (1 / 1000) 1 0).get .red = 1 / 3000 := by
    rw [adjustedDeviation_rowImage (1 / 1000 : ℚ) (by norm_num) (by norm_num)]
    norm_num
  have hmean := adjustedMean_rowImage (F := ℚ)
  have hs : clampedSamples rowImage .red 1 1 0 = [0, 0, 1] := by decide
  have hw : ∀ s ∈ [0, 0, 1], sampleWeight expFlush (1 / 3) (1 / 3000) s = 0 := by
    intro s hs
    simp only [List.mem_cons, List.mem_singleton, List.not_mem_nil, or_false] at hs
    rcases hs with rfl | rfl | rfl <;> norm_num [sampleWeight, expFlush]
  refine ⟨hdev, hmean, hs, ⟨by norm_num, by norm_num⟩, hw, ?_⟩
  rw [meanColour_sums expFlush rowImage 1 0 (1 / 1000 : ℚ) 1 0 .red (by decide) (by decide)
    (by decide) (by rw [hdev, underflow_of_ge _ (by norm_num)]; norm_num), hdev, hmean, hs]
  simp only [List.map_cons, List.map_nil, hw 0 (by simp), hw 1 (by simp), List.sum_cons,
    List.sum_nil, add_zero, fdiv, if_true]

/-- C19 (amended): for every image, radius `≥ 0` and pixel, in each colour
channel for which the double `dev * dev` of the adjusted deviation `dev` is not
zero (`dev` is not zero and its square has not underflowed) and the weights do
not all underflow (their sum is not zero), the Adaptive Mean output before the
conversion to an integer is `(sum of w_s * s) / (sum of w_s)` over the samples
`s` of the channel in the clamped window, with
`w_s = exp(-(mean - s)^2 / (2 * dev^2))`, where `mean` and `dev` are the
clamped adjusted mean and deviation that the loop body computes for the
channel. `exp` is any function. -/
theorem mean_is_weighted_average {F : Type} [LinearOrderedField F] [FloorRing F]
    (exp : F → F) (inImage : QImage) (radius mu : Int) (sigma : F)
    (x y : Nat) (c : Channel) (hr : 0 ≤ radius) (hx : x < inImage.width)
    (hy : y < inImage.height)
    (hsq : underflow
      ((adjustedDeviation inImage (integralImage inImage [] [] []) radius sigma x y).get c
        * (adjustedDeviation inImage (integralImage inImage [] [] []) radius sigma x y).get c)
      ≠ 0)
    (hw : ((clampedSamples inImage c radius x y).map (fun s => sampleWeight exp
        ((adjustedMean (F := F) inImage (integralImage inImage [] [] []) radius mu x y).get c)
        ((adjustedDeviation inImage (integralImage inImage [] [] []) radius sigma x y).get c)
        s)).sum ≠ 0) :
    (adjustedDeviation inImage (integralImage inImage [] [] []) radius sigma x y).get c ≠ 0 ∧
    (meanColour exp inImage (integralImage inImage [] [] []) radius mu sigma x y).get c
      = some (weightedMean exp
          ((adjustedMean (F := F) inImage (integralImage inImage [] [] []) radius mu x y).get c)
          ((adjustedDeviation inImage (integralImage inImage [] [] []) radius sigma x y).get c)
          (clampedSamples inImage c radius x y)) := by
  constructor
  · intro h
    rw [h, mul_zero, underflow_zero] at hsq
    exact hsq rfl
  · rw [meanColour_sums exp inImage radius mu sigma x y c hr hx hy hsq, fdiv, if_neg hw]
    rfl

/-- Witness for C19: the real exponential function and the pixel `(1, 0)` of
the `3 × 1` image with red samples `0, 0, 1`, `radius = 1`, `mu = 0`,
`sigma = 1`, where the adjusted deviation is `1 / 3`. -/
theorem mean_is_weighted_average_witness :
    ((0 : Int) ≤ 1 ∧ 1 < rowImage.width ∧ 0 < rowImage.height ∧
      underflow
        ((adjustedDeviation (F := ℝ) rowImage (integralImage rowImage [] [] []) 1 1 1
            0).get .red
          * (adjustedDeviation (F := ℝ) rowImage (integralImage rowImage [] [] []) 1 1 1
            0).get .red) ≠ 0 ∧
      ((clampedSamples rowImage .red 1 1 0).map (fun s => sampleWeight Real.exp
        ((adjustedMean (F := ℝ) rowImage (integralImage rowImage [] [] []) 1 0 1 0).get .red)
        ((adjustedDeviation (F := ℝ) rowImage (integralImage rowImage [] [] []) 1 1 1
          0).get .red) s)).sum ≠ 0) ∧
    (adjustedDeviation (F := ℝ) rowImage (integralImage rowImage [] [] []) 1 1 1 0).get .red
      ≠ 0 ∧
    (meanColour Real.exp rowImage (integralImage rowImage [] [] []) 1 0 1 1 0).get .red
      = some (weightedMean Real.exp
          ((adjustedMean (F := ℝ) rowImage (integralImage rowImage [] [] []) 1 0 1 0).get .red)
          ((adjustedDeviation (F := ℝ) rowImage (integralImage rowImage [] [] []) 1 1 1
            0).get .red)
          (clampedSamples rowImage .red 1 1 0)) :=
  have hdev : (adjustedDeviation (F := ℝ) rowImage (integralImage rowImage [] [] []) 1 1 1
      0).get .red = 1 * (1 / 3) :=
    adjustedDeviation_rowImage (1 : ℝ) (by norm_num) (by norm_num)
  have hsq : underflow
      ((adjustedDeviation (F := ℝ) rowImage (integralImage rowImage [] [] []) 1 1 1
          0).get .red
        * (adjustedDeviation (F := ℝ) rowImage (integralImage rowImage [] [] []) 1 1 1
          0).get .red) ≠ 0 := by
    rw [hdev, underflow_of_ge _ (by norm_num)]
    norm_num
  have hw : ((clampedSamples rowImage .red 1 1 0).map (fun s => sampleWeight Real.exp
      ((adjustedMean (F := ℝ) rowImage (integralImage rowImage [] [] []) 1 0 1 0).get .red)
      ((adjustedDeviation (F := ℝ) rowImage (integralImage rowImage [] [] []) 1 1 1
        0).get .red) s)).sum ≠ 0 := by
    rw [show clampedSamples rowImage .red 1 1 0 = [0, 0, 1] by decide]
    simp only [List.map_cons, List.map_nil, List.sum_cons, List.sum_nil, sampleWeight]
    positivity
  ⟨⟨by decide, by decide, by decide, hsq, hw⟩,
    mean_is_weighted_average Real.exp rowImage 1 0 1 1 0 .red (by decide) (by decide)
      (by decide) hsq hw⟩

/-- C21: for every image, of any size, every entry of the 32-bit table
`integral` is the prefix sum of the channel modulo `2^32` (so it has wrapped
around when the prefix sum is `2^32` or more), and for every rectangle
`[x, x + kw) × [y, y + kh)` inside the image whose true channel sum is below
`2^32`, `integralSum` in 32-bit unsigned arithmetic returns exactly the true
sum of the channel over the rectangle. -/
theorem integralSum_exact_despite_wrap (image : QImage) (c : Channel) (x y kw kh : Nat)
    (hx : x + kw ≤ image.width) (hy : y + kh ≤ image.height)
    (hfit : ∑ j in Finset.range kh, ∑ i in Finset.range kw,
      c.ofRgb (image.constScanLine (y + j) (x + i)) < 2 ^ 32) :
    (∀ x1 y1, x1 ≤ image.width → y1 ≤ image.height →
      ((integralImage image [] [] []).integral.getD (x1 + y1 * (image.width + 1)) 0).get c
        = (∑ j in Finset.range y1, ∑ i in Finset.range x1,
            c.ofRgb (image.constScanLine j i)) % 2 ^ 32) ∧
    (integralSum U32 (integralImage image [] [] []).integral (image.width + 1) x y kw kh).get c
      = ∑ j in Finset.range kh, ∑ i in Finset.range kw,
          c.ofRgb (image.constScanLine (y + j) (x + i)) := by
  obtain ⟨h32, -⟩ := integralImage_tables image
  have hU : U32 = 2 ^ 32 := by norm_num [U32]
  constructor
  · intro x1 y1 hx1 hy1
    have h := h32.2 c x1 y1 hx1 hy1
    have hc : y1 < image.height ∨ (y1 = image.height ∧ x1 ≤ image.width) := by omega
    rw [if_pos hc, bruteSum_eq_sum, hU] at h
    simpa [chanVal] using h
  · have hb : bruteSum image (chanVal c) x y kw kh
        = ∑ j in Finset.range kh, ∑ i in Finset.range kw,
            c.ofRgb (image.constScanLine (y + j) (x + i)) := by
      rw [bruteSum_eq_sum]; rfl
    rw [← hb] at hfit ⊢
    exact integralSum_of_tableInv image U32 (Or.inl rfl) chanVal _ h32 c x y kw kh hx hy
      (by rw [hU]; exact hfit)

/-- Witness for C21: the all-255 image of `8192 × 8192` pixels and the `7 × 7`
rectangle in its last corner. The prefix sum at the far corner of the table is
`255 * 8192 * 8192 = 17112760320`, stored as `4227858432`; the sum over the
rectangle is `12495`. -/
theorem integralSum_exact_despite_wrap_witness :
    8185 + 7 ≤ (maxImage 8192 8192).width ∧ 8185 + 7 ≤ (maxImage 8192 8192).height ∧
    (∑ j in Finset.range 7, ∑ i in Finset.range 7,
      Channel.red.ofRgb ((maxImage 8192 8192).constScanLine (8185 + j) (8185 + i))) < 2 ^ 32 ∧
    ((integralImage (maxImage 8192 8192) [] [] []).integral.getD
        (8192 + 8192 * ((maxImage 8192 8192).width + 1)) 0).get .red = 4227858432 ∧
    (∑ j in Finset.range 8192, ∑ i in Finset.range 8192,
      Channel.red.ofRgb ((maxImage 8192 8192).constScanLine j i)) = 17112760320 ∧
    (integralSum U32 (integralImage (maxImage 8192 8192) [] [] []).integral
        ((maxImage 8192 8192).width + 1) 8185 8185 7 7).get .red = 12495 := by
  have hv : ∀ j i, Channel.red.ofRgb ((maxImage 8192 8192).constScanLine j i) = 255 :=
    fun _ _ => (by decide : qRed 4294967295 = 255)
  have hfit : (∑ j in Finset.range 7, ∑ i in Finset.range 7,
      Channel.red.ofRgb ((maxImage 8192 8192).constScanLine (8185 + j) (8185 + i)))
        < 2 ^ 32 := by
    simp only [hv]; simp
  have h := integralSum_exact_despite_wrap (maxImage 8192 8192) .red 8185 8185 7 7
    (by decide) (by decide) hfit
  refine ⟨by decide, by decide, hfit, ?_, ?_, ?_⟩
  · rw [h.1 8192 8192 (by decide) (by decide)]
    simp only [hv]; simp
  · simp only [hv]; simp
  · rw [h.2]
    simp only [hv]; simp

/-- The function `integralSum` reads the table at the offsets of
`integralSumOffsets` and nowhere else. -/
theorem integralSum_reads (M : Nat) (t1 t2 : List (Pixel Nat)) (lineWidth x y kw kh : Nat)
    (h : ∀ p ∈ integralSumOffsets lineWidth x y kw kh, t1.getD p 0 = t2.getD p 0) :
    integralSum M t1 lineWidth x y kw kh = integralSum M t2 lineWidth x y kw kh := by
  simp only [integralSumOffsets, List.mem_cons, List.mem_singleton, List.not_mem_nil,
    or_false, forall_eq_or_imp, forall_eq] at h
  obtain ⟨h0, h3, h1, h2⟩ := h
  simp only [integralSum, h0, h1, h2, h3]

/-- The scratch buffer that the Median loop body leaves: `kw * kh` sorted
samples in each plane. -/
theorem medianPixel_buffer (inImage : QImage) (image : Buffer) (radius : Int)
    (buffer : Buffer) (x y : Nat) (c : Channel) :
    (medianPixel inImage image radius buffer x y).2.size
      = (windowLen x radius inImage.width).toNat
        * (windowLen y radius inImage.height).toNat ∧
    ((medianPixel inImage image radius buffer x y).2.plane c).length
      = (windowLen x radius inImage.width).toNat
        * (windowLen y radius inImage.height).toNat := by
  have hss : ∀ b : Buffer, b.sort.size = b.size := fun b => rfl
  have hsp : ∀ (b : Buffer) (c : Channel), b.sort.plane c = qSort (b.plane c) :=
    fun b c => (sort_plane b c).1
  have hcs : ∀ (n : Nat) (f : Nat → Nat) (b : Buffer),
      (forLoop n (fun j buf => buf.copy j image (f j)) b).size = b.size := by
    intro n f b
    induction n with
    | zero => rfl
    | succ k ih => simpa [forLoop, Buffer.copy] using ih
  obtain ⟨hw, hs, hl⟩ := resize_plane buffer (windowLen x radius inImage.width).toNat
    (windowLen y radius inImage.height).toNat c
  constructor
  · simp only [medianPixel, hss, hcs, hs]
  · simp only [medianPixel, hsp, qSort, List.length_insertionSort]
    exact (copy_loop_plane image _ _ _ _ _ c hw hl).1

/-- C22: for every image, `radius ≥ 0` and pixel `(x, y)` of the image (so
`W, H ≥ 1`), with the window `xp, yp, kw, kh` of the pixel, the window-based
loops stay inside their arrays. Adaptive Mean: both tables have
`(W + 1) * (H + 1)` entries and the four offsets read by `integralSum` are
below that; `planes` has `W * H` entries and every sample offset
`(yp + j) * W + (xp + i)` is below that. Median and Pseudo-Median: the planes
of `Buffer image(inImage)` have `W * H` entries and every offset
`constPixel(xp, yp + j) + i` read is below that. Median: the scratch buffer has
`size` entries per plane after `resize`, the copy to line `j` writes below
`size`, and after the sort the selected index `size / 2` is below `size`, the
length of each plane. -/
theorem window_accesses_in_bounds (inImage : QImage) (radius : Int) (x y : Nat)
    (hr : 0 ≤ radius) (hx : x < inImage.width) (hy : y < inImage.height)
    (xp yp kw kh : Nat)
    (hxp : xp = (windowStart x radius).toNat) (hyp : yp = (windowStart y radius).toNat)
    (hkw : kw = (windowLen x radius inImage.width).toNat)
    (hkh : kh = (windowLen y radius inImage.height).toNat) :
    ((integralImage inImage [] [] []).integral.length
        = (inImage.width + 1) * (inImage.height + 1) ∧
      (integralImage inImage [] [] []).integral2.length
        = (inImage.width + 1) * (inImage.height + 1) ∧
      ∀ p ∈ integralSumOffsets (inImage.width + 1) xp yp kw kh,
        p < (inImage.width + 1) * (inImage.height + 1)) ∧
    ((integralImage inImage [] [] []).planes.length = inImage.width * inImage.height ∧
      ∀ j i, j < kh → i < kw →
        (yp + j) * inImage.width + (xp + i) < inImage.width * inImage.height) ∧
    ((∀ c, ((Buffer.ofImage inImage).plane c).length = inImage.width * inImage.height) ∧
      ∀ j i, j < kh → i < kw →
        (Buffer.ofImage inImage).constPixel xp (yp + j) + i
          < inImage.width * inImage.height) ∧
    (∀ buffer : Buffer,
      (∀ c, ((buffer.resize kw kh).plane c).length = (buffer.resize kw kh).size) ∧
      (∀ j k, j < kh → k < (buffer.resize kw kh).width →
        j * (buffer.resize kw kh).width + k < (buffer.resize kw kh).size) ∧
      (∀ c, ((medianPixel inImage (Buffer.ofImage inImage) radius buffer x y).2.plane c).length
        = (medianPixel inImage (Buffer.ofImage inImage) radius buffer x y).2.size) ∧
      (medianPixel inImage (Buffer.ofImage inImage) radius buffer x y).2.size / 2
        < (medianPixel inImage (Buffer.ofImage inImage) radius buffer x y).2.size) := by
  obtain ⟨hkw1, -, -, hxw⟩ := window_nat x inImage.width radius hr hx
  obtain ⟨hkh1, -, -, hyh⟩ := window_nat y inImage.height radius hr hy
  rw [← hkw, ← hxp] at hxw
  rw [← hkh, ← hyp] at hyh
  rw [← hkw] at hkw1
  rw [← hkh] at hkh1
  have hidx : ∀ j i, j < kh → i < kw →
      xp + i + (yp + j) * inImage.width < inImage.width * inImage.height :=
    fun j i hj hi => pixel_index_lt (xp + i) (yp + j) _ _ (by omega) (by omega)
  refine ⟨⟨(integralImage_tables inImage).1.1, (integralImage_tables inImage).2.1, ?_⟩,
    ⟨(integralImage_planes inImage).1, ?_⟩,
    ⟨fun c => (ofImage_plane inImage c).1, ?_⟩, ?_⟩
  · intro p hp
    simp only [integralSumOffsets, List.mem_cons, List.mem_singleton, List.not_mem_nil,
      or_false] at hp
    have h3 := index_lt inImage.width inImage.height (xp + kw) (yp + kh) hxw hyh
    have e : (yp + kh) * (inImage.width + 1)
        = yp * (inImage.width + 1) + kh * (inImage.width + 1) := Nat.add_mul _ _ _
    rcases hp with rfl | rfl | rfl | rfl <;> omega
  · intro j i hj hi
    have := hidx j i hj hi
    omega
  · intro j i hj hi
    have := hidx j i hj hi
    have hw : (Buffer.ofImage inImage).width = inImage.width := ofImage_width inImage
    simp only [Buffer.constPixel, hw]
    omega
  · intro buffer
    refine ⟨fun c => ?_, ?_, fun c => ?_, ?_⟩
    · obtain ⟨-, hs, hl⟩ := resize_plane buffer kw kh c
      rw [hs, hl]
    · intro j k hj hk
      obtain ⟨hw, hs, -⟩ := resize_plane buffer kw kh .red
      rw [hw] at hk ⊢
      rw [hs]
      calc j * kw + k < j * kw + kw := by omega
        _ = kw * (j + 1) := by ring
        _ ≤ kw * kh := Nat.mul_le_mul_left _ hj
    · obtain ⟨hs, hl⟩ := medianPixel_buffer inImage (Buffer.ofImage inImage) radius buffer x y c
      rw [hs, hl]
    · obtain ⟨hs, -⟩ := medianPixel_buffer inImage (Buffer.ofImage inImage) radius buffer x y
        .red
      rw [hs, ← hkw, ← hkh]
      have : 0 < kw * kh := Nat.mul_pos hkw1 hkh1
      omega

/-- Witness for C22: the pixel `(2, 1)` of the `3 × 2` test image with
`radius = 1`, whose window is `xp = 1`, `yp = 0`, `kw = 2`, `kh = 2`. -/
theorem window_accesses_in_bounds_witness :
    ((0 : Int) ≤ 1 ∧ 2 < testImage.width ∧ 1 < testImage.height ∧
      1 = (windowStart (2 : Nat) 1).toNat ∧ 0 = (windowStart (1 : Nat) 1).toNat ∧
      2 = (windowLen (2 : Nat) 1 testImage.width).toNat ∧
      2 = (windowLen (1 : Nat) 1 testImage.height).toNat) ∧
    ((integralImage testImage [] [] []).integral.length
        = (testImage.width + 1) * (testImage.height + 1) ∧
      (integralImage testImage [] [] []).integral2.length
        = (testImage.width + 1) * (testImage.height + 1) ∧
      ∀ p ∈ integralSumOffsets (testImage.width + 1) 1 0 2 2,
        p < (testImage.width + 1) * (testImage.height + 1)) ∧
    ((integralImage testImage [] [] []).planes.length = testImage.width * testImage.height ∧
      ∀ j i, j < 2 → i < 2 →
        (0 + j) * testImage.width + (1 + i) < testImage.width * testImage.height) ∧
    ((∀ c, ((Buffer.ofImage testImage).plane c).length = testImage.width * testImage.height) ∧
      ∀ j i, j < 2 → i < 2 →
        (Buffer.ofImage testImage).constPixel 1 (0 + j) + i
          < testImage.width * testImage.height) ∧
    (∀ buffer : Buffer,
      (∀ c, ((buffer.resize 2 2).plane c).length = (buffer.resize 2 2).size) ∧
      (∀ j k, j < 2 → k < (buffer.resize 2 2).width →
        j * (buffer.resize 2 2).width + k < (buffer.resize 2 2).size) ∧
      (∀ c, ((medianPixel testImage (Buffer.ofImage testImage) 1 buffer 2 1).2.plane c).length
        = (medianPixel testImage (Buffer.ofImage testImage) 1 buffer 2 1).2.size) ∧
      (medianPixel testImage (Buffer.ofImage testImage) 1 buffer 2 1).2.size / 2
        < (medianPixel testImage (Buffer.ofImage testImage) 1 buffer 2 1).2.size) :=
  ⟨⟨by decide, by decide, by decide, by decide, by decide, by decide, by decide⟩,
    window_accesses_in_bounds testImage 1 2 1 (by decide) (by decide) (by decide) 1 0 2 2
      (by decide) (by decide) (by decide) (by decide)⟩

/-- The samples of a window are the channel values of the pixels of the
window. -/
theorem mem_windowSamples (image : QImage) (c : Channel) (xp yp kw kh v : Nat) :
    v ∈ windowSamples image c xp yp kw kh ↔
      ∃ i j, xp ≤ i ∧ i < xp + kw ∧ yp ≤ j ∧ j < yp + kh ∧
        v = c.ofRgb (image.constScanLine j i) := by
  constructor
  · intro hv
    simp only [windowSamples, List.mem_map, List.mem_range] at hv
    obtain ⟨k, hk, rfl⟩ := hv
    obtain ⟨h1, h2⟩ := flat_index_lt k kw kh hk
    exact ⟨xp + k % kw, yp + k / kw, Nat.le_add_right _ _, Nat.add_lt_add_left h1 _,
      Nat.le_add_right _ _, Nat.add_lt_add_left h2 _, rfl⟩
  · rintro ⟨i, j, hi1, hi2, hj1, hj2, rfl⟩
    have hkw : 0 < kw := by omega
    have hk : (i - xp) + (j - yp) * kw < kw * kh := by
      calc (i - xp) + (j - yp) * kw < kw + (j - yp) * kw := by omega
        _ = kw * ((j - yp) + 1) := by ring
        _ ≤ kw * kh := Nat.mul_le_mul_left _ (by omega)
    have h := windowSamples_mem image c xp yp kw kh _ hk
    have e1 : ((i - xp) + (j - yp) * kw) % kw = i - xp := by
      rw [Nat.add_mul_mod_self_right, Nat.mod_eq_of_lt (by omega)]
    have e2 : ((i - xp) + (j - yp) * kw) / kw = j - yp := by
      rw [Nat.add_mul_div_right _ _ hkw, Nat.div_eq_of_lt (by omega), Nat.zero_add]
    rw [e1, e2] at h
    have e3 : xp + (i - xp) = i := by omega
    have e4 : yp + (j - yp) = j := by omega
    rwa [e3, e4] at h

/-- An ascending list lies between its first and its last element. -/
theorem sorted_getD_bounds (s : List Nat) (hs : s.Sorted (· ≤ ·)) (v : Nat) (hv : v ∈ s) :
    s.getD 0 0 ≤ v ∧ v ≤ s.getD (s.length - 1) 0 := by
  obtain ⟨k, hk, rfl⟩ := List.getElem_of_mem hv
  have h0 : 0 < s.length := by omega
  have hl : s.length - 1 < s.length := by omega
  rw [List.getD_eq_getElem s 0 h0, List.getD_eq_getElem s 0 hl]
  constructor
  · exact hs.rel_get_of_le (a := ⟨0, h0⟩) (b := ⟨k, hk⟩) (Nat.zero_le _)
  · exact hs.rel_get_of_le (a := ⟨k, hk⟩) (b := ⟨s.length - 1, hl⟩)
      (show k ≤ s.length - 1 by omega)

/-- The Median output channel is one of the samples of the clamped window. -/
theorem medianOutput_mem (inImage : QImage) (radius : Int) (buffer : Buffer) (x y : Nat)
    (c : Channel) (hr : 0 ≤ radius) (hx : x < inImage.width) (hy : y < inImage.height) :
    c.ofRgb (medianOutput inImage radius buffer x y) ∈ clampedSamples inImage c radius x y := by
  rw [medianOutput_eq inImage radius buffer x y c hr hx hy]
  obtain ⟨hkw1, -⟩ := window_nat x inImage.width radius hr hx
  obtain ⟨hkh1, -⟩ := window_nat y inImage.height radius hr hy
  have hlen : (qSort (clampedSamples inImage c radius x y)).length
      = (windowLen x radius inImage.width).toNat
        * (windowLen y radius inImage.height).toNat := by
    simp [qSort, clampedSamples, windowSamples, List.length_insertionSort]
  have hpos : 0 < (windowLen x radius inImage.width).toNat
      * (windowLen y radius inImage.height).toNat := Nat.mul_pos hkw1 hkh1
  have hk : (windowLen x radius inImage.width).toNat
      * (windowLen y radius inImage.height).toNat / 2
        < (qSort (clampedSamples inImage c radius x y)).length := by
    rw [hlen]; omega
  rw [List.getD_eq_getElem _ 0 hk]
  exact (List.perm_insertionSort (· ≤ ·) _).mem_iff.mp (List.getElem_mem _)

/-- C23: for every image, `radius ≥ 0`, pixel `(x, y)` of the image and
channel, the Median output channel at `(x, y)` is the value of the channel at
some input pixel `(i, j)` inside the clamped window of `(x, y)`, and it lies
between the values at two pixels of the window that hold the minimum and the
maximum of the channel over the window (whatever the scratch buffer held
before). -/
theorem median_between_window_extremes (inImage : QImage) (radius : Int) (buffer : Buffer)
    (x y : Nat) (c : Channel) (hr : 0 ≤ radius) (hx : x < inImage.width)
    (hy : y < inImage.height) :
    (∃ i j, inWindow inImage radius x y i j ∧ i < inImage.width ∧ j < inImage.height ∧
      c.ofRgb (medianOutput inImage radius buffer x y)
        = c.ofRgb (inImage.constScanLine j i)) ∧
    (∃ i1 j1 i2 j2, inWindow inImage radius x y i1 j1 ∧ inWindow inImage radius x y i2 j2 ∧
      (∀ i j, inWindow inImage radius x y i j →
        c.ofRgb (inImage.constScanLine j1 i1) ≤ c.ofRgb (inImage.constScanLine j i) ∧
        c.ofRgb (inImage.constScanLine j i) ≤ c.ofRgb (inImage.constScanLine j2 i2)) ∧
      c.ofRgb (inImage.constScanLine j1 i1) ≤ c.ofRgb (medianOutput inImage radius buffer x y) ∧
      c.ofRgb (medianOutput inImage radius buffer x y)
        ≤ c.ofRgb (inImage.constScanLine j2 i2)) := by
  obtain ⟨-, -, -, hxw⟩ := window_nat x inImage.width radius hr hx
  obtain ⟨-, -, -, hyh⟩ := window_nat y inImage.height radius hr hy
  have hmem := medianOutput_mem inImage radius buffer x y c hr hx hy
  have hiff : ∀ v, v ∈ clampedSamples inImage c radius x y ↔
      ∃ i j, inWindow inImage radius x y i j ∧ v = c.ofRgb (inImage.constScanLine j i) := by
    intro v
    simp only [clampedSamples, mem_windowSamples, inWindow, and_assoc]
  have hsorted : (qSort (clampedSamples inImage c radius x y)).Sorted (· ≤ ·) :=
    List.sorted_insertionSort (· ≤ ·) _
  have hperm : (qSort (clampedSamples inImage c radius x y)).Perm
      (clampedSamples inImage c radius x y) := List.perm_insertionSort (· ≤ ·) _
  have hne : qSort (clampedSamples inImage c radius x y) ≠ [] := by
    intro h
    have := hperm.mem_iff.mpr hmem
    rw [h] at this
    exact List.not_mem_nil _ this
  have hpos : 0 < (qSort (clampedSamples inImage c radius x y)).length :=
    List.length_pos.mpr hne
  have hlo : (qSort (clampedSamples inImage c radius x y)).getD 0 0
      ∈ clampedSamples inImage c radius x y := by
    rw [List.getD_eq_getElem _ 0 hpos]
    exact hperm.mem_iff.mp (List.getElem_mem _)
  have hhi : (qSort (clampedSamples inImage c radius x y)).getD
      ((qSort (clampedSamples inImage c radius x y)).length - 1) 0
      ∈ clampedSamples inImage c radius x y := by
    rw [List.getD_eq_getElem _ 0 (by omega)]
    exact hperm.mem_iff.mp (List.getElem_mem _)
  have hb := fun v (hv : v ∈ clampedSamples inImage c radius x y) =>
    sorted_getD_bounds _ hsorted v (hperm.mem_iff.mpr hv)
  constructor
  · obtain ⟨i, j, hw, hv⟩ := (hiff _).mp hmem
    exact ⟨i, j, hw, by have := hw.2.1; omega, by have := hw.2.2.2; omega, hv⟩
  · obtain ⟨i1, j1, hw1, hv1⟩ := (hiff _).mp hlo
    obtain ⟨i2, j2, hw2, hv2⟩ := (hiff _).mp hhi
    refine ⟨i1, j1, i2, j2, hw1, hw2, ?_, ?_, ?_⟩
    · intro i j hw
      have := hb _ ((hiff _).mpr ⟨i, j, hw, rfl⟩)
      rw [hv1, hv2] at this
      exact this
    · rw [← hv1]; exact (hb _ hmem).1
    · rw [← hv2]; exact (hb _ hmem).2

/-- Witness for C23: the centre pixel of the `3 × 3` test image with
`radius = 1`, red channel. -/
theorem median_between_window_extremes_witness :
    ((0 : Int) ≤ 1 ∧ 1 < windowImage.width ∧ 1 < windowImage.height) ∧
    (∃ i j, inWindow windowImage 1 1 1 i j ∧ i < windowImage.width ∧ j < windowImage.height ∧
      Channel.red.ofRgb (medianOutput windowImage 1 Buffer.empty 1 1)
        = Channel.red.ofRgb (windowImage.constScanLine j i)) ∧
    (∃ i1 j1 i2 j2, inWindow windowImage 1 1 1 i1 j1 ∧ inWindow windowImage 1 1 1 i2 j2 ∧
      (∀ i j, inWindow windowImage 1 1 1 i j →
        Channel.red.ofRgb (windowImage.constScanLine j1 i1)
          ≤ Channel.red.ofRgb (windowImage.constScanLine j i) ∧
        Channel.red.ofRgb (windowImage.constScanLine j i)
          ≤ Channel.red.ofRgb (windowImage.constScanLine j2 i2)) ∧
      Channel.red.ofRgb (windowImage.constScanLine j1 i1)
        ≤ Channel.red.ofRgb (medianOutput windowImage 1 Buffer.empty 1 1) ∧
      Channel.red.ofRgb (medianOutput windowImage 1 Buffer.empty 1 1)
        ≤ Channel.red.ofRgb (windowImage.constScanLine j2 i2)) :=
  ⟨⟨by decide, by decide, by decide⟩,
    median_between_window_extremes windowImage 1 Buffer.empty 1 1 .red (by decide) (by decide)
      (by decide)⟩

/-- In an ascending list at least `k + 1` elements are at most `v` when the
element at index `k` is. -/
theorem sorted_count_of_le (s : List Nat) (hs : s.Sorted (· ≤ ·)) (k : Nat)
    (hk : k < s.length) (v : Nat) (hv : s.getD k 0 ≤ v) :
    k < s.countP (· ≤ v) := by
  rw [List.getD_eq_getElem s 0 hk] at hv
  have hall : ∀ a ∈ s.take (k + 1), a ≤ v := by
    intro a ha
    obtain ⟨i, hi, rfl⟩ := List.getElem_of_mem ha
    rw [List.length_take] at hi
    rw [List.getElem_take]
    have hik : i ≤ k := by omega
    have := hs.rel_get_of_le (a := ⟨i, by omega⟩) (b := ⟨k, hk⟩) hik
    exact Nat.le_trans this hv
  have h1 : (s.take (k + 1)).countP (· ≤ v) = k + 1 := by
    rw [List.countP_eq_length.mpr (by simpa using hall), List.length_take]
    omega
  have h2 : s.countP (· ≤ v)
      = (s.take (k + 1)).countP (· ≤ v) + (s.drop (k + 1)).countP (· ≤ v) := by
    rw [← List.countP_append, List.take_append_drop]
  omega

/-- In an ascending list the element at index `k` is at most `v` when more
than `k` elements are. -/
theorem sorted_le_of_count (s : List Nat) (hs : s.Sorted (· ≤ ·)) (k : Nat)
    (hk : k < s.length) (v : Nat) (hc : k < s.countP (· ≤ v)) :
    s.getD k 0 ≤ v := by
  rw [List.getD_eq_getElem s 0 hk]
  by_contra hlt
  have hnone : ∀ a ∈ s.drop k, ¬ a ≤ v := by
    intro a ha
    obtain ⟨i, hi, rfl⟩ := List.getElem_of_mem ha
    rw [List.length_drop] at hi
    rw [List.getElem_drop]
    have := hs.rel_get_of_le (a := ⟨k, hk⟩) (b := ⟨k + i, by omega⟩) (Nat.le_add_right _ _)
    simp only [List.get_eq_getElem] at this
    omega
  have h0 : (s.drop k).countP (· ≤ v) = 0 := by
    rw [List.countP_eq_zero]
    simpa using hnone
  have h1 : (s.take k).countP (· ≤ v) ≤ k := by
    refine Nat.le_trans (List.countP_le_length _) ?_
    rw [List.length_take]
    omega
  have h2 : s.countP (· ≤ v)
      = (s.take k).countP (· ≤ v) + (s.drop k).countP (· ≤ v) := by
    rw [← List.countP_append, List.take_append_drop]
  omega

/-- Raising every element of a list lowers the number of elements that are at
most `v`. -/
theorem countP_map_mono (L : List Nat) (f g : Nat → Nat) (h : ∀ k ∈ L, f k ≤ g k) (v : Nat) :
    (L.map g).countP (· ≤ v) ≤ (L.map f).countP (· ≤ v) := by
  induction L with
  | nil => simp
  | cons a t ih =>
    have ha := h a (List.mem_cons_self _ _)
    have ht := ih (fun k hk => h k (List.mem_cons_of_mem _ hk))
    simp only [List.map_cons, List.countP_cons]
    by_cases hg : g a ≤ v
    · have hf : f a ≤ v := Nat.le_trans ha hg
      rw [if_pos (by simpa using hg), if_pos (by simpa using hf)]
      omega
    · rw [if_neg (by simpa using hg)]
      split <;> omega

/-- Order statistics are monotone: raising every element of a list raises
every element of its ascending sort. -/
theorem qSort_map_mono (L : List Nat) (f g : Nat → Nat) (h : ∀ k ∈ L, f k ≤ g k) (k : Nat)
    (hk : k < L.length) :
    (qSort (L.map f)).getD k 0 ≤ (qSort (L.map g)).getD k 0 := by
  have hlf : (qSort (L.map f)).length = L.length := by
    simp [qSort, List.length_insertionSort]
  have hlg : (qSort (L.map g)).length = L.length := by
    simp [qSort, List.length_insertionSort]
  have hsf : (qSort (L.map f)).Sorted (· ≤ ·) := List.sorted_insertionSort (· ≤ ·) _
  have hsg : (qSort (L.map g)).Sorted (· ≤ ·) := List.sorted_insertionSort (· ≤ ·) _
  have hpf : (qSort (L.map f)).Perm (L.map f) := List.perm_insertionSort (· ≤ ·) _
  have hpg : (qSort (L.map g)).Perm (L.map g) := List.perm_insertionSort (· ≤ ·) _
  apply sorted_le_of_count _ hsf k (by omega)
  have h1 := sorted_count_of_le _ hsg k (by omega) _ (Nat.le_refl _)
  rw [hpg.countP_eq] at h1
  rw [hpf.countP_eq]
  exact Nat.lt_of_lt_of_le h1 (countP_map_mono L f g h _)

/-- The Median loop body is monotone in the image, pixel by pixel. -/
theorem medianOutput_mono (A B : QImage) (radius : Int) (bufA bufB : Buffer)
    (hr : 0 ≤ radius) (hw : A.width = B.width) (hh : A.height = B.height)
    (hle : ∀ (c : Channel) (x y : Nat), x < A.width → y < A.height →
      c.ofRgb (A.constScanLine y x) ≤ c.ofRgb (B.constScanLine y x))
    (c : Channel) (x y : Nat) (hx : x < A.width) (hy : y < A.height) :
    c.ofRgb (medianOutput A radius bufA x y) ≤ c.ofRgb (medianOutput B radius bufB x y) := by
  rw [medianOutput_eq A radius bufA x y c hr hx hy,
    medianOutput_eq B radius bufB x y c hr (hw ▸ hx) (hh ▸ hy)]
  obtain ⟨hkw1, -, -, hxw⟩ := window_nat x A.width radius hr hx
  obtain ⟨hkh1, -, -, hyh⟩ := window_nat y A.height radius hr hy
  simp only [clampedSamples, windowSamples, ← hw, ← hh]
  apply qSort_map_mono
  · intro k hk
    rw [List.mem_range] at hk
    obtain ⟨h1, h2⟩ := flat_index_lt k _ _ hk
    exact hle c ((windowStart x radius).toNat + k % (windowLen x radius A.width).toNat)
      ((windowStart y radius).toNat + k / (windowLen x radius A.width).toNat)
      (by omega) (by omega)
  · rw [List.length_range]
    have := Nat.mul_pos hkw1 hkh1
    omega

/-- C24: the Median filter is monotone. For every `radius ≥ 0` and every two
images `A` and `B` of the same size such that every channel of every pixel of
`A` is at most the same channel of the same pixel of `B`, every channel of
every pixel of the Median output for `A` is at most the same channel of the
same pixel of the Median output for `B` (whatever the output images held
before). -/
theorem median_monotone (A B : QImage) (radius : Int) (garbageA garbageB : Nat → Nat)
    (hr : 0 ≤ radius) (hw : A.width = B.width) (hh : A.height = B.height)
    (hle : ∀ (c : Channel) (x y : Nat), x < A.width → y < A.height →
      c.ofRgb (A.constScanLine y x) ≤ c.ofRgb (B.constScanLine y x)) :
    ∀ (c : Channel) (x y : Nat), x < A.width → y < A.height →
      c.ofRgb ((medianFilter A radius garbageA).constScanLine y x)
        ≤ c.ofRgb ((medianFilter B radius garbageB).constScanLine y x) := by
  intro c x y hx hy
  rw [(medianFilter_pixels A radius garbageA).2.2 x y hx hy Buffer.empty,
    (medianFilter_pixels B radius garbageB).2.2 x y (hw ▸ hx) (hh ▸ hy) Buffer.empty]
  exact medianOutput_mono A B radius _ _ hr hw hh hle c x y hx hy

/-- Witness for C24: the `3 × 2` test image and the all-255 image of the same
size, with `radius = 1`. -/
theorem median_monotone_witness :
    ((0 : Int) ≤ 1 ∧ testImage.width = (maxImage 3 2).width ∧
      testImage.height = (maxImage 3 2).height ∧
      ∀ (c : Channel) (x y : Nat), x < testImage.width → y < testImage.height →
        Channel.ofRgb c (testImage.constScanLine y x)
          ≤ Channel.ofRgb c ((maxImage 3 2).constScanLine y x)) ∧
    ∀ (c : Channel) (x y : Nat), x < testImage.width → y < testImage.height →
      Channel.ofRgb c ((medianFilter testImage 1 (fun _ => 0)).constScanLine y x)
        ≤ Channel.ofRgb c ((medianFilter (maxImage 3 2) 1 (fun _ => 0)).constScanLine y x) :=
  have h : ∀ (c : Channel) (x y : Nat), x < testImage.width → y < testImage.height →
      Channel.ofRgb c (testImage.constScanLine y x)
        ≤ Channel.ofRgb c ((maxImage 3 2).constScanLine y x) := fun c _ _ _ _ =>
    Nat.le_trans (ofRgb_le c _) ((by cases c <;> decide) : 255 ≤ c.ofRgb 4294967295)
  ⟨⟨by decide, by decide, by decide, h⟩,
    median_monotone testImage (maxImage 3 2) 1 (fun _ => 0) (fun _ => 0) (by decide) (by decide)
      (by decide) h⟩

end DenoiseFilters
